import Mathlib

/-!
Column-stored sequence alignments.

A shallow embedding of the Go package `exp/seq/alignment` (files `alignment.go`
and `qalignment.go`): the plain alignment `Seq`, the quality alignment `QSeq`
and their row views `Row` and `QRow`.

Go slices are references, and several properties of the package are about which
storage is shared (a row view writes into its alignment, `Copy` duplicates the
column buffers).  The embedding therefore keeps an explicit heap of backing
arrays; a slice is a header naming its backing array and carrying its length.
A slice starts at the first element of its backing array, whose length is the
capacity of the slice.

Calls that can fail at run time (index out of range, a failed type assertion,
a negative length given to `make`) yield the `panic` outcome.
-/

set_option linter.dupNamespace false

namespace Alignment

/-! ## Letters, strands, alphabets, annotations -/

/-- The type `alphabet.Letter`, a byte. -/
abbrev Letter := Nat

/-- The type `alphabet.Qphred`, a byte holding a Phred quality score. -/
abbrev Qphred := Nat

/-- The type `alphabet.QLetter`: a letter with its quality. -/
structure QLetter where
  L : Letter
  Q : Qphred
deriving DecidableEq, Repr

/-- The zero value of `alphabet.QLetter`. -/
def QLetter.zero : QLetter := { L := 0, Q := 0 }

/-- Modelled from the spec: the declaration of `seq.Strand` is not among the
source files; the spec gives the strand of a sequence or row as an enumeration
of forward, reverse and none.  `None` is the zero value. -/
inductive Strand where
  | Forward
  | Reverse
  | None
deriving DecidableEq, Repr

/-- Modelled from the spec: unary minus on a strand, written `-s.Strand` in the
source: it flips the orientation and keeps `None`. -/
def Strand.neg : Strand → Strand
  | .Forward => .Reverse
  | .Reverse => .Forward
  | .None => .None

/-- The type `feat.Conformation`, an integer code of the topology. -/
abbrev Conformation := Int

/-- The type `alphabet.Encoding`, an integer code of the quality encoding. -/
abbrev Encoding := Int

/-- What the package uses of an `alphabet.Alphabet` value: its gap letter, and
its complement table when the alphabet is an `alphabet.Complementor`. -/
structure Alphabet where
  Gap : Letter
  ComplementTable : Option (Letter → Letter)

/-- The fields of `seq.Annotation` that the package reads or writes.  `Loc` is a
reference to a feature and `Alpha` is `none` for the nil interface value. -/
structure Annotation where
  ID : String
  Desc : String
  Loc : Option Nat
  Strand : Strand
  Conform : Conformation
  Offset : Int
  Alpha : Option Alphabet

/-- The zero value of `seq.Annotation`, as produced by `make`. -/
def zeroAnn : Annotation :=
  { ID := "", Desc := "", Loc := none, Strand := Strand.None, Conform := 0,
    Offset := 0, Alpha := none }

/-- A `seq.ConsenseFunc` value held by an alignment.  The function receives the
alignment itself, so the field holds a reference that the caller of `Consensus`
interprets. -/
abbrev ConsenseFunc := Nat

/-- The type `seq.QFilter`: alphabet, sentinel byte and quality letter to letter. -/
abbrev QFilter := Option Alphabet → Nat → QLetter → Letter

/-! ## Slices and the heap -/

/-- A slice header: the backing array it points into and its length. -/
structure Slice where
  addr : Nat
  len : Nat
deriving DecidableEq, Repr

/-- Backing arrays of one element type, addressed by their position. -/
abbrev Mem (α : Type) := List (List α)

/-- The backing array at address `a` (empty when nothing is allocated there). -/
def Mem.buf {α : Type} (m : Mem α) (a : Nat) : List α := (m[a]?).getD []

/-- A slice is valid when its length fits its backing array. -/
def Mem.valid {α : Type} (m : Mem α) (c : Slice) : Prop := c.len ≤ (m.buf c.addr).length

/-- The elements of slice `c`. -/
def Mem.contents {α : Type} (m : Mem α) (c : Slice) : List α := (m.buf c.addr).take c.len

/-- Indexing `c[r]`; `none` is the index-out-of-range failure. -/
def Mem.cell {α : Type} (m : Mem α) (c : Slice) (r : Nat) : Option α :=
  if r < c.len then (m.buf c.addr)[r]? else none

/-- Assignment `c[r] = v`; `none` is the index-out-of-range failure. -/
def Mem.setCell {α : Type} (m : Mem α) (c : Slice) (r : Nat) (v : α) : Option (Mem α) :=
  if r < c.len ∧ r < (m.buf c.addr).length then
    some (m.set c.addr ((m.buf c.addr).set r v))
  else none

/-- Allocation of a new backing array holding `buf`; the slice covers it all. -/
def Mem.alloc {α : Type} (m : Mem α) (buf : List α) : Mem α × Slice :=
  (m ++ [buf], { addr := m.length, len := buf.length })

/-- The heap: backing arrays of letters, of quality letters and of annotations. -/
structure Heap where
  letters : Mem Letter
  qletters : Mem QLetter
  annots : Mem Annotation

/-- The outcome of a method that changes the state in place and returns an
`error`: `ok` when it returns nil, `error` with the state it leaves behind and
the message, `panic` for a run-time failure. -/
inductive Outcome (σ : Type) where
  | ok (st : σ)
  | error (st : σ) (msg : String)
  | panic

/-! ## The plain alignment `Seq` -/

/-- The struct `Seq` of `alignment.go`.  `SubAnnotations` is `none` for the nil
slice; `Seq` lists the slice headers of the columns. -/
structure Seq extends Annotation where
  SubAnnotations : Option Slice
  Seq : List Slice
  ColumnConsense : ConsenseFunc

/-- The loop `for i, sid := range ids { subann[i].ID = sid }`, started at index `i`. -/
def setIDs : List String → Nat → List Annotation → List Annotation
  | [], _, arr => arr
  | sid :: rest, i, arr => setIDs rest (i + 1) (arr.modify (fun x => { x with ID := sid }) i)

/-- The call `fmt.Sprintf("%s:%d", id, i)`. -/
def sprintfID (id : String) (i : Nat) : String := id ++ ":" ++ toString i

/-- The loop `for i := range subids { subann[i].ID = fmt.Sprintf("%s:%d", id, i) }`:
it runs once for each element of `subids`. -/
def synthIDs (id : String) (subids : List String) (arr : List Annotation) : List Annotation :=
  setIDs ((List.range subids.length).map (sprintfID id)) 0 arr

/-- The sub-annotations computed by the `switch` of `NewSeq` and `NewQSeq`, given
the identifiers and the slice headers of the columns: `none` is the `default`
case, `some none` the nil slice of the first case. -/
def newSubann (id : String) (subids : List String) (b : List Slice) :
    Option (Option (List Annotation)) :=
  let lids := subids.length
  let lseq := b.length
  if lids = 0 ∧ b.length = 0 then some none
  else
    match b with
    | b0 :: _ =>
      if lseq ≠ 0 ∧ lids = b0.len then
        if lids = 0 then
          some (some (synthIDs id subids (List.replicate b0.len zeroAnn)))
        else
          some (some (setIDs subids 0 (List.replicate lids zeroAnn)))
      else none
    | [] => none

/-- The function `NewSeq` of `alignment.go`. -/
def NewSeq (h : Heap) (id : String) (subids : List String) (b : List Slice)
    (alpha : Option Alphabet) (cons : ConsenseFunc) : Except String (Heap × Seq) :=
  match newSubann id subids b with
  | none => .error "alignment: id/seq number mismatch"
  | some none =>
    .ok (h, { toAnnotation := { zeroAnn with ID := id, Alpha := alpha },
              SubAnnotations := none, Seq := b, ColumnConsense := cons })
  | some (some arr) =>
    let (m, sl) := h.annots.alloc arr
    .ok ({ h with annots := m },
         { toAnnotation := { zeroAnn with ID := id, Alpha := alpha },
           SubAnnotations := some sl, Seq := b, ColumnConsense := cons })

/-- Modelled from the spec: the method `Rows` of `alphabet.Columns` and of
`alphabet.QColumns` is not among the source files.  The spec gives "Rows() =
width of any column" and compares the identifiers with the width of the first
column; it says nothing of a store without columns, so the value there is the
parameter `rowsOfEmpty`, with `none` for a run-time failure. -/
def Columns.Rows (rowsOfEmpty : Option Nat) (cols : List Slice) : Option Nat :=
  match cols with
  | [] => rowsOfEmpty
  | c :: _ => some c.len

/-- The method `Seq.Len`. -/
def Seq.Len (s : Alignment.Seq) : Nat := s.Seq.length

/-- The method `Seq.Rows`. -/
def Seq.Rows (rowsOfEmpty : Option Nat) (s : Alignment.Seq) : Option Nat :=
  Columns.Rows rowsOfEmpty s.Seq

/-- The method `Seq.Start`. -/
def Seq.Start (s : Alignment.Seq) : Int := s.Offset

/-- The method `Seq.End`. -/
def Seq.End (s : Alignment.Seq) : Int := s.Offset + s.Len

/-- The loop `for i, cs := range s.Seq { c.Seq[i] = append([]T(nil), cs...) }` of
`Copy`: every column gets a new backing array holding its elements. -/
def copyColumns {α : Type} : Mem α → List Slice → Mem α × List Slice
  | m, [] => (m, [])
  | m, cs :: rest =>
    let (m1, c) := m.alloc (m.contents cs)
    let (m2, cols) := copyColumns m1 rest
    (m2, c :: cols)

/-- The method `Seq.Copy`: `c := *s` copies the struct, and with it the slice
header `SubAnnotations`; the columns are then duplicated. -/
def Seq.Copy (h : Heap) (s : Alignment.Seq) : Heap × Alignment.Seq :=
  let (m, cols) := copyColumns h.letters s.Seq
  ({ h with letters := m }, { s with Seq := cols })

/-- A loop `for r := range c { body }` over the rows of a column: `k` rounds
still to do from row `r`. -/
def forRows {σ : Type} (body : Nat → σ → Option σ) : Nat → Nat → σ → Option σ
  | 0, _, st => some st
  | k + 1, r, st =>
    match body r st with
    | some st1 => forRows body k (r + 1) st1
    | none => none

/-- A loop `for ; i < j; i, j = i+1, j-1 { body }`; it returns the state and the
final `i` and `j`.  `fuel` bounds the number of rounds. -/
def forEnds {σ : Type} (body : Nat → Nat → σ → Option σ) :
    Nat → Nat → Int → σ → Option (σ × Nat × Int)
  | fuel, i, j, st =>
    if (i : Int) < j then
      match fuel with
      | 0 => none
      | fuel + 1 =>
        match body i j.toNat st with
        | some st1 => forEnds body fuel (i + 1) (j - 1) st1
        | none => none
    else some (st, i, j)

/-- The assignment `ci[r], cj[r] = f(cj[r]), f(ci[r])`: both right-hand sides are
read first, then `ci[r]` is written, then `cj[r]`. -/
def swapCells {α : Type} (f : α → α) (ci cj : Slice) (r : Nat) (m : Mem α) : Option (Mem α) :=
  match m.cell cj r, m.cell ci r with
  | some x, some y =>
    match m.setCell ci r (f x) with
    | some m1 => m1.setCell cj r (f y)
    | none => none
  | _, _ => none

/-- The assignment `ci[r] = f(ci[r])`. -/
def mapCell {α : Type} (f : α → α) (ci : Slice) (r : Nat) (m : Mem α) : Option (Mem α) :=
  match m.cell ci r with
  | some y => m.setCell ci r (f y)
  | none => none

/-- The body of the first loop of `Seq.RevComp`, for the columns at `i` and `j`:
`for r := range rs[i] { rs[i][r], rs[j][r] = comp[rs[j][r]], comp[rs[i][r]] }`. -/
def Seq.revCompPair (comp : Letter → Letter) (rs : List Slice) (i j : Nat) (m : Mem Letter) :
    Option (Mem Letter) :=
  match rs[i]?, rs[j]? with
  | some ci, some cj => forRows (swapCells comp ci cj) ci.len 0 m
  | _, _ => none

/-- The statement `if i == j { for r := range rs[i] { rs[i][r] = comp[rs[i][r]] } }`
of `Seq.RevComp`. -/
def Seq.revCompMid (comp : Letter → Letter) (rs : List Slice) (i : Nat) (j : Int)
    (m : Mem Letter) : Option (Mem Letter) :=
  if (i : Int) = j then
    match rs[i]? with
    | some ci => forRows (mapCell comp ci) ci.len 0 m
    | none => none
  else some m

/-- The method `Seq.RevComp`; the type assertion fails when the alphabet is not
a Complementor. -/
def Seq.RevComp (h : Heap) (s : Alignment.Seq) : Option (Heap × Alignment.Seq) :=
  match s.Alpha.bind (fun al => al.ComplementTable) with
  | none => none
  | some comp =>
    match forEnds (Seq.revCompPair comp s.Seq) s.Seq.length 0 ((s.Seq.length : Int) - 1)
        h.letters with
    | none => none
    | some (m, i, j) =>
      match Seq.revCompMid comp s.Seq i j m with
      | none => none
      | some m1 =>
        some ({ h with letters := m1 },
              { s with toAnnotation := { s.toAnnotation with Strand := s.Strand.neg } })

/-- The assignment `l[i], l[j] = l[j], l[i]` on an array of column headers. -/
def swapCols {α : Type} (i j : Nat) (l : List α) : Option (List α) :=
  match l[i]?, l[j]? with
  | some x, some y => some ((l.set i y).set j x)
  | _, _ => none

/-- The method `Seq.Reverse`:
`for i, j := 0, len(l)-1; i < j; i, j = i+1, j-1 { l[i], l[j] = l[j], l[i] }`. -/
def Seq.Reverse (h : Heap) (s : Alignment.Seq) : Option (Heap × Alignment.Seq) :=
  match forEnds swapCols s.Seq.length 0 ((s.Seq.length : Int) - 1) s.Seq with
  | none => none
  | some (l, _, _) =>
    some (h, { s with Seq := l, toAnnotation := { s.toAnnotation with Strand := Strand.None } })

/-- The text of the error of `AppendColumns`. -/
def columnError (i len rows : Nat) : String :=
  "alignment: column " ++ toString i ++ " does not match Rows(): " ++ toString len ++
    " != " ++ toString rows ++ "."

/-- The text of the error of `AppendEach`. -/
def eachError (len rows : Nat) : String :=
  "alignment: number of sequences does not match Rows(): " ++ toString len ++
    " != " ++ toString rows ++ "."

/-- The first loop of `AppendColumns`,
`for i, r := range a { if len(r) != s.Rows() { return fmt.Errorf(...) } }`, over the
widths of the supplied columns, from index `i`.  `rows` is the result of
`s.Rows()`, which the loop does not change. -/
def checkColumns (rows : Option Nat) : List Nat → Nat → Outcome Unit
  | [], _ => .ok ()
  | w :: rest, i =>
    match rows with
    | none => .panic
    | some n => if w ≠ n then .error () (columnError i w n) else checkColumns rows rest (i + 1)

/-- The second loop of `Seq.AppendColumns`: every supplied column is copied,
letter by letter, into a new column `c`, which is appended to the store. -/
def Seq.appendLetters : List (List QLetter) → Heap × Alignment.Seq → Heap × Alignment.Seq
  | [], st => st
  | r :: rest, (h, s) =>
    let (m, c) := h.letters.alloc (r.map (fun ql => ql.L))
    Seq.appendLetters rest ({ h with letters := m }, { s with Seq := s.Seq ++ [c] })

/-- The method `Seq.AppendColumns`.  The supplied columns are only read, so they
are given by their elements. -/
def Seq.AppendColumns (rowsOfEmpty : Option Nat) (h : Heap) (s : Alignment.Seq)
    (a : List (List QLetter)) : Outcome (Heap × Alignment.Seq) :=
  match checkColumns (s.Rows rowsOfEmpty) (a.map List.length) 0 with
  | .panic => .panic
  | .error _ msg => .error (h, s) msg
  | .ok _ => .ok (Seq.appendLetters a (h, s))

/-- The loop `for _, ss := range a { if l := len(ss); l > max { max = l } }` of
`AppendEach`, started from `max := util.MinInt`. -/
def maxLen (MinInt : Int) (a : List (List QLetter)) : Int :=
  a.foldl (fun max ss => if (ss.length : Int) > max then (ss.length : Int) else max) MinInt

/-- The inner loop of `AppendEach`: the buffer `b` for column `i`, holding
`ss[i]` for a row that has it and `alphabet.QLetter{L: s.Alpha.Gap()}` otherwise.
A nil alphabet fails when the gap is asked for. -/
def eachColumn (alpha : Option Alphabet) : List (List QLetter) → Nat → Option (List QLetter)
  | [], _ => some []
  | ss :: rest, i =>
    match (if i < ss.length then ss[i]? else alpha.map (fun al => { L := al.Gap, Q := 0 })) with
    | some x =>
      match eachColumn alpha rest i with
      | some xs => some (x :: xs)
      | none => none
    | none => none

/-- The loop `for i, b := 0, ...; i < max; i, b = i+1, b[:0] { ...; s.AppendColumns(b) }`
of `Seq.AppendEach`, with `k` rounds still to do from column `i`.  The error that
`AppendColumns` returns is dropped. -/
def Seq.appendEachLoop (rowsOfEmpty : Option Nat) (a : List (List QLetter)) :
    Nat → Nat → Heap × Alignment.Seq → Option (Heap × Alignment.Seq)
  | 0, _, st => some st
  | k + 1, i, (h, s) =>
    match eachColumn s.Alpha a i with
    | none => none
    | some b =>
      match Seq.AppendColumns rowsOfEmpty h s [b] with
      | .ok st => Seq.appendEachLoop rowsOfEmpty a k (i + 1) st
      | .error st _ => Seq.appendEachLoop rowsOfEmpty a k (i + 1) st
      | .panic => none

/-- The method `Seq.AppendEach`.  `MinInt` is the constant `util.MinInt`, declared
outside the package; `make` fails on a negative length. -/
def Seq.AppendEach (rowsOfEmpty : Option Nat) (MinInt : Int) (h : Heap) (s : Alignment.Seq)
    (a : List (List QLetter)) : Outcome (Heap × Alignment.Seq) :=
  match s.Rows rowsOfEmpty with
  | none => .panic
  | some n =>
    if a.length ≠ n then .error (h, s) (eachError a.length n)
    else
      let max := maxLen MinInt a
      if max < 0 then .panic
      else
        match Seq.appendEachLoop rowsOfEmpty a max.toNat 0 (h, s) with
        | some st => .ok st
        | none => .panic

/-! ## The row view `Row` -/

/-- The struct `Row`: a pointer to an alignment, given by the current value of
the alignment, and the index of the row. -/
structure Row where
  Align : Seq
  Row : Nat

/-- The method `Seq.Row`. -/
def Seq.Row (s : Alignment.Seq) (i : Nat) : Alignment.Row := { Align := s, Row := i }

/-- The read `SubAnnotations[row]`; a nil slice has no element. -/
def subAnn (annots : Mem Annotation) (sub : Option Slice) (row : Nat) : Option Annotation :=
  match sub with
  | some sl => annots.cell sl row
  | none => none

/-- The write of one field of `SubAnnotations[row]`. -/
def setSubAnn (f : Annotation → Annotation) (sub : Option Slice) (row : Nat)
    (annots : Mem Annotation) : Option (Mem Annotation) :=
  match sub with
  | some sl => mapCell f sl row annots
  | none => none

/-- The column `cols[idx]` for an index computed as an `int`. -/
def colAt (cols : List Slice) (idx : Int) : Option Slice :=
  if idx < 0 then none else cols[idx.toNat]?

/-- The method `Row.At`.  `DefaultQphred` is the constant `seq.DefaultQphred`,
declared outside the package. -/
def Row.At (DefaultQphred : Qphred) (h : Heap) (r : Alignment.Row) (i : Int) : Option QLetter :=
  match colAt r.Align.Seq (i - r.Align.Offset) with
  | some c => (h.letters.cell c r.Row).map (fun l => { L := l, Q := DefaultQphred })
  | none => none

/-- The method `Row.Set`. -/
def Row.Set (h : Heap) (r : Alignment.Row) (i : Int) (l : QLetter) : Option (Heap × Seq) :=
  match colAt r.Align.Seq (i - r.Align.Offset) with
  | some c =>
    match h.letters.setCell c r.Row l.L with
    | some m => some ({ h with letters := m }, r.Align)
    | none => none
  | none => none

/-- The method `Row.Len`. -/
def Row.Len (r : Alignment.Row) : Nat := r.Align.Seq.length

/-- The method `Row.Start`. -/
def Row.Start (h : Heap) (r : Alignment.Row) : Option Int :=
  (subAnn h.annots r.Align.SubAnnotations r.Row).map (fun x => x.Offset)

/-- The method `Row.End`. -/
def Row.End (h : Heap) (r : Alignment.Row) : Option Int :=
  (Row.Start h r).map (fun st => st + (r.Len : Int))

/-- The method `Row.Location`. -/
def Row.Location (h : Heap) (r : Alignment.Row) : Option (Option Nat) :=
  (subAnn h.annots r.Align.SubAnnotations r.Row).map (fun x => x.Loc)

/-- The method `Row.Alphabet`. -/
def Row.Alphabet (r : Alignment.Row) : Option Alphabet := r.Align.Alpha

/-- The method `Row.Conformation`. -/
def Row.Conformation (r : Alignment.Row) : Conformation := r.Align.Conform

/-- The method `Row.SetConformation`. -/
def Row.SetConformation (h : Heap) (r : Alignment.Row) (c : Alignment.Conformation) : Option (Heap × Seq) :=
  match setSubAnn (fun x => { x with Conform := c }) r.Align.SubAnnotations r.Row h.annots with
  | some m => some ({ h with annots := m }, r.Align)
  | none => none

/-- The method `Row.Name`. -/
def Row.Name (h : Heap) (r : Alignment.Row) : Option String :=
  (subAnn h.annots r.Align.SubAnnotations r.Row).map (fun x => x.ID)

/-- The method `Row.Description`. -/
def Row.Description (h : Heap) (r : Alignment.Row) : Option String :=
  (subAnn h.annots r.Align.SubAnnotations r.Row).map (fun x => x.Desc)

/-- The method `Row.SetOffset`. -/
def Row.SetOffset (h : Heap) (r : Alignment.Row) (o : Int) : Option (Heap × Seq) :=
  match setSubAnn (fun x => { x with Offset := o }) r.Align.SubAnnotations r.Row h.annots with
  | some m => some ({ h with annots := m }, r.Align)
  | none => none

/-- The body of the loop of a row-level `RevComp` or `Reverse`, for the columns
at `i` and `j`: `rs[i][row], rs[j][row] = f(rs[j][row]), f(rs[i][row])`. -/
def rowSwapPair {α : Type} (f : α → α) (rs : List Slice) (row : Nat) (i j : Nat) (m : Mem α) :
    Option (Mem α) :=
  match rs[i]?, rs[j]? with
  | some ci, some cj => swapCells f ci cj row m
  | _, _ => none

/-- The statement `if i == j { rs[i][row] = f(rs[i][row]) }` of a row-level
`RevComp`. -/
def rowMid {α : Type} (f : α → α) (rs : List Slice) (row : Nat) (i : Nat) (j : Int) (m : Mem α) :
    Option (Mem α) :=
  if (i : Int) = j then
    match rs[i]? with
    | some ci => mapCell f ci row m
    | none => none
  else some m

/-- The method `Row.RevComp`. -/
def Row.RevComp (h : Heap) (r : Alignment.Row) : Option (Heap × Seq) :=
  match r.Alphabet.bind (fun al => al.ComplementTable) with
  | none => none
  | some comp =>
    match forEnds (rowSwapPair comp r.Align.Seq r.Row) r.Align.Seq.length 0
        ((r.Align.Seq.length : Int) - 1) h.letters with
    | none => none
    | some (m, i, j) =>
      match rowMid comp r.Align.Seq r.Row i j m with
      | none => none
      | some m1 =>
        match setSubAnn (fun x => { x with Strand := x.Strand.neg }) r.Align.SubAnnotations
            r.Row h.annots with
        | some an => some ({ h with letters := m1, annots := an }, r.Align)
        | none => none

/-- The method `Row.Reverse`. -/
def Row.Reverse (h : Heap) (r : Alignment.Row) : Option (Heap × Seq) :=
  match forEnds (rowSwapPair (fun x => x) r.Align.Seq r.Row) r.Align.Seq.length 0
      ((r.Align.Seq.length : Int) - 1) h.letters with
  | none => none
  | some (m, _, _) =>
    match setSubAnn (fun x => { x with Strand := Strand.None }) r.Align.SubAnnotations
        r.Row h.annots with
    | some an => some ({ h with letters := m, annots := an }, r.Align)
    | none => none

/-- The loop `for i, c := range cols { b[i] = c[row] }` of the row-level `Copy`. -/
def rowCells {α : Type} (m : Mem α) (row : Nat) : List Slice → Option (List α)
  | [] => some []
  | c :: rest =>
    match m.cell c row with
    | some x =>
      match rowCells m row rest with
      | some xs => some (x :: xs)
      | none => none
    | none => none

/-- Modelled from the spec: the single-row sequence of package `linear`, the
output of a row `Copy`, is not among the source files; it is an annotation with
the letters of the sequence. -/
structure LinearSeq extends Annotation where
  Seq : List Letter

/-- Modelled from the spec: the constructor `linear.NewSeq` is not among the
source files; the sequence it builds records the name, the letters and the
alphabet it is given. -/
def linear.NewSeq (id : String) (b : List Letter) (alpha : Option Alphabet) : LinearSeq :=
  { toAnnotation := { zeroAnn with ID := id, Alpha := alpha }, Seq := b }

/-- The method `Row.Copy`. -/
def Row.Copy (h : Heap) (r : Alignment.Row) : Option LinearSeq :=
  match rowCells h.letters r.Row r.Align.Seq with
  | some b =>
    match Row.Name h r with
    | some name => some (linear.NewSeq name b r.Alphabet)
    | none => none
  | none => none

/-! ## The quality alignment `QSeq` -/

/-- The struct `QSeq` of `qalignment.go`. -/
structure QSeq extends Annotation where
  SubAnnotations : Option Slice
  Seq : List Slice
  ColumnConsense : ConsenseFunc
  Threshold : Qphred
  QFilter : QFilter
  Encode : Encoding

/-- The function `NewQSeq` of `qalignment.go`.  `ambigFilter` is the value of
`seq.AmbigFilter`, which is declared outside the package. -/
def NewQSeq (ambigFilter : QFilter) (h : Heap) (id : String) (subids : List String)
    (ql : List Slice) (alpha : Option Alphabet) (enc : Encoding) (cons : ConsenseFunc) :
    Except String (Heap × QSeq) :=
  match newSubann id subids ql with
  | none => .error "alignment: id/seq number mismatch"
  | some none =>
    .ok (h, { toAnnotation := { zeroAnn with ID := id, Alpha := alpha },
              SubAnnotations := none, Seq := ql, Encode := enc, ColumnConsense := cons,
              Threshold := 2, QFilter := ambigFilter })
  | some (some arr) =>
    let (m, sl) := h.annots.alloc arr
    .ok ({ h with annots := m },
         { toAnnotation := { zeroAnn with ID := id, Alpha := alpha },
           SubAnnotations := some sl, Seq := ql, Encode := enc, ColumnConsense := cons,
           Threshold := 2, QFilter := ambigFilter })

/-- The method `QSeq.Len`. -/
def QSeq.Len (s : QSeq) : Nat := s.Seq.length

/-- The method `QSeq.Rows`. -/
def QSeq.Rows (rowsOfEmpty : Option Nat) (s : QSeq) : Option Nat :=
  Columns.Rows rowsOfEmpty s.Seq

/-- The method `QSeq.Start`. -/
def QSeq.Start (s : QSeq) : Int := s.Offset

/-- The method `QSeq.End`. -/
def QSeq.End (s : QSeq) : Int := s.Offset + s.Len

/-- The method `QSeq.Copy`. -/
def QSeq.Copy (h : Heap) (s : QSeq) : Heap × QSeq :=
  let (m, cols) := copyColumns h.qletters s.Seq
  ({ h with qletters := m }, { s with Seq := cols })

/-- The assignment `ci[r].L, cj[r].L = comp[cj[r].L], comp[ci[r].L]`. -/
def swapL (comp : Letter → Letter) (ci cj : Slice) (r : Nat) (m : Mem QLetter) :
    Option (Mem QLetter) :=
  match m.cell cj r, m.cell ci r with
  | some x, some y =>
    match mapCell (fun q => { q with L := comp x.L }) ci r m with
    | some m1 => mapCell (fun q => { q with L := comp y.L }) cj r m1
    | none => none
  | _, _ => none

/-- The assignment `ci[r].Q, cj[r].Q = cj[r].Q, ci[r].Q`. -/
def swapQ (ci cj : Slice) (r : Nat) (m : Mem QLetter) : Option (Mem QLetter) :=
  match m.cell cj r, m.cell ci r with
  | some x, some y =>
    match mapCell (fun q => { q with Q := x.Q }) ci r m with
    | some m1 => mapCell (fun q => { q with Q := y.Q }) cj r m1
    | none => none
  | _, _ => none

/-- The two assignments of the loops of the quality `RevComp`, on row `r` of the
columns `ci` and `cj`. -/
def swapLQ (comp : Letter → Letter) (ci cj : Slice) (r : Nat) (m : Mem QLetter) :
    Option (Mem QLetter) :=
  match swapL comp ci cj r m with
  | some m1 => swapQ ci cj r m1
  | none => none

/-- The body of the first loop of `QSeq.RevComp`, for the columns at `i` and `j`. -/
def QSeq.revCompPair (comp : Letter → Letter) (rs : List Slice) (i j : Nat) (m : Mem QLetter) :
    Option (Mem QLetter) :=
  match rs[i]?, rs[j]? with
  | some ci, some cj => forRows (swapLQ comp ci cj) ci.len 0 m
  | _, _ => none

/-- The statement `if i == j { for r := range rs[i] { rs[i][r].L = comp[rs[i][r].L] } }`
of `QSeq.RevComp`. -/
def QSeq.revCompMid (comp : Letter → Letter) (rs : List Slice) (i : Nat) (j : Int)
    (m : Mem QLetter) : Option (Mem QLetter) :=
  if (i : Int) = j then
    match rs[i]? with
    | some ci => forRows (mapCell (fun q => { q with L := comp q.L }) ci) ci.len 0 m
    | none => none
  else some m

/-- The method `QSeq.RevComp`. -/
def QSeq.RevComp (h : Heap) (s : QSeq) : Option (Heap × QSeq) :=
  match s.Alpha.bind (fun al => al.ComplementTable) with
  | none => none
  | some comp =>
    match forEnds (QSeq.revCompPair comp s.Seq) s.Seq.length 0 ((s.Seq.length : Int) - 1)
        h.qletters with
    | none => none
    | some (m, i, j) =>
      match QSeq.revCompMid comp s.Seq i j m with
      | none => none
      | some m1 =>
        some ({ h with qletters := m1 },
              { s with toAnnotation := { s.toAnnotation with Strand := s.Strand.neg } })

/-- The method `QSeq.Reverse`. -/
def QSeq.Reverse (h : Heap) (s : QSeq) : Option (Heap × QSeq) :=
  match forEnds swapCols s.Seq.length 0 ((s.Seq.length : Int) - 1) s.Seq with
  | none => none
  | some (l, _, _) =>
    some (h, { s with Seq := l, toAnnotation := { s.toAnnotation with Strand := Strand.None } })

/-- The method `QSeq.AppendColumns`: the slices it is given are themselves
appended to the store (`s.Seq = append(s.Seq, a...)`). -/
def QSeq.AppendColumns (rowsOfEmpty : Option Nat) (h : Heap) (s : QSeq) (a : List Slice) :
    Outcome (Heap × QSeq) :=
  match checkColumns (s.Rows rowsOfEmpty) (a.map (fun c => c.len)) 0 with
  | .panic => .panic
  | .error _ msg => .error (h, s) msg
  | .ok _ => .ok (h, { s with Seq := s.Seq ++ a })

/-- The loop `for i, b := 0, ...; i < max; i, b = i+1, b[:0] { ...; s.AppendColumns(b) }`
of `QSeq.AppendEach`, with `k` rounds still to do from column `i`.  `b` is the one
buffer made before the loop, of capacity `len(a)`: each round truncates it to
`b[:0]` and appends `len(a)` quality letters, which fill its backing array, and
passes it to `AppendColumns`, whose error is dropped. -/
def QSeq.appendEachLoop (rowsOfEmpty : Option Nat) (a : List (List QLetter)) (b : Nat) :
    Nat → Nat → Heap × QSeq → Option (Heap × QSeq)
  | 0, _, st => some st
  | k + 1, i, (h, s) =>
    match eachColumn s.Alpha a i with
    | none => none
    | some col =>
      match QSeq.AppendColumns rowsOfEmpty { h with qletters := h.qletters.set b col } s
          [{ addr := b, len := col.length }] with
      | .ok st => QSeq.appendEachLoop rowsOfEmpty a b k (i + 1) st
      | .error st _ => QSeq.appendEachLoop rowsOfEmpty a b k (i + 1) st
      | .panic => none

/-- The method `QSeq.AppendEach`. -/
def QSeq.AppendEach (rowsOfEmpty : Option Nat) (MinInt : Int) (h : Heap) (s : QSeq)
    (a : List (List QLetter)) : Outcome (Heap × QSeq) :=
  match s.Rows rowsOfEmpty with
  | none => .panic
  | some n =>
    if a.length ≠ n then .error (h, s) (eachError a.length n)
    else
      let max := maxLen MinInt a
      if max < 0 then .panic
      else
        let (m, b) := h.qletters.alloc (List.replicate a.length QLetter.zero)
        match QSeq.appendEachLoop rowsOfEmpty a b.addr max.toNat 0
            ({ h with qletters := m }, s) with
        | some st => .ok st
        | none => .panic

/-! ## The row view `QRow` -/

/-- The struct `QRow`. -/
structure QRow where
  Align : QSeq
  Row : Nat

/-- The method `QSeq.Row`. -/
def QSeq.Row (s : QSeq) (i : Nat) : QRow := { Align := s, Row := i }

/-- The method `QRow.At`. -/
def QRow.At (h : Heap) (r : QRow) (i : Int) : Option QLetter :=
  match colAt r.Align.Seq (i - r.Align.Offset) with
  | some c => h.qletters.cell c r.Row
  | none => none

/-- The method `QRow.Set`. -/
def QRow.Set (h : Heap) (r : QRow) (i : Int) (l : QLetter) : Option (Heap × QSeq) :=
  match colAt r.Align.Seq (i - r.Align.Offset) with
  | some c =>
    match h.qletters.setCell c r.Row l with
    | some m => some ({ h with qletters := m }, r.Align)
    | none => none
  | none => none

/-- The method `QRow.Len`. -/
def QRow.Len (r : QRow) : Nat := r.Align.Seq.length

/-- The method `QRow.Start`. -/
def QRow.Start (h : Heap) (r : QRow) : Option Int :=
  (subAnn h.annots r.Align.SubAnnotations r.Row).map (fun x => x.Offset)

/-- The method `QRow.End`. -/
def QRow.End (h : Heap) (r : QRow) : Option Int :=
  (QRow.Start h r).map (fun st => st + (r.Len : Int))

/-- The method `QRow.Alphabet`. -/
def QRow.Alphabet (r : QRow) : Option Alphabet := r.Align.Alpha

/-- The method `QRow.Conformation`. -/
def QRow.Conformation (h : Heap) (r : QRow) : Option Conformation :=
  (subAnn h.annots r.Align.SubAnnotations r.Row).map (fun x => x.Conform)

/-- The method `QRow.SetConformation`. -/
def QRow.SetConformation (h : Heap) (r : QRow) (c : Alignment.Conformation) : Option (Heap × QSeq) :=
  match setSubAnn (fun x => { x with Conform := c }) r.Align.SubAnnotations r.Row h.annots with
  | some m => some ({ h with annots := m }, r.Align)
  | none => none

/-- The method `QRow.Name`. -/
def QRow.Name (h : Heap) (r : QRow) : Option String :=
  (subAnn h.annots r.Align.SubAnnotations r.Row).map (fun x => x.ID)

/-- The method `QRow.SetOffset`. -/
def QRow.SetOffset (h : Heap) (r : QRow) (o : Int) : Option (Heap × QSeq) :=
  match setSubAnn (fun x => { x with Offset := o }) r.Align.SubAnnotations r.Row h.annots with
  | some m => some ({ h with annots := m }, r.Align)
  | none => none

/-- The body of the loop of `QRow.RevComp`, for the columns at `i` and `j`. -/
def QRow.revCompPair (comp : Letter → Letter) (rs : List Slice) (row : Nat) (i j : Nat)
    (m : Mem QLetter) : Option (Mem QLetter) :=
  match rs[i]?, rs[j]? with
  | some ci, some cj => swapLQ comp ci cj row m
  | _, _ => none

/-- The method `QRow.RevComp`. -/
def QRow.RevComp (h : Heap) (r : QRow) : Option (Heap × QSeq) :=
  match r.Alphabet.bind (fun al => al.ComplementTable) with
  | none => none
  | some comp =>
    match forEnds (QRow.revCompPair comp r.Align.Seq r.Row) r.Align.Seq.length 0
        ((r.Align.Seq.length : Int) - 1) h.qletters with
    | none => none
    | some (m, i, j) =>
      match rowMid (fun q => { q with L := comp q.L }) r.Align.Seq r.Row i j m with
      | none => none
      | some m1 =>
        match setSubAnn (fun x => { x with Strand := x.Strand.neg }) r.Align.SubAnnotations
            r.Row h.annots with
        | some an => some ({ h with qletters := m1, annots := an }, r.Align)
        | none => none

/-- The method `QRow.Reverse`. -/
def QRow.Reverse (h : Heap) (r : QRow) : Option (Heap × QSeq) :=
  match forEnds (rowSwapPair (fun x => x) r.Align.Seq r.Row) r.Align.Seq.length 0
      ((r.Align.Seq.length : Int) - 1) h.qletters with
  | none => none
  | some (m, _, _) =>
    match setSubAnn (fun x => { x with Strand := Strand.None }) r.Align.SubAnnotations
        r.Row h.annots with
    | some an => some ({ h with qletters := m, annots := an }, r.Align)
    | none => none

/-- Modelled from the spec: the single-row quality sequence of package `linear`,
the output of a quality row `Copy`, is not among the source files; it is an
annotation with the quality letters and the encoding. -/
structure LinearQSeq extends Annotation where
  Seq : List QLetter
  Encode : Encoding

/-- Modelled from the spec: the constructor `linear.NewQSeq` is not among the
source files; the sequence it builds records the name, the quality letters, the
alphabet and the encoding it is given. -/
def linear.NewQSeq (id : String) (b : List QLetter) (alpha : Option Alphabet) (enc : Encoding) :
    LinearQSeq :=
  { toAnnotation := { zeroAnn with ID := id, Alpha := alpha }, Seq := b, Encode := enc }

/-- The method `QRow.Copy`. -/
def QRow.Copy (h : Heap) (r : QRow) : Option LinearQSeq :=
  match rowCells h.qletters r.Row r.Align.Seq with
  | some b =>
    match QRow.Name h r with
    | some name => some (linear.NewQSeq name b r.Alphabet r.Align.Encode)
    | none => none
  | none => none

/-! ## Merging and column projection -/

/-- The call `append(c, xs...)` on a slice with elements: the elements are
written in place when the backing array has room for them, and otherwise the
slice moves to a new backing array.  Go leaves the capacity of the new array to
the implementation; the model allocates exactly what is needed. -/
def Mem.append {α : Type} (m : Mem α) (c : Slice) (xs : List α) : Mem α × Slice :=
  if c.len + xs.length ≤ (m.buf c.addr).length then
    (m.set c.addr ((m.buf c.addr).take c.len ++ xs ++ (m.buf c.addr).drop (c.len + xs.length)),
     { addr := c.addr, len := c.len + xs.length })
  else
    (m ++ [m.contents c ++ xs], { addr := m.length, len := c.len + xs.length })

/-- What `Add` uses of a `seq.Sequence` value that is not a `seq.Aligned`: its
range, its letters (`none` when `At` fails) and the annotation that
`CopyAnnotation` returns. -/
structure Sequence where
  Start : Int
  End : Int
  At : Int → Option QLetter
  CopyAnnotation : Annotation

/-- What `Add` uses of a `seq.Sequence` value that is also a `seq.Aligned`: its
range, its number of rows, its columns (`none` when the call fails) and the
annotation that `CopyAnnotation` returns. -/
structure Aligned where
  Start : Int
  End : Int
  Rows : Option Nat
  Column : Int → Option (List Letter)
  ColumnQL : Int → Option (List QLetter)
  CopyAnnotation : Annotation

/-- An argument of `Add`, by the outcome of the type assertion `ss.(seq.Aligned)`. -/
inductive Added where
  | single (ss : Sequence)
  | aligned (a : Aligned)

/-- The annotation `*n[i].CopyAnnotation()` of an argument of `Add`. -/
def Added.ann : Added → Annotation
  | .single ss => ss.CopyAnnotation
  | .aligned a => a.CopyAnnotation

/-- The loop of `Seq.column` over the added sequences: the letters they
contribute at position `pos`.  `alphabet.Letter.Repeat(n)` is `n` copies of the
letter. -/
def columnLetters (alpha : Option Alphabet) (pos : Int) : List Added → Option (List Letter)
  | [] => some []
  | .aligned a :: rest =>
    match (if a.Start ≤ pos ∧ pos < a.End then a.Column pos
           else
             match alpha, a.Rows with
             | some al, some k => some (List.replicate k al.Gap)
             | _, _ => none) with
    | some xs =>
      match columnLetters alpha pos rest with
      | some ys => some (xs ++ ys)
      | none => none
    | none => none
  | .single ss :: rest =>
    match (if ss.Start ≤ pos ∧ pos < ss.End then (ss.At pos).map (fun ql => ql.L)
           else alpha.map (fun al => al.Gap)) with
    | some x =>
      match columnLetters alpha pos rest with
      | some ys => some (x :: ys)
      | none => none
    | none => none

/-- The method `Seq.column`; `make([]alphabet.Letter, 0, s.Rows())` fails when
`Rows` does. -/
def Seq.column (rowsOfEmpty : Option Nat) (s : Alignment.Seq) (m : List Added) (pos : Int) :
    Option (List Letter) :=
  match s.Rows rowsOfEmpty with
  | none => none
  | some _ => columnLetters s.Alpha pos m

/-- The first loop of `Seq.Add`,
`for i := s.Start(); i < s.End(); i++ { s.Seq[i] = append(s.Seq[i], s.column(n, i)...) }`,
with `k` rounds still to do from position `i`. -/
def Seq.addLoop (rowsOfEmpty : Option Nat) (n : List Added) :
    Nat → Int → Heap × Alignment.Seq → Option (Heap × Alignment.Seq)
  | 0, _, st => some st
  | k + 1, i, (h, s) =>
    match colAt s.Seq i with
    | none => none
    | some c =>
      match Seq.column rowsOfEmpty s n i with
      | none => none
      | some xs =>
        Seq.addLoop rowsOfEmpty n k (i + 1)
          ({ h with letters := (h.letters.append c xs).1 },
           { s with Seq := s.Seq.set i.toNat (h.letters.append c xs).2 })

/-- The statement `sub = append(sub, x)` on the sub-annotations; appending to the
nil slice allocates. -/
def appendAnn (annots : Mem Annotation) (sub : Option Slice) (x : Annotation) :
    Mem Annotation × Option Slice :=
  match sub with
  | none => ((annots.alloc [x]).1, some (annots.alloc [x]).2)
  | some sl => ((annots.append sl [x]).1, some (annots.append sl [x]).2)

/-- The second loop of `Add`,
`for i := range n { s.SubAnnotations = append(s.SubAnnotations, *n[i].CopyAnnotation()) }`. -/
def addAnns : List Added → Mem Annotation × Option Slice → Mem Annotation × Option Slice
  | [], st => st
  | x :: rest, (annots, sub) => addAnns rest (appendAnn annots sub x.ann)

/-- The method `Seq.Add`; it always returns a nil error. -/
def Seq.Add (rowsOfEmpty : Option Nat) (h : Heap) (s : Alignment.Seq) (n : List Added) :
    Outcome (Heap × Alignment.Seq) :=
  match Seq.addLoop rowsOfEmpty n s.Len s.Start (h, s) with
  | none => .panic
  | some (h1, s1) =>
    .ok ({ h1 with annots := (addAnns n (h1.annots, s1.SubAnnotations)).1 },
         { s1 with SubAnnotations := (addAnns n (h1.annots, s1.SubAnnotations)).2 })

/-- The method `Seq.Column`: the slice of the column at index `pos`. -/
def Seq.Column (s : Alignment.Seq) (pos : Int) : Option Slice := colAt s.Seq pos

/-- The loop `for i, l := range col { c[i] = f(l) }` of the column projections,
from index `i`; it fails when `c` is too short. -/
def fillColumn {α β : Type} (f : α → β) : List α → Nat → List β → Option (List β)
  | [], _, c => some c
  | l :: rest, i, c => if i < c.length then fillColumn f rest (i + 1) (c.set i (f l)) else none

/-- The method `Seq.ColumnQL`.  `DefaultQphred` is the constant
`seq.DefaultQphred`, declared outside the package. -/
def Seq.ColumnQL (rowsOfEmpty : Option Nat) (DefaultQphred : Qphred) (h : Heap)
    (s : Alignment.Seq) (pos : Int) : Option (List QLetter) :=
  match s.Rows rowsOfEmpty with
  | none => none
  | some n =>
    match colAt s.Seq pos with
    | none => none
    | some col =>
      fillColumn (fun l => { L := l, Q := DefaultQphred }) (h.letters.contents col) 0
        (List.replicate n QLetter.zero)

/-- The loop of `QSeq.column` over the added sequences: the quality letters they
contribute at position `pos`. -/
def columnQLetters (alpha : Option Alphabet) (pos : Int) : List Added → Option (List QLetter)
  | [] => some []
  | .aligned a :: rest =>
    match (if a.Start ≤ pos ∧ pos < a.End then a.ColumnQL pos
           else
             match alpha, a.Rows with
             | some al, some k => some (List.replicate k { L := al.Gap, Q := 0 })
             | _, _ => none) with
    | some xs =>
      match columnQLetters alpha pos rest with
      | some ys => some (xs ++ ys)
      | none => none
    | none => none
  | .single ss :: rest =>
    match (if ss.Start ≤ pos ∧ pos < ss.End then ss.At pos
           else alpha.map (fun al => { L := al.Gap, Q := 0 })) with
    | some x =>
      match columnQLetters alpha pos rest with
      | some ys => some (x :: ys)
      | none => none
    | none => none

/-- The method `QSeq.column`. -/
def QSeq.column (rowsOfEmpty : Option Nat) (s : QSeq) (m : List Added) (pos : Int) :
    Option (List QLetter) :=
  match s.Rows rowsOfEmpty with
  | none => none
  | some _ => columnQLetters s.Alpha pos m

/-- The first loop of `QSeq.Add`, with `k` rounds still to do from position `i`. -/
def QSeq.addLoop (rowsOfEmpty : Option Nat) (n : List Added) :
    Nat → Int → Heap × QSeq → Option (Heap × QSeq)
  | 0, _, st => some st
  | k + 1, i, (h, s) =>
    match colAt s.Seq i with
    | none => none
    | some c =>
      match QSeq.column rowsOfEmpty s n i with
      | none => none
      | some xs =>
        QSeq.addLoop rowsOfEmpty n k (i + 1)
          ({ h with qletters := (h.qletters.append c xs).1 },
           { s with Seq := s.Seq.set i.toNat (h.qletters.append c xs).2 })

/-- The method `QSeq.Add`; it always returns a nil error. -/
def QSeq.Add (rowsOfEmpty : Option Nat) (h : Heap) (s : QSeq) (n : List Added) :
    Outcome (Heap × QSeq) :=
  match QSeq.addLoop rowsOfEmpty n s.Len s.Start (h, s) with
  | none => .panic
  | some (h1, s1) =>
    .ok ({ h1 with annots := (addAnns n (h1.annots, s1.SubAnnotations)).1 },
         { s1 with SubAnnotations := (addAnns n (h1.annots, s1.SubAnnotations)).2 })

/-- The letter that `QSeq.Column` reports for a stored quality letter: the stored
letter when its quality reaches the threshold, and otherwise the answer of the
filter to `(s.Alpha, 255, alphabet.QLetter{})`. -/
def QSeq.filtered (s : QSeq) (l : QLetter) : Letter :=
  if l.Q ≥ s.Threshold then l.L else s.QFilter s.Alpha 255 QLetter.zero

/-- The method `QSeq.Column`: `c := make([]alphabet.Letter, s.Rows())`, then the
loop over the stored column at index `pos`. -/
def QSeq.Column (rowsOfEmpty : Option Nat) (h : Heap) (s : QSeq) (pos : Int) :
    Option (List Letter) :=
  match s.Rows rowsOfEmpty with
  | none => none
  | some n =>
    match colAt s.Seq pos with
    | none => none
    | some col => fillColumn s.filtered (h.qletters.contents col) 0 (List.replicate n 0)

/-- The method `QSeq.ColumnQL`: the slice of the column at index `pos`. -/
def QSeq.ColumnQL (s : QSeq) (pos : Int) : Option Slice := colAt s.Seq pos

/-- The first loop of `Add` on the column store alone: `col` gives the elements
that the added sequences contribute at a position (`none` when that fails). -/
def addCols {α : Type} (col : Int → Option (List α)) :
    Nat → Int → Mem α × List Slice → Option (Mem α × List Slice)
  | 0, _, st => some st
  | k + 1, i, (m, cols) =>
    match colAt cols i with
    | none => none
    | some c =>
      match col i with
      | none => none
      | some xs => addCols col k (i + 1) ((m.append c xs).1, cols.set i.toNat (m.append c xs).2)

/-- Modelled from the spec: the method `Alphabet` that `Seq` and `QSeq` inherit
from the embedded `seq.Annotation` is not among the source files; it returns the
alphabet reference of the annotation. -/
def Annotation.Alphabet (a : Annotation) : Option Alphabet := a.Alpha

/-- The loop `for i := range s.Seq { cs = append(cs, s.ColumnConsense(s, alpha, i, false)) }`
of `Consensus`, with `k` rounds still to do from index `i`.  `f` is the call
`s.ColumnConsense(s, alpha, ·, false)`, and `none` when the field holds no
function, so that the call fails. -/
def consensusLoop (f : Option (Int → QLetter)) : Nat → Nat → List QLetter → Option (List QLetter)
  | 0, _, cs => some cs
  | k + 1, i, cs =>
    match f with
    | none => none
    | some g => consensusLoop f k (i + 1) (cs ++ [g (i : Int)])

/-- The method `Seq.Consensus`.  `run` interprets the value of the field
`ColumnConsense` as a function of the heap, the alignment, the alphabet, the
position and the flag (`none` for a field that holds no function); `Sanger` is
the constant `alphabet.Sanger`, declared outside the package.  The writes
`qs.Strand = ...`, `qs.SetOffset(...)` and `qs.Conform = ...` set the fields of
the new sequence. -/
def Seq.Consensus
    (run : ConsenseFunc → Option (Heap → Alignment.Seq → Option Alphabet → Int → Bool → QLetter))
    (Sanger : Encoding) (h : Heap) (s : Alignment.Seq) : Option LinearQSeq :=
  match consensusLoop
      ((run s.ColumnConsense).map (fun f i => f h s ( Annotation.Alphabet s.toAnnotation) i false))
      s.Seq.length 0 [] with
  | none => none
  | some cs =>
    some { linear.NewQSeq ("Consensus:" ++ s.ID) cs s.Alpha Sanger with
      Strand := s.Strand, Offset := s.Offset, Conform := s.Conform }

/-- The method `QSeq.Consensus`. -/
def QSeq.Consensus
    (run : ConsenseFunc → Option (Heap → QSeq → Option Alphabet → Int → Bool → QLetter))
    (Sanger : Encoding) (h : Heap) (s : QSeq) : Option LinearQSeq :=
  match consensusLoop
      ((run s.ColumnConsense).map (fun f i => f h s ( Annotation.Alphabet s.toAnnotation) i false))
      s.Seq.length 0 [] with
  | none => none
  | some cs =>
    some { linear.NewQSeq ("Consensus:" ++ s.ID) cs s.Alpha Sanger with
      Strand := s.Strand, Offset := s.Offset, Conform := s.Conform }

/-! ## Notions of the specification -/

/-- The acceptance condition of the constructors in the words of the spec: both
the row identifiers and the column block are empty, or the block is non-empty
and there are as many identifiers as the first column has rows. -/
def idsAgree (subids : List String) (b : List Slice) : Prop :=
  (subids = [] ∧ b = []) ∨ ∃ b0 rest, b = b0 :: rest ∧ subids.length = b0.len

/-- The value of `len(SubAnnotations)`. -/
def subLen (sub : Option Slice) : Nat :=
  match sub with
  | some sl => sl.len
  | none => 0

/-- The shape invariant of the spec: every column has width `Rows()`, and the
number of sub-annotations is 0 or `Rows()`. -/
def shapeInv (rowsOfEmpty : Option Nat) (sub : Option Slice) (cols : List Slice) : Prop :=
  (∀ c ∈ cols, some c.len = Columns.Rows rowsOfEmpty cols) ∧
  (subLen sub = 0 ∨ some (subLen sub) = Columns.Rows rowsOfEmpty cols)

/-- The shape invariant of a plain alignment. -/
def Seq.shapeInv (rowsOfEmpty : Option Nat) (s : Alignment.Seq) : Prop :=
  Alignment.shapeInv rowsOfEmpty s.SubAnnotations s.Seq

/-- The shape invariant of a quality alignment. -/
def QSeq.shapeInv (rowsOfEmpty : Option Nat) (s : QSeq) : Prop :=
  Alignment.shapeInv rowsOfEmpty s.SubAnnotations s.Seq

/-- A column block is rectangular when all its columns have the same width. -/
def rectangular (cols : List Slice) : Prop :=
  ∀ c ∈ cols, ∀ d ∈ cols, c.len = d.len

/-- Row `row` of the column store `rs` is mirrored from memory `m0` to memory
`m1` under `f`: in every column `i` the cell of the row holds `f` of the
original cell of the row in column `len(rs) - 1 - i`, and the cells of all other
rows are as they were. -/
def rowMirrored {α : Type} (m0 m1 : Mem α) (rs : List Slice) (row : Nat) (f : α → α) : Prop :=
  ∀ (i : Nat) (c : Slice), rs[i]? = some c →
    (∃ c1 x, rs[rs.length - 1 - i]? = some c1 ∧ m0.cell c1 row = some x ∧
      m1.cell c row = some (f x)) ∧
    ∀ q : Nat, q ≠ row → m1.cell c q = m0.cell c q

/-- The strand of row `row` is changed by `g` from the annotations `an0` to the
annotations `an1`, and nothing else is: the sub-annotation of the row keeps its
other fields, and the sub-annotations of all other rows are as they were. -/
def rowStrand (an0 an1 : Mem Annotation) (sub : Option Slice) (row : Nat)
    (g : Strand → Strand) : Prop :=
  (∃ a, subAnn an0 sub row = some a ∧
    subAnn an1 sub row = some { a with Strand := g a.Strand }) ∧
  ∀ q : Nat, q ≠ row → subAnn an1 sub q = subAnn an0 sub q

/-! ## Concrete inputs -/

/-- The DNA alphabet of the examples: gap `-`, and the complement table that
exchanges `A` with `T` and `C` with `G` (upper case, as ASCII codes). -/
def dna : Alphabet :=
  { Gap := 45,
    ComplementTable := some (fun l =>
      if l = 65 then 84 else if l = 84 then 65 else if l = 67 then 71 else if l = 71 then 67
      else l) }

/-- The complement table of `dna`, as a function on letters. -/
def dnaComplement : Letter → Letter := fun l =>
  if l = 65 then 84 else if l = 84 then 65 else if l = 67 then 71 else if l = 71 then 67
  else l

/-- A heap holding the letter arrays `AC` and `G`, and as quality arrays the same
letters with quality 40. -/
def raggedHeap : Heap :=
  { letters := [[65, 67], [71]],
    qletters := [[{ L := 65, Q := 40 }, { L := 67, Q := 40 }], [{ L := 71, Q := 40 }]],
    annots := [] }

/-- The ragged column block over `raggedHeap`: a column of two rows, then a
column of one row. -/
def raggedBlock : List Slice := [{ addr := 0, len := 2 }, { addr := 1, len := 1 }]

/-- A heap holding the letter arrays `AC`, `GT` and `AA`, and as quality arrays
the same letters with qualities 40 and 1. -/
def squareHeap : Heap :=
  { letters := [[65, 67], [71, 84], [65, 65]],
    qletters := [[{ L := 65, Q := 40 }, { L := 67, Q := 1 }],
                 [{ L := 71, Q := 40 }, { L := 84, Q := 1 }],
                 [{ L := 65, Q := 40 }, { L := 65, Q := 1 }]],
    annots := [] }

/-- The rectangular column block over `squareHeap`: three columns of two rows. -/
def squareBlock : List Slice :=
  [{ addr := 0, len := 2 }, { addr := 1, len := 2 }, { addr := 2, len := 2 }]

/-- The operations on a plain alignment that the shape invariant speaks of:
the two growth operations, the alignment-wide reversals, and `Set`, `Reverse`
and `RevComp` on the view of a row. -/
inductive SeqOp where
  | AppendColumns (a : List (List QLetter))
  | AppendEach (a : List (List QLetter))
  | Reverse
  | RevComp
  | RowSet (row : Nat) (pos : Int) (l : QLetter)
  | RowReverse (row : Nat)
  | RowRevComp (row : Nat)

/-- A successful call of one operation on a plain alignment; `none` when the
call returns an error or fails. -/
def Seq.call (rowsOfEmpty : Option Nat) (MinInt : Int) :
    SeqOp → Heap × Alignment.Seq → Option (Heap × Alignment.Seq)
  | .AppendColumns a, (h, s) =>
    match Seq.AppendColumns rowsOfEmpty h s a with
    | .ok st => some st
    | _ => none
  | .AppendEach a, (h, s) =>
    match Seq.AppendEach rowsOfEmpty MinInt h s a with
    | .ok st => some st
    | _ => none
  | .Reverse, (h, s) => Seq.Reverse h s
  | .RevComp, (h, s) => Seq.RevComp h s
  | .RowSet row pos l, (h, s) => Alignment.Row.Set h (Seq.Row s row) pos l
  | .RowReverse row, (h, s) => Alignment.Row.Reverse h (Seq.Row s row)
  | .RowRevComp row, (h, s) => Alignment.Row.RevComp h (Seq.Row s row)

/-- A sequence of successful calls on a plain alignment. -/
def Seq.calls (rowsOfEmpty : Option Nat) (MinInt : Int) :
    List SeqOp → Heap × Alignment.Seq → Option (Heap × Alignment.Seq)
  | [], st => some st
  | op :: ops, st =>
    match Seq.call rowsOfEmpty MinInt op st with
    | some st1 => Seq.calls rowsOfEmpty MinInt ops st1
    | none => none

/-- The operations on a quality alignment that the shape invariant speaks of. -/
inductive QSeqOp where
  | AppendColumns (a : List Slice)
  | AppendEach (a : List (List QLetter))
  | Reverse
  | RevComp
  | RowSet (row : Nat) (pos : Int) (l : QLetter)
  | RowReverse (row : Nat)
  | RowRevComp (row : Nat)

/-- A successful call of one operation on a quality alignment; `none` when the
call returns an error or fails. -/
def QSeq.call (rowsOfEmpty : Option Nat) (MinInt : Int) :
    QSeqOp → Heap × QSeq → Option (Heap × QSeq)
  | .AppendColumns a, (h, s) =>
    match QSeq.AppendColumns rowsOfEmpty h s a with
    | .ok st => some st
    | _ => none
  | .AppendEach a, (h, s) =>
    match QSeq.AppendEach rowsOfEmpty MinInt h s a with
    | .ok st => some st
    | _ => none
  | .Reverse, (h, s) => QSeq.Reverse h s
  | .RevComp, (h, s) => QSeq.RevComp h s
  | .RowSet row pos l, (h, s) => QRow.Set h (QSeq.Row s row) pos l
  | .RowReverse row, (h, s) => QRow.Reverse h (QSeq.Row s row)
  | .RowRevComp row, (h, s) => QRow.RevComp h (QSeq.Row s row)

/-- A sequence of successful calls on a quality alignment. -/
def QSeq.calls (rowsOfEmpty : Option Nat) (MinInt : Int) :
    List QSeqOp → Heap × QSeq → Option (Heap × QSeq)
  | [], st => some st
  | op :: ops, st =>
    match QSeq.call rowsOfEmpty MinInt op st with
    | some st1 => QSeq.calls rowsOfEmpty MinInt ops st1
    | none => none

/-- The slice headers of columns allocated one after the other from address
`base`, given their elements. -/
def freshCols {α : Type} (base : Nat) : List (List α) → List Slice
  | [] => []
  | c :: rest => { addr := base, len := c.length } :: freshCols (base + 1) rest

/-- The heap that `NewSeq` and `NewQSeq` leave after building an alignment with
the row identifiers `a` and `b` over `squareHeap`. -/
def squareState : Heap :=
  { squareHeap with
    annots := [[{ zeroAnn with ID := "a" }, { zeroAnn with ID := "b" }]] }

/-- The plain alignment that `NewSeq` builds from the identifiers `a`, `b` and
`squareBlock`. -/
def squareSeq : Seq :=
  { toAnnotation := { zeroAnn with ID := "x", Alpha := some dna },
    SubAnnotations := some { addr := 0, len := 2 }, Seq := squareBlock, ColumnConsense := 0 }

/-- The quality alignment that `NewQSeq` builds from the identifiers `a`, `b` and
`squareBlock`, with a filter that answers `n`. -/
def squareQSeq : QSeq :=
  { toAnnotation := { zeroAnn with ID := "x", Alpha := some dna },
    SubAnnotations := some { addr := 0, len := 2 }, Seq := squareBlock, ColumnConsense := 0,
    Threshold := 2, QFilter := fun _ _ _ => 110, Encode := 0 }

/-- The symbol matrix of a column store: the elements of its columns, in order. -/
def Mem.matrix {α : Type} (m : Mem α) (cols : List Slice) : List (List α) :=
  cols.map (fun c => m.contents c)

/-- The length of the longest row sequence of `a` (0 when there is none). -/
def longest (a : List (List QLetter)) : Nat :=
  (a.map List.length).foldr max 0

/-- The column that the spec asks of `AppendEach` at index `i`: row `r` holds the
letter of `a[r][i]` when the row sequence has it, and the gap symbol otherwise. -/
def paddedColumn (gap : Letter) (a : List (List QLetter)) (i : Nat) : List Letter :=
  a.map (fun ss => if h : i < ss.length then ss[i].L else gap)

/-- The quality column that the spec asks of `QSeq.AppendEach` at index `i`: row
`r` holds `a[r][i]` when the row sequence has it, and the gap symbol with
quality 0 otherwise. -/
def qpaddedColumn (gap : Letter) (a : List (List QLetter)) (i : Nat) : List QLetter :=
  a.map (fun ss => if h : i < ss.length then ss[i] else { L := gap, Q := 0 })

/-- A heap with one quality column of three rows, `A`, `C`, `G` with quality 40. -/
def tripleHeap : Heap :=
  { letters := [[65, 67, 71]],
    qletters := [[{ L := 65, Q := 40 }, { L := 67, Q := 40 }, { L := 71, Q := 40 }]],
    annots := [[{ zeroAnn with ID := "a" }, { zeroAnn with ID := "b" }, { zeroAnn with ID := "c" }]] }

/-- The quality alignment of one column and three rows over `tripleHeap`. -/
def tripleQSeq : QSeq :=
  { squareQSeq with SubAnnotations := some { addr := 0, len := 3 },
                    Seq := [{ addr := 0, len := 3 }] }

/-- The row sequences of the padding example of the spec, of lengths 3, 1 and 2. -/
def raggedRows : List (List QLetter) :=
  [[{ L := 67, Q := 9 }, { L := 71, Q := 9 }, { L := 84, Q := 9 }],
   [{ L := 65, Q := 9 }],
   [{ L := 71, Q := 9 }, { L := 84, Q := 9 }]]

/-- The columns of a store lie in separate storage: they have pairwise distinct
backing arrays, each allocated and long enough for its column. -/
def Mem.separate {α : Type} (m : Mem α) (cols : List Slice) : Prop :=
  (cols.map (fun c => c.addr)).Nodup ∧ ∀ c ∈ cols, c.addr < m.length ∧ m.valid c

/-- The symbol that the spec asks of `Add` for a single-row sequence `x` at
position `pos`: the symbol of `x` there when `pos` is in the range of `x`
(`none` when `x` cannot give it), and the gap symbol otherwise. -/
def addedRow (gap : Letter) (x : Sequence) (pos : Int) : Option Letter :=
  if x.Start ≤ pos ∧ pos < x.End then (x.At pos).map (fun q => q.L) else some gap

/-- The external sequence of the clip-and-fill example: it covers `[1, 3)` and
holds `g` at position 1 and `t` at position 2. -/
def clipSequence : Sequence :=
  { Start := 1, End := 3,
    At := fun pos => if pos = 1 then some { L := 103, Q := 0 } else some { L := 116, Q := 0 },
    CopyAnnotation := { zeroAnn with ID := "s", Offset := 1 } }

/-- The plain alignment `squareSeq` moved to the global offset 1. -/
def shiftedSeq : Seq := { squareSeq with Offset := 1 }

/-- The quality alignment `squareQSeq` moved to the global offset 1. -/
def shiftedQSeq : QSeq := { squareQSeq with Offset := 1 }

/-- An `Aligned` input of three rows that covers `[0, 3)`: every column holds
`a`, `b`, `c`, with quality 9 in the quality variant. -/
def tripleAligned : Aligned :=
  { Start := 0, End := 3, Rows := some 3,
    Column := fun _ => some [97, 98, 99],
    ColumnQL := fun _ => some [{ L := 97, Q := 9 }, { L := 98, Q := 9 }, { L := 99, Q := 9 }],
    CopyAnnotation := { zeroAnn with ID := "t" } }

/-- The heap `squareState` after `Row(0).SetOffset(1)`: the sub-annotation of
row 0 has offset 1, the alignment and row 1 stay at offset 0. -/
def offsetState : Heap :=
  { squareHeap with
    annots := [[{ zeroAnn with ID := "a", Offset := 1 }, { zeroAnn with ID := "b" }]] }

/-- A ragged column block over `raggedHeap` whose second column is wider than
its first: the one-row column `G` followed by the two-row column `AC`. -/
def wideBlock : List Slice :=
  [{ addr := 1, len := 1 }, { addr := 0, len := 2 }]

/-- A consensus function for the examples: it answers the position as a letter,
with the number of rows of the plain alignment as the quality. -/
def positionConsensus : Heap → Seq → Option Alphabet → Int → Bool → QLetter :=
  fun _ s _ i _ => { L := i.toNat, Q := (s.Rows none).getD 0 }

/-- The same consensus function for the quality alignment. -/
def positionQConsensus : Heap → QSeq → Option Alphabet → Int → Bool → QLetter :=
  fun _ s _ i _ => { L := i.toNat, Q := (s.Rows none).getD 0 }

/-- The heap `squareState` with the sub-annotations of both rows at offset 1, the
offset of `shiftedSeq` and `shiftedQSeq`. -/
def shiftedState : Heap :=
  { squareHeap with
    annots := [[{ zeroAnn with ID := "a", Offset := 1 }, { zeroAnn with ID := "b", Offset := 1 }]] }

/-- A heap holding one empty letter array and one empty quality array. -/
def hollowHeap : Heap := { letters := [[]], qletters := [[]], annots := [] }

/-- The column block of one column of zero rows over `hollowHeap`. -/
def hollowBlock : List Slice := [{ addr := 0, len := 0 }]

/-- The heap `squareState` with other contents in the cells of row 1, which have
quality 1 in `squareState`: the letters differ and the qualities are 0 or 1. -/
def maskedState : Heap :=
  { squareState with
    qletters := [[{ L := 65, Q := 40 }, { L := 71, Q := 0 }],
                 [{ L := 71, Q := 40 }, { L := 65, Q := 1 }],
                 [{ L := 65, Q := 40 }, { L := 84, Q := 0 }]] }

/-- A heap with one letter array of three cells, `A`, `C` and a spare cell, and
the same as a quality array. -/
def sharedHeap : Heap :=
  { letters := [[65, 67, 0]],
    qletters := [[{ L := 65, Q := 40 }, { L := 67, Q := 40 }, { L := 0, Q := 0 }]],
    annots := [] }

/-- A rectangular column block of two columns of two rows whose headers are both
the first two cells of the one array of `sharedHeap`. -/
def sharedBlock : List Slice := [{ addr := 0, len := 2 }, { addr := 0, len := 2 }]

/-- A single-row sequence that covers `[0, 2)` and holds `g` at position 0 and
`t` at position 1. -/
def pairSequence : Sequence :=
  { Start := 0, End := 2,
    At := fun pos => if pos = 0 then some { L := 103, Q := 0 } else some { L := 116, Q := 0 },
    CopyAnnotation := { zeroAnn with ID := "s" } }

/-- A heap holding the one-cell arrays `A` and, as a quality array, `A` with
quality 40. -/
def oneHeap : Heap :=
  { letters := [[65]], qletters := [[{ L := 65, Q := 40 }]], annots := [] }

/-- The column block of one column of one row over `oneHeap`. -/
def oneBlock : List Slice := [{ addr := 0, len := 1 }]

/-- One row sequence `T T T` with quality 9. -/
def threeLetters : List (List QLetter) :=
  [[{ L := 84, Q := 9 }, { L := 84, Q := 9 }, { L := 84, Q := 9 }]]

/-- The quality alignment of one row that `NewQSeq` builds from `oneBlock` and
`AppendEach` then extends by `threeLetters`: the three new columns are one slice
of the buffer of `AppendEach`. -/
def sharedQSeq : QSeq :=
  { toAnnotation := { zeroAnn with ID := "x", Alpha := some dna },
    SubAnnotations := some { addr := 0, len := 1 },
    Seq := [{ addr := 0, len := 1 }, { addr := 1, len := 1 }, { addr := 1, len := 1 },
            { addr := 1, len := 1 }],
    ColumnConsense := 0, Threshold := 2, QFilter := fun _ _ _ => 110, Encode := 0 }

/-- The heap that goes with `sharedQSeq`: the stored column `A` with quality 40,
the buffer of `AppendEach` holding `T` with quality 9, and the sub-annotation of
the row. -/
def sharedQState : Heap :=
  { letters := [[65]],
    qletters := [[{ L := 65, Q := 40 }], [{ L := 84, Q := 9 }]],
    annots := [[{ zeroAnn with ID := "a" }]] }

/-! ## Theorems -/

/-! ## Construction -/

theorem newSubann_eq_none_iff (id : String) (subids : List String) (b : List Slice) :
    newSubann id subids b = none ↔ ¬ idsAgree subids b := by
  unfold idsAgree
  cases b with
  | nil => cases subids <;> simp [newSubann]
  | cons b0 rest =>
    by_cases hl : subids.length = b0.len
    · by_cases h0 : subids.length = 0 <;> simp [newSubann, hl, h0]
      all_goals simp_all
    · simp [newSubann, hl]

theorem NewSeq_ok_iff (h : Heap) (id : String) (subids : List String) (b : List Slice)
    (alpha : Option Alphabet) (cons : ConsenseFunc) :
    (∃ st, NewSeq h id subids b alpha cons = .ok st) ↔ idsAgree subids b := by
  rw [← not_iff_not, ← newSubann_eq_none_iff id]
  unfold NewSeq
  cases hs : newSubann id subids b with
  | none => simp
  | some o => cases o <;> simp [Mem.alloc]

theorem NewSeq_error_iff (h : Heap) (id : String) (subids : List String) (b : List Slice)
    (alpha : Option Alphabet) (cons : ConsenseFunc) :
    NewSeq h id subids b alpha cons = .error "alignment: id/seq number mismatch" ↔
      ¬ idsAgree subids b := by
  rw [← newSubann_eq_none_iff id]
  unfold NewSeq
  cases hs : newSubann id subids b with
  | none => simp
  | some o => cases o <;> simp [Mem.alloc]

theorem NewQSeq_ok_iff (f : QFilter) (h : Heap) (id : String) (subids : List String)
    (b : List Slice) (alpha : Option Alphabet) (enc : Encoding) (cons : ConsenseFunc) :
    (∃ st, NewQSeq f h id subids b alpha enc cons = .ok st) ↔ idsAgree subids b := by
  rw [← not_iff_not, ← newSubann_eq_none_iff id]
  unfold NewQSeq
  cases hs : newSubann id subids b with
  | none => simp
  | some o => cases o <;> simp [Mem.alloc]

theorem NewQSeq_error_iff (f : QFilter) (h : Heap) (id : String) (subids : List String)
    (b : List Slice) (alpha : Option Alphabet) (enc : Encoding) (cons : ConsenseFunc) :
    NewQSeq f h id subids b alpha enc cons = .error "alignment: id/seq number mismatch" ↔
      ¬ idsAgree subids b := by
  rw [← newSubann_eq_none_iff id]
  unfold NewQSeq
  cases hs : newSubann id subids b with
  | none => simp
  | some o => cases o <;> simp [Mem.alloc]

/-- C1: `NewSeq` and `NewQSeq` succeed exactly when the row identifiers and the
column block are both empty, or the block is non-empty and the number of
identifiers equals the width of the first column; in every other case they
return the error "alignment: id/seq number mismatch" and no alignment. -/
theorem constructors_succeed_iff_ids_agree (f : QFilter) (h : Heap) (id : String)
    (subids : List String) (b : List Slice) (alpha : Option Alphabet) (enc : Encoding)
    (cons : ConsenseFunc) :
    ((∃ st, NewSeq h id subids b alpha cons = .ok st) ↔ idsAgree subids b) ∧
    (NewSeq h id subids b alpha cons = .error "alignment: id/seq number mismatch" ↔
      ¬ idsAgree subids b) ∧
    ((∃ st, NewQSeq f h id subids b alpha enc cons = .ok st) ↔ idsAgree subids b) ∧
    (NewQSeq f h id subids b alpha enc cons = .error "alignment: id/seq number mismatch" ↔
      ¬ idsAgree subids b) :=
  ⟨NewSeq_ok_iff h id subids b alpha cons, NewSeq_error_iff h id subids b alpha cons,
   NewQSeq_ok_iff f h id subids b alpha enc cons, NewQSeq_error_iff f h id subids b alpha enc cons⟩

/-- C2: with an empty list of row identifiers and a first column of `N > 0`
rows, `NewSeq` and `NewQSeq` do not synthesize the identifiers `"<id>:<k>"`: they
return the error "alignment: id/seq number mismatch". -/
theorem constructors_reject_empty_ids (f : QFilter) (h : Heap) (id : String) (b0 : Slice)
    (rest : List Slice) (alpha : Option Alphabet) (enc : Encoding) (cons : ConsenseFunc)
    (hN : 0 < b0.len) :
    NewSeq h id [] (b0 :: rest) alpha cons = .error "alignment: id/seq number mismatch" ∧
    NewQSeq f h id [] (b0 :: rest) alpha enc cons =
      .error "alignment: id/seq number mismatch" := by
  have hn : ¬ idsAgree [] (b0 :: rest) := by
    unfold idsAgree
    simp
    omega
  exact ⟨(NewSeq_error_iff h id [] (b0 :: rest) alpha cons).2 hn,
    (NewQSeq_error_iff f h id [] (b0 :: rest) alpha enc cons).2 hn⟩

/-- C2, at a concrete input: the identifier `x`, no row identifiers and the one
column `AC` of two rows. -/
theorem constructors_reject_empty_ids_witness :
    (0 : Nat) < (Slice.mk 0 2).len ∧
    NewSeq raggedHeap "x" [] [{ addr := 0, len := 2 }] (some dna) 0 =
      .error "alignment: id/seq number mismatch" ∧
    NewQSeq (fun _ _ _ => 110) raggedHeap "x" [] [{ addr := 0, len := 2 }] (some dna) 0 0 =
      .error "alignment: id/seq number mismatch" :=
  ⟨by decide, constructors_reject_empty_ids (fun _ _ _ => 110) raggedHeap "x"
    { addr := 0, len := 2 } [] (some dna) 0 0 (by decide)⟩

theorem setIDs_length (ids : List String) (i : Nat) (arr : List Annotation) :
    (setIDs ids i arr).length = arr.length := by
  induction ids generalizing i arr with
  | nil => rfl
  | cons sid rest ih => simp [setIDs, ih]

theorem newSubann_shape (e : Option Nat) (id : String) (subids : List String) (b : List Slice)
    (o : Option (List Annotation)) (addr : Nat) (hs : newSubann id subids b = some o)
    (hr : rectangular b) :
    shapeInv e (o.map (fun arr => { addr := addr, len := arr.length })) b := by
  cases b with
  | nil =>
    cases subids with
    | nil =>
      simp [newSubann] at hs
      subst hs
      simp [shapeInv, subLen]
    | cons x xs => simp [newSubann] at hs
  | cons b0 rest =>
    have hcols : ∀ c ∈ b0 :: rest, some c.len = Columns.Rows e (b0 :: rest) := by
      intro c hc
      simp only [Columns.Rows]
      rw [hr c hc b0 (List.mem_cons_self _ _)]
    by_cases hl : subids.length = b0.len
    · by_cases h0 : subids.length = 0
      · have hb : b0.len = 0 := by omega
        simp [newSubann, h0, hb] at hs
        subst hs
        refine ⟨hcols, Or.inl ?_⟩
        simp [subLen, synthIDs, setIDs_length]
      · have hb : ¬ b0.len = 0 := by omega
        simp [newSubann, hl, hb] at hs
        subst hs
        refine ⟨hcols, Or.inr ?_⟩
        simp [subLen, setIDs_length, Columns.Rows]
    · simp [newSubann, hl] at hs

theorem NewSeq_ok_fields (h h1 : Heap) (id : String) (subids : List String) (b : List Slice)
    (alpha : Option Alphabet) (cons : ConsenseFunc) (s : Seq)
    (hok : NewSeq h id subids b alpha cons = .ok (h1, s)) :
    ∃ o, newSubann id subids b = some o ∧ s.Seq = b ∧
      s.SubAnnotations = o.map (fun arr => { addr := h.annots.length, len := arr.length }) := by
  unfold NewSeq at hok
  cases hs : newSubann id subids b with
  | none => simp [hs] at hok
  | some o =>
    cases o with
    | none =>
      simp [hs] at hok
      obtain ⟨_, rfl⟩ := hok
      exact ⟨none, rfl, rfl, rfl⟩
    | some arr =>
      simp [hs, Mem.alloc] at hok
      obtain ⟨_, rfl⟩ := hok
      exact ⟨some arr, rfl, rfl, rfl⟩

theorem NewQSeq_ok_fields (f : QFilter) (h h1 : Heap) (id : String) (subids : List String)
    (b : List Slice) (alpha : Option Alphabet) (enc : Encoding) (cons : ConsenseFunc) (s : QSeq)
    (hok : NewQSeq f h id subids b alpha enc cons = .ok (h1, s)) :
    ∃ o, newSubann id subids b = some o ∧ s.Seq = b ∧
      s.SubAnnotations = o.map (fun arr => { addr := h.annots.length, len := arr.length }) := by
  unfold NewQSeq at hok
  cases hs : newSubann id subids b with
  | none => simp [hs] at hok
  | some o =>
    cases o with
    | none =>
      simp [hs] at hok
      obtain ⟨_, rfl⟩ := hok
      exact ⟨none, rfl, rfl, rfl⟩
    | some arr =>
      simp [hs, Mem.alloc] at hok
      obtain ⟨_, rfl⟩ := hok
      exact ⟨some arr, rfl, rfl, rfl⟩

/-- C3 (as amended): every alignment returned by a successful `NewSeq` or
`NewQSeq` call on a rectangular column block (all supplied columns have the same
width) satisfies the shape invariant: every stored column has width `Rows()` and
the number of sub-annotations is 0 or `Rows()`. -/
theorem constructors_establish_shape (e : Option Nat) (f : QFilter) (h : Heap) (id : String)
    (subids : List String) (b : List Slice) (alpha : Option Alphabet) (enc : Encoding)
    (cons : ConsenseFunc) (hr : rectangular b) :
    (∀ h1 s, NewSeq h id subids b alpha cons = .ok (h1, s) → Seq.shapeInv e s) ∧
    (∀ h1 q, NewQSeq f h id subids b alpha enc cons = .ok (h1, q) → QSeq.shapeInv e q) := by
  constructor
  · intro h1 s hok
    obtain ⟨o, hs, hseq, hsub⟩ := NewSeq_ok_fields h h1 id subids b alpha cons s hok
    unfold Seq.shapeInv
    rw [hseq, hsub]
    exact newSubann_shape e id subids b o _ hs hr
  · intro h1 q hok
    obtain ⟨o, hs, hseq, hsub⟩ := NewQSeq_ok_fields f h h1 id subids b alpha enc cons q hok
    unfold QSeq.shapeInv
    rw [hseq, hsub]
    exact newSubann_shape e id subids b o _ hs hr

/-- C3, the claim as stated fails: `NewSeq` and `NewQSeq` accept the identifiers
`a`, `b` with the ragged block of a two-row column followed by a one-row column,
and the alignment they return has a column whose width is not `Rows()`. -/
theorem constructors_accept_ragged_block :
    (∃ h s, NewSeq raggedHeap "x" ["a", "b"] raggedBlock (some dna) 0 = .ok (h, s) ∧
      ∀ e, ¬ Seq.shapeInv e s) ∧
    (∃ h q, NewQSeq (fun _ _ _ => 110) raggedHeap "x" ["a", "b"] raggedBlock (some dna) 0 0 =
        .ok (h, q) ∧ ∀ e, ¬ QSeq.shapeInv e q) := by
  refine ⟨⟨_, _, rfl, ?_⟩, ⟨_, _, rfl, ?_⟩⟩
  · intro e hinv
    have := hinv.1 { addr := 1, len := 1 } (by simp [raggedBlock])
    simp [raggedBlock, Columns.Rows] at this
  · intro e hinv
    have := hinv.1 { addr := 1, len := 1 } (by simp [raggedBlock])
    simp [raggedBlock, Columns.Rows] at this

theorem rectangular_squareBlock : rectangular squareBlock := by
  intro c hc d hd
  simp [squareBlock] at hc hd
  rcases hc with rfl | rfl | rfl <;> rcases hd with rfl | rfl | rfl <;> rfl

/-- C3 (as amended), at a concrete input: the identifiers `a`, `b` and the block
of three columns of two rows. -/
theorem constructors_establish_shape_witness :
    rectangular squareBlock ∧
    (∃ h s, NewSeq squareHeap "x" ["a", "b"] squareBlock (some dna) 0 = .ok (h, s) ∧
      Seq.shapeInv none s) ∧
    (∃ h q, NewQSeq (fun _ _ _ => 110) squareHeap "x" ["a", "b"] squareBlock (some dna) 0 0 =
        .ok (h, q) ∧ QSeq.shapeInv none q) :=
  ⟨rectangular_squareBlock,
   ⟨_, _, rfl, (constructors_establish_shape none (fun _ _ _ => 110) squareHeap "x" ["a", "b"]
      squareBlock (some dna) 0 0 rectangular_squareBlock).1 _ _ rfl⟩,
   ⟨_, _, rfl, (constructors_establish_shape none (fun _ _ _ => 110) squareHeap "x" ["a", "b"]
      squareBlock (some dna) 0 0 rectangular_squareBlock).2 _ _ rfl⟩⟩

/-! ## Loops -/

theorem forRows_preserves {σ : Type} (P : σ → Prop) (body : Nat → σ → Option σ)
    (hbody : ∀ r st st1, P st → body r st = some st1 → P st1) :
    ∀ k r st st1, P st → forRows body k r st = some st1 → P st1 := by
  intro k
  induction k with
  | zero =>
    intro r st st1 hP h
    simp [forRows] at h
    exact h ▸ hP
  | succ k ih =>
    intro r st st1 hP h
    simp only [forRows] at h
    cases hb : body r st with
    | none => simp [hb] at h
    | some st2 =>
      simp only [hb] at h
      exact ih (r + 1) st2 st1 (hbody r st st2 hP hb) h

theorem forEnds_preserves {σ : Type} (P : σ → Prop) (body : Nat → Nat → σ → Option σ)
    (hbody : ∀ i j st st1, P st → body i j st = some st1 → P st1) :
    ∀ fuel i j st st1 i1 j1, P st → forEnds body fuel i j st = some (st1, i1, j1) → P st1 := by
  intro fuel
  induction fuel with
  | zero =>
    intro i j st st1 i1 j1 hP h
    unfold forEnds at h
    split at h
    · simp at h
    · simp at h
      exact h.1 ▸ hP
  | succ fuel ih =>
    intro i j st st1 i1 j1 hP h
    unfold forEnds at h
    split at h
    · cases hb : body i j.toNat st with
      | none => simp [hb] at h
      | some st2 =>
        simp only [hb] at h
        exact ih (i + 1) (j - 1) st2 st1 i1 j1 (hbody i j.toNat st st2 hP hb) h
    · simp at h
      exact h.1 ▸ hP

/-! ## The shape invariant -/

theorem rows_append (e : Option Nat) (cols new : List Slice)
    (hnew : ∀ c ∈ new, some c.len = Columns.Rows e cols) :
    Columns.Rows e (cols ++ new) = Columns.Rows e cols := by
  cases cols with
  | cons c rest => rfl
  | nil =>
    cases new with
    | nil => rfl
    | cons n rest => exact hnew n (List.mem_cons_self _ _)

theorem shapeInv_append (e : Option Nat) (sub : Option Slice) (cols new : List Slice)
    (hinv : shapeInv e sub cols) (hnew : ∀ c ∈ new, some c.len = Columns.Rows e cols) :
    shapeInv e sub (cols ++ new) := by
  unfold shapeInv
  rw [rows_append e cols new hnew]
  refine ⟨?_, hinv.2⟩
  intro c hc
  rcases List.mem_append.1 hc with hc | hc
  · exact hinv.1 c hc
  · exact hnew c hc

theorem shapeInv_of_mem (e : Option Nat) (sub : Option Slice) (cols l1 : List Slice)
    (hinv : shapeInv e sub cols) (hlen : l1.length = cols.length) (hmem : ∀ x ∈ l1, x ∈ cols) :
    shapeInv e sub l1 := by
  have hrows : Columns.Rows e l1 = Columns.Rows e cols := by
    cases l1 with
    | nil =>
      cases cols with
      | nil => rfl
      | cons c rest => simp at hlen
    | cons x rest =>
      have hx := hinv.1 x (hmem x (List.mem_cons_self _ _))
      simpa [Columns.Rows] using hx
  unfold shapeInv
  rw [hrows]
  exact ⟨fun c hc => hinv.1 c (hmem c hc), hinv.2⟩

theorem checkColumns_ok (rows : Option Nat) (ws : List Nat) (i : Nat) (u : Unit)
    (h : checkColumns rows ws i = .ok u) : ∀ w ∈ ws, some w = rows := by
  induction ws generalizing i with
  | nil => simp
  | cons w rest ih =>
    cases rows with
    | none => simp [checkColumns] at h
    | some n =>
      simp only [checkColumns] at h
      split at h
      · simp at h
      · rename_i hw
        intro x hx
        rcases List.mem_cons.1 hx with rfl | hx
        · simp at hw
          simp [hw]
        · exact ih (i + 1) h x hx

theorem freshCols_len {α : Type} (base : Nat) (l : List (List α)) :
    (freshCols base l).map (fun c => c.len) = l.map List.length := by
  induction l generalizing base with
  | nil => rfl
  | cons c rest ih => simp [freshCols, ih]

theorem freshCols_length {α : Type} (base : Nat) (l : List (List α)) :
    (freshCols base l).length = l.length := by
  induction l generalizing base with
  | nil => rfl
  | cons c rest ih => simp [freshCols, ih]

theorem appendLetters_eq (a : List (List QLetter)) (h : Heap) (s : Seq) :
    Seq.appendLetters a (h, s) =
      ({ h with letters := h.letters ++ a.map (fun r => r.map (fun ql => ql.L)) },
       { s with Seq := s.Seq ++
           freshCols h.letters.length (a.map (fun r => r.map (fun ql => ql.L))) }) := by
  induction a generalizing h s with
  | nil => simp [Seq.appendLetters, freshCols]
  | cons r rest ih =>
    simp only [Seq.appendLetters, Mem.alloc]
    rw [ih]
    simp [freshCols, List.append_assoc]

theorem swapCols_mem {α : Type} (i j : Nat) (l l1 : List α) (h : swapCols i j l = some l1) :
    l1.length = l.length ∧ ∀ x ∈ l1, x ∈ l := by
  unfold swapCols at h
  split at h
  · rename_i x y hx hy
    simp at h
    subst h
    refine ⟨by simp, ?_⟩
    intro z hz
    rcases List.mem_or_eq_of_mem_set hz with hz | rfl
    · rcases List.mem_or_eq_of_mem_set hz with hz | rfl
      · exact hz
      · exact List.getElem?_mem hy
    · exact List.getElem?_mem hx
  · simp at h

theorem reverse_mem {α : Type} (l l1 : List α) (i1 : Nat) (j1 : Int) (fuel i : Nat) (j : Int)
    (h : forEnds swapCols fuel i j l = some (l1, i1, j1)) :
    l1.length = l.length ∧ ∀ x ∈ l1, x ∈ l := by
  refine forEnds_preserves (fun l2 => l2.length = l.length ∧ ∀ x ∈ l2, x ∈ l) swapCols ?_
    fuel i j l l1 i1 j1 ⟨rfl, fun x hx => hx⟩ h
  intro i j st st1 hP hb
  obtain ⟨h1, h2⟩ := swapCols_mem i j st st1 hb
  exact ⟨h1.trans hP.1, fun x hx => hP.2 x (h2 x hx)⟩

theorem mem_freshCols_len {α : Type} (base : Nat) (l : List (List α)) (c : Slice)
    (hc : c ∈ freshCols base l) : c.len ∈ l.map List.length := by
  rw [← freshCols_len base l]
  exact List.mem_map_of_mem (fun c => c.len) hc

theorem Seq_AppendColumns_error (e : Option Nat) (h : Heap) (s : Seq) (a : List (List QLetter))
    (st : Heap × Seq) (msg : String) (herr : Seq.AppendColumns e h s a = .error st msg) :
    st = (h, s) := by
  unfold Seq.AppendColumns at herr
  split at herr <;> simp at herr
  exact herr.1.symm

theorem Seq_AppendColumns_shape (e : Option Nat) (h : Heap) (s : Seq) (a : List (List QLetter))
    (st : Heap × Seq) (hinv : Seq.shapeInv e s) (hok : Seq.AppendColumns e h s a = .ok st) :
    Seq.shapeInv e st.2 := by
  unfold Seq.AppendColumns at hok
  split at hok <;> simp at hok
  rename_i u hc
  subst hok
  rw [appendLetters_eq]
  refine shapeInv_append e _ _ _ hinv ?_
  intro c hc1
  have h1 := mem_freshCols_len _ _ c hc1
  have h2 := checkColumns_ok _ _ _ _ hc c.len (by simpa using h1)
  exact h2

theorem Seq_appendEachLoop_shape (e : Option Nat) (a : List (List QLetter)) :
    ∀ k i st st1, Seq.shapeInv e st.2 → Seq.appendEachLoop e a k i st = some st1 →
      Seq.shapeInv e st1.2 := by
  intro k
  induction k with
  | zero =>
    intro i st st1 hinv h
    simp [Seq.appendEachLoop] at h
    exact h ▸ hinv
  | succ k ih =>
    intro i st st1 hinv h
    obtain ⟨h0, s0⟩ := st
    simp only [Seq.appendEachLoop] at h
    split at h
    · simp at h
    · rename_i b hb
      split at h
      · rename_i st2 hac
        exact ih (i + 1) st2 st1 (Seq_AppendColumns_shape e h0 s0 [b] st2 hinv hac) h
      · rename_i st2 msg hac
        have := Seq_AppendColumns_error e h0 s0 [b] st2 msg hac
        subst this
        exact ih (i + 1) _ st1 hinv h
      · simp at h

theorem Seq_AppendEach_shape (e : Option Nat) (MinInt : Int) (h : Heap) (s : Seq)
    (a : List (List QLetter)) (st : Heap × Seq) (hinv : Seq.shapeInv e s)
    (hok : Seq.AppendEach e MinInt h s a = .ok st) : Seq.shapeInv e st.2 := by
  unfold Seq.AppendEach at hok
  split at hok
  · simp at hok
  · split at hok
    · simp at hok
    · simp only at hok
      split at hok
      · simp at hok
      · split at hok
        · rename_i st2 hl
          simp at hok
          subst hok
          exact Seq_appendEachLoop_shape e a _ 0 (h, s) st2 hinv hl
        · simp at hok

theorem Seq_Reverse_shape (e : Option Nat) (h : Heap) (s : Seq) (st : Heap × Seq)
    (hinv : Seq.shapeInv e s) (hok : Seq.Reverse h s = some st) : Seq.shapeInv e st.2 := by
  unfold Seq.Reverse at hok
  split at hok
  · simp at hok
  · rename_i l i1 j1 hl
    simp at hok
    subst hok
    obtain ⟨h1, h2⟩ := reverse_mem _ _ _ _ _ _ _ hl
    exact shapeInv_of_mem e _ _ _ hinv h1 h2

theorem Seq_RevComp_fields (h : Heap) (s : Seq) (st : Heap × Seq)
    (hok : Seq.RevComp h s = some st) :
    st.2.Seq = s.Seq ∧ st.2.SubAnnotations = s.SubAnnotations := by
  unfold Seq.RevComp at hok
  split at hok
  · simp at hok
  · split at hok
    · simp at hok
    · split at hok
      · simp at hok
      · simp at hok
        subst hok
        exact ⟨rfl, rfl⟩

theorem Row_Set_fields (h : Heap) (r : Row) (pos : Int) (l : QLetter) (st : Heap × Seq)
    (hok : Row.Set h r pos l = some st) : st.2 = r.Align := by
  unfold Row.Set at hok
  split at hok
  · split at hok
    · simp at hok
      subst hok
      rfl
    · simp at hok
  · simp at hok

theorem Row_Reverse_fields (h : Heap) (r : Row) (st : Heap × Seq)
    (hok : Row.Reverse h r = some st) : st.2 = r.Align := by
  unfold Row.Reverse at hok
  split at hok
  · simp at hok
  · split at hok
    · simp at hok
      subst hok
      rfl
    · simp at hok

theorem Row_RevComp_fields (h : Heap) (r : Row) (st : Heap × Seq)
    (hok : Row.RevComp h r = some st) : st.2 = r.Align := by
  unfold Row.RevComp at hok
  split at hok
  · simp at hok
  · split at hok
    · simp at hok
    · split at hok
      · simp at hok
      · split at hok
        · simp at hok
          subst hok
          rfl
        · simp at hok

theorem Seq_call_shape (e : Option Nat) (MinInt : Int) (op : SeqOp) (st st1 : Heap × Seq)
    (hinv : Seq.shapeInv e st.2) (hok : Seq.call e MinInt op st = some st1) :
    Seq.shapeInv e st1.2 := by
  obtain ⟨h, s⟩ := st
  cases op with
  | AppendColumns a =>
    simp only [Seq.call] at hok
    split at hok
    · rename_i st2 hac
      simp at hok
      subst hok
      exact Seq_AppendColumns_shape e h s a st2 hinv hac
    · simp at hok
  | AppendEach a =>
    simp only [Seq.call] at hok
    split at hok
    · rename_i st2 hac
      simp at hok
      subst hok
      exact Seq_AppendEach_shape e MinInt h s a st2 hinv hac
    · simp at hok
  | Reverse => exact Seq_Reverse_shape e h s st1 hinv hok
  | RevComp =>
    obtain ⟨h1, h2⟩ := Seq_RevComp_fields h s st1 hok
    unfold Seq.shapeInv
    rw [h1, h2]
    exact hinv
  | RowSet row pos l =>
    rw [Row_Set_fields h (Seq.Row s row) pos l st1 hok]
    exact hinv
  | RowReverse row =>
    rw [Row_Reverse_fields h (Seq.Row s row) st1 hok]
    exact hinv
  | RowRevComp row =>
    rw [Row_RevComp_fields h (Seq.Row s row) st1 hok]
    exact hinv

theorem Seq_calls_shape (e : Option Nat) (MinInt : Int) (ops : List SeqOp) :
    ∀ st st1 : Heap × Seq, Seq.shapeInv e st.2 → Seq.calls e MinInt ops st = some st1 →
      Seq.shapeInv e st1.2 := by
  induction ops with
  | nil =>
    intro st st1 hinv h
    simp [Seq.calls] at h
    exact h ▸ hinv
  | cons op ops ih =>
    intro st st1 hinv h
    simp only [Seq.calls] at h
    split at h
    · rename_i st2 hc
      exact ih st2 st1 (Seq_call_shape e MinInt op st st2 hinv hc) h
    · simp at h

theorem QSeq_AppendColumns_error (e : Option Nat) (h : Heap) (s : QSeq) (a : List Slice)
    (st : Heap × QSeq) (msg : String) (herr : QSeq.AppendColumns e h s a = .error st msg) :
    st = (h, s) := by
  unfold QSeq.AppendColumns at herr
  split at herr <;> simp at herr
  exact herr.1.symm

theorem QSeq_AppendColumns_shape (e : Option Nat) (h : Heap) (s : QSeq) (a : List Slice)
    (st : Heap × QSeq) (hinv : QSeq.shapeInv e s) (hok : QSeq.AppendColumns e h s a = .ok st) :
    QSeq.shapeInv e st.2 := by
  unfold QSeq.AppendColumns at hok
  split at hok <;> simp at hok
  rename_i u hc
  subst hok
  refine shapeInv_append e _ _ _ hinv ?_
  intro c hc1
  exact checkColumns_ok _ _ _ _ hc c.len (List.mem_map_of_mem (fun c => c.len) hc1)

theorem QSeq_appendEachLoop_shape (e : Option Nat) (a : List (List QLetter)) (b : Nat) :
    ∀ k i st st1, QSeq.shapeInv e st.2 → QSeq.appendEachLoop e a b k i st = some st1 →
      QSeq.shapeInv e st1.2 := by
  intro k
  induction k with
  | zero =>
    intro i st st1 hinv h
    simp [QSeq.appendEachLoop] at h
    exact h ▸ hinv
  | succ k ih =>
    intro i st st1 hinv h
    obtain ⟨h0, s0⟩ := st
    simp only [QSeq.appendEachLoop] at h
    split at h
    · simp at h
    · rename_i col hb
      split at h
      · rename_i st2 hac
        exact ih (i + 1) st2 st1 (QSeq_AppendColumns_shape e _ s0 _ st2 hinv hac) h
      · rename_i st2 msg hac
        have := QSeq_AppendColumns_error e _ s0 _ st2 msg hac
        subst this
        refine ih (i + 1) _ st1 ?_ h
        exact hinv
      · simp at h

theorem QSeq_AppendEach_shape (e : Option Nat) (MinInt : Int) (h : Heap) (s : QSeq)
    (a : List (List QLetter)) (st : Heap × QSeq) (hinv : QSeq.shapeInv e s)
    (hok : QSeq.AppendEach e MinInt h s a = .ok st) : QSeq.shapeInv e st.2 := by
  unfold QSeq.AppendEach at hok
  split at hok
  · simp at hok
  · split at hok
    · simp at hok
    · simp only at hok
      split at hok
      · simp at hok
      · split at hok
        · rename_i st2 hl
          simp at hok
          subst hok
          exact QSeq_appendEachLoop_shape e a _ _ 0 _ st2 hinv hl
        · simp at hok

theorem QSeq_Reverse_shape (e : Option Nat) (h : Heap) (s : QSeq) (st : Heap × QSeq)
    (hinv : QSeq.shapeInv e s) (hok : QSeq.Reverse h s = some st) : QSeq.shapeInv e st.2 := by
  unfold QSeq.Reverse at hok
  split at hok
  · simp at hok
  · rename_i l i1 j1 hl
    simp at hok
    subst hok
    obtain ⟨h1, h2⟩ := reverse_mem _ _ _ _ _ _ _ hl
    exact shapeInv_of_mem e _ _ _ hinv h1 h2

theorem QSeq_RevComp_fields (h : Heap) (s : QSeq) (st : Heap × QSeq)
    (hok : QSeq.RevComp h s = some st) :
    st.2.Seq = s.Seq ∧ st.2.SubAnnotations = s.SubAnnotations := by
  unfold QSeq.RevComp at hok
  split at hok
  · simp at hok
  · split at hok
    · simp at hok
    · split at hok
      · simp at hok
      · simp at hok
        subst hok
        exact ⟨rfl, rfl⟩

theorem QRow_Set_fields (h : Heap) (r : QRow) (pos : Int) (l : QLetter) (st : Heap × QSeq)
    (hok : QRow.Set h r pos l = some st) : st.2 = r.Align := by
  unfold QRow.Set at hok
  split at hok
  · split at hok
    · simp at hok
      subst hok
      rfl
    · simp at hok
  · simp at hok

theorem QRow_Reverse_fields (h : Heap) (r : QRow) (st : Heap × QSeq)
    (hok : QRow.Reverse h r = some st) : st.2 = r.Align := by
  unfold QRow.Reverse at hok
  split at hok
  · simp at hok
  · split at hok
    · simp at hok
      subst hok
      rfl
    · simp at hok

theorem QRow_RevComp_fields (h : Heap) (r : QRow) (st : Heap × QSeq)
    (hok : QRow.RevComp h r = some st) : st.2 = r.Align := by
  unfold QRow.RevComp at hok
  split at hok
  · simp at hok
  · split at hok
    · simp at hok
    · split at hok
      · simp at hok
      · split at hok
        · simp at hok
          subst hok
          rfl
        · simp at hok

theorem QSeq_call_shape (e : Option Nat) (MinInt : Int) (op : QSeqOp) (st st1 : Heap × QSeq)
    (hinv : QSeq.shapeInv e st.2) (hok : QSeq.call e MinInt op st = some st1) :
    QSeq.shapeInv e st1.2 := by
  obtain ⟨h, s⟩ := st
  cases op with
  | AppendColumns a =>
    simp only [QSeq.call] at hok
    split at hok
    · rename_i st2 hac
      simp at hok
      subst hok
      exact QSeq_AppendColumns_shape e h s a st2 hinv hac
    · simp at hok
  | AppendEach a =>
    simp only [QSeq.call] at hok
    split at hok
    · rename_i st2 hac
      simp at hok
      subst hok
      exact QSeq_AppendEach_shape e MinInt h s a st2 hinv hac
    · simp at hok
  | Reverse => exact QSeq_Reverse_shape e h s st1 hinv hok
  | RevComp =>
    obtain ⟨h1, h2⟩ := QSeq_RevComp_fields h s st1 hok
    unfold QSeq.shapeInv
    rw [h1, h2]
    exact hinv
  | RowSet row pos l =>
    rw [QRow_Set_fields h (QSeq.Row s row) pos l st1 hok]
    exact hinv
  | RowReverse row =>
    rw [QRow_Reverse_fields h (QSeq.Row s row) st1 hok]
    exact hinv
  | RowRevComp row =>
    rw [QRow_RevComp_fields h (QSeq.Row s row) st1 hok]
    exact hinv

theorem QSeq_calls_shape (e : Option Nat) (MinInt : Int) (ops : List QSeqOp) :
    ∀ st st1 : Heap × QSeq, QSeq.shapeInv e st.2 → QSeq.calls e MinInt ops st = some st1 →
      QSeq.shapeInv e st1.2 := by
  induction ops with
  | nil =>
    intro st st1 hinv h
    simp [QSeq.calls] at h
    exact h ▸ hinv
  | cons op ops ih =>
    intro st st1 hinv h
    simp only [QSeq.calls] at h
    split at h
    · rename_i st2 hc
      exact ih st2 st1 (QSeq_call_shape e MinInt op st st2 hinv hc) h
    · simp at h

/-- C4: for every alignment, plain or quality, that satisfies the shape
invariant (every column has width `Rows()`, and the number of sub-annotations is
0 or `Rows()`), the invariant still holds after any sequence of successful calls
of `AppendColumns`, `AppendEach`, the alignment-wide `Reverse` and `RevComp`, and
`Set`, `Reverse` and `RevComp` on a row view. -/
theorem shape_invariant_preserved (e : Option Nat) (MinInt : Int) :
    (∀ (ops : List SeqOp) (st st1 : Heap × Seq), Seq.shapeInv e st.2 →
      Seq.calls e MinInt ops st = some st1 → Seq.shapeInv e st1.2) ∧
    (∀ (ops : List QSeqOp) (st st1 : Heap × QSeq), QSeq.shapeInv e st.2 →
      QSeq.calls e MinInt ops st = some st1 → QSeq.shapeInv e st1.2) :=
  ⟨fun ops => Seq_calls_shape e MinInt ops, fun ops => QSeq_calls_shape e MinInt ops⟩

theorem squareSeq_shape : Seq.shapeInv none squareSeq := by
  unfold Seq.shapeInv shapeInv
  simp [squareSeq, squareBlock, Columns.Rows, subLen]

theorem squareQSeq_shape : QSeq.shapeInv none squareQSeq := by
  unfold QSeq.shapeInv shapeInv
  simp [squareQSeq, squareBlock, Columns.Rows, subLen]

theorem exists_of_isSome {α : Type} {o : Option α} {P : α → Prop} (hs : o.isSome = true)
    (hp : ∀ x, o = some x → P x) : ∃ x, o = some x ∧ P x := by
  obtain ⟨x, hx⟩ := Option.isSome_iff_exists.1 hs
  exact ⟨x, hx, hp x hx⟩

/-- C4, at a concrete input: the seven operations are called in turn on the
alignment of three columns and two rows, plain and quality. -/
theorem shape_invariant_preserved_witness :
    (Seq.shapeInv none squareSeq ∧
      ∃ st1, Seq.calls none (-1)
        [.AppendColumns [[{ L := 84, Q := 9 }, { L := 84, Q := 9 }]],
         .AppendEach [[{ L := 67, Q := 9 }, { L := 71, Q := 9 }], [{ L := 65, Q := 9 }]],
         .Reverse, .RevComp, .RowSet 1 3 { L := 116, Q := 0 }, .RowReverse 0, .RowRevComp 1]
        (squareState, squareSeq) = some st1 ∧ Seq.shapeInv none st1.2) ∧
    (QSeq.shapeInv none squareQSeq ∧
      ∃ st1, QSeq.calls none (-1)
        [.AppendColumns [{ addr := 1, len := 2 }],
         .AppendEach [[{ L := 67, Q := 9 }, { L := 71, Q := 9 }], [{ L := 65, Q := 9 }]],
         .Reverse, .RevComp, .RowSet 1 3 { L := 116, Q := 0 }, .RowReverse 0, .RowRevComp 1]
        (squareState, squareQSeq) = some st1 ∧ QSeq.shapeInv none st1.2) :=
  ⟨⟨squareSeq_shape, exists_of_isSome (by decide!)
      (fun _ h1 => (shape_invariant_preserved none (-1)).1 _ _ _ squareSeq_shape h1)⟩,
   ⟨squareQSeq_shape, exists_of_isSome (by decide!)
      (fun _ h1 => (shape_invariant_preserved none (-1)).2 _ _ _ squareQSeq_shape h1)⟩⟩

/-! ## Row copies -/

theorem cell_eq_contents {α : Type} (m : Mem α) (c : Slice) (r : Nat) :
    m.cell c r = (m.contents c)[r]? := by
  unfold Mem.cell Mem.contents
  by_cases hr : r < c.len
  · simp [hr, List.getElem?_take]
  · simp [hr, List.getElem?_take]

theorem cell_isSome {α : Type} (m : Mem α) (c : Slice) (r : Nat) (hr : r < c.len)
    (hv : m.valid c) : ∃ x, m.cell c r = some x := by
  unfold Mem.valid at hv
  unfold Mem.cell
  have hlt : r < (m.buf c.addr).length := by omega
  exact ⟨(m.buf c.addr)[r], by simp [hr, hlt]⟩

theorem rowCells_spec {α : Type} (m : Mem α) (row : Nat) (cols : List Slice)
    (hcols : ∀ c ∈ cols, row < c.len ∧ m.valid c) :
    ∃ xs, rowCells m row cols = some xs ∧ xs.length = cols.length ∧
      ∀ (k : Nat) (c : Slice), cols[k]? = some c → xs[k]? = (m.contents c)[row]? := by
  induction cols with
  | nil => exact ⟨[], rfl, rfl, by simp⟩
  | cons c rest ih =>
    obtain ⟨xs, hxs, hlen, hget⟩ := ih (fun d hd => hcols d (List.mem_cons_of_mem _ hd))
    obtain ⟨x, hx⟩ := cell_isSome m c row (hcols c (List.mem_cons_self _ _)).1
      (hcols c (List.mem_cons_self _ _)).2
    refine ⟨x :: xs, by simp [rowCells, hx, hxs], by simp [hlen], ?_⟩
    intro k d hk
    cases k with
    | zero =>
      simp at hk
      subst hk
      simp [← cell_eq_contents, hx]
    | succ k =>
      simp at hk
      simpa using hget k d hk

/-- C5 (as amended): for every alignment with C columns, plain or quality, in
which row `r` has a sub-annotation and every column has more than `r` rows (as
in a rectangular alignment with `r < Rows()` and a sub-annotation for each row),
`Row(r).Copy()` yields a sequence of exactly C letters whose `k`-th letter is the
`r`-th symbol of the `k`-th column, for every `k < C`. -/
theorem row_copy_is_row (h : Heap) (r : Nat) (sl : Slice) (hr : r < sl.len)
    (hsv : h.annots.valid sl) :
    (∀ s : Seq, s.SubAnnotations = some sl →
      (∀ c ∈ s.Seq, r < c.len ∧ h.letters.valid c) →
      ∃ ls, Row.Copy h (Seq.Row s r) = some ls ∧ ls.Seq.length = s.Len ∧
        ∀ (k : Nat) (c : Slice), s.Seq[k]? = some c →
          ls.Seq[k]? = (h.letters.contents c)[r]? ∧ (ls.Seq[k]?).isSome = true) ∧
    (∀ q : QSeq, q.SubAnnotations = some sl →
      (∀ c ∈ q.Seq, r < c.len ∧ h.qletters.valid c) →
      ∃ ls, QRow.Copy h (QSeq.Row q r) = some ls ∧ ls.Seq.length = q.Len ∧
        ∀ (k : Nat) (c : Slice), q.Seq[k]? = some c →
          ls.Seq[k]? = (h.qletters.contents c)[r]? ∧ (ls.Seq[k]?).isSome = true) := by
  obtain ⟨an, han⟩ := cell_isSome h.annots sl r hr hsv
  constructor
  · intro s hsub hcols
    obtain ⟨xs, hxs, hlen, hget⟩ := rowCells_spec h.letters r s.Seq hcols
    refine ⟨linear.NewSeq an.ID xs s.Alpha, ?_, hlen, ?_⟩
    · simp [Row.Copy, Seq.Row, hxs, Row.Name, subAnn, hsub, han, Row.Alphabet]
    · intro k c hk
      refine ⟨hget k c hk, ?_⟩
      have hk1 : k < s.Seq.length := (List.getElem?_eq_some_iff.1 hk).1
      simp [linear.NewSeq, hlen, hk1]
  · intro q hsub hcols
    obtain ⟨xs, hxs, hlen, hget⟩ := rowCells_spec h.qletters r q.Seq hcols
    refine ⟨linear.NewQSeq an.ID xs q.Alpha q.Encode, ?_, hlen, ?_⟩
    · simp [QRow.Copy, QSeq.Row, hxs, QRow.Name, subAnn, hsub, han, QRow.Alphabet]
    · intro k c hk
      refine ⟨hget k c hk, ?_⟩
      have hk1 : k < q.Seq.length := (List.getElem?_eq_some_iff.1 hk).1
      simp [linear.NewQSeq, hlen, hk1]

/-- C5, the claim as stated fails: in the alignment that `NewSeq` (or `NewQSeq`)
returns for the ragged block of a two-row column followed by a one-row column,
`Rows()` is 2 and `Row(1).Copy()` fails on the second column; and in an alignment
of two rows that holds no sub-annotations, `Row(0).Copy()` fails when it asks for
the name of the row. -/
theorem row_copy_fails :
    (∃ h s, NewSeq raggedHeap "x" ["a", "b"] raggedBlock (some dna) 0 = .ok (h, s) ∧
      s.Rows none = some 2 ∧ Row.Copy h (Seq.Row s 1) = none) ∧
    (∃ h q, NewQSeq (fun _ _ _ => 110) raggedHeap "x" ["a", "b"] raggedBlock (some dna) 0 0 =
        .ok (h, q) ∧ q.Rows none = some 2 ∧ QRow.Copy h (QSeq.Row q 1) = none) ∧
    (Seq.Rows none { squareSeq with SubAnnotations := none } = some 2 ∧
      Seq.shapeInv none { squareSeq with SubAnnotations := none } ∧
      Row.Copy squareHeap (Seq.Row { squareSeq with SubAnnotations := none } 0) = none) :=
  ⟨⟨_, _, rfl, rfl, rfl⟩, ⟨_, _, rfl, rfl, rfl⟩, rfl,
    by simp [Seq.shapeInv, shapeInv, squareSeq, squareBlock, Columns.Rows, subLen], rfl⟩

theorem squareSeq_cols : ∀ c ∈ squareSeq.Seq, 1 < c.len ∧ squareState.letters.valid c := by
  intro c hc
  simp [squareSeq, squareBlock] at hc
  rcases hc with rfl | rfl | rfl <;> simp [Mem.valid, Mem.buf, squareState, squareHeap]

theorem squareQSeq_cols : ∀ c ∈ squareQSeq.Seq, 1 < c.len ∧ squareState.qletters.valid c := by
  intro c hc
  simp [squareQSeq, squareBlock] at hc
  rcases hc with rfl | rfl | rfl <;> simp [Mem.valid, Mem.buf, squareState, squareHeap]

/-- C5 (as amended), at a concrete input: row 1 of the alignment of three columns
and two rows, plain and quality. -/
theorem row_copy_is_row_witness :
    (∃ ls, Row.Copy squareState (Seq.Row squareSeq 1) = some ls ∧ ls.Seq.length = squareSeq.Len ∧
      ∀ (k : Nat) (c : Slice), squareSeq.Seq[k]? = some c →
        ls.Seq[k]? = (squareState.letters.contents c)[1]? ∧ (ls.Seq[k]?).isSome = true) ∧
    (∃ ls, QRow.Copy squareState (QSeq.Row squareQSeq 1) = some ls ∧
      ls.Seq.length = squareQSeq.Len ∧
      ∀ (k : Nat) (c : Slice), squareQSeq.Seq[k]? = some c →
        ls.Seq[k]? = (squareState.qletters.contents c)[1]? ∧ (ls.Seq[k]?).isSome = true) :=
  ⟨(row_copy_is_row squareState 1 { addr := 0, len := 2 } (by decide)
      (by simp [Mem.valid, Mem.buf, squareState])).1 squareSeq rfl squareSeq_cols,
   (row_copy_is_row squareState 1 { addr := 0, len := 2 } (by decide)
      (by simp [Mem.valid, Mem.buf, squareState])).2 squareQSeq rfl squareQSeq_cols⟩

/-! ## Copies -/

theorem buf_append_lt {α : Type} (m extra : Mem α) (a : Nat) (ha : a < m.length) :
    Mem.buf (m ++ extra) a = m.buf a := by
  unfold Mem.buf
  rw [List.getElem?_append_left ha]

theorem buf_of_le {α : Type} (m : Mem α) (a : Nat) (ha : m.length ≤ a) : m.buf a = [] := by
  unfold Mem.buf
  rw [List.getElem?_eq_none ha]
  rfl

theorem contents_of_len_zero {α : Type} (m : Mem α) (c : Slice) (hc : c.len = 0) :
    m.contents c = [] := by
  simp [Mem.contents, hc]

theorem valid_addr_or_empty {α : Type} (m : Mem α) (c : Slice) (hv : m.valid c) :
    c.addr < m.length ∨ c.len = 0 := by
  by_cases ha : c.addr < m.length
  · exact Or.inl ha
  · right
    unfold Mem.valid at hv
    rw [buf_of_le m c.addr (by omega)] at hv
    simpa using hv

theorem contents_append {α : Type} (m extra : Mem α) (c : Slice) (hv : m.valid c) :
    Mem.contents (m ++ extra) c = m.contents c := by
  rcases valid_addr_or_empty m c hv with ha | h0
  · unfold Mem.contents
    rw [buf_append_lt m extra c.addr ha]
  · rw [contents_of_len_zero _ c h0, contents_of_len_zero _ c h0]

theorem valid_append {α : Type} (m extra : Mem α) (c : Slice) (hv : m.valid c) :
    Mem.valid (m ++ extra) c := by
  rcases valid_addr_or_empty m c hv with ha | h0
  · unfold Mem.valid
    rw [buf_append_lt m extra c.addr ha]
    exact hv
  · unfold Mem.valid
    omega

theorem copyColumns_eq {α : Type} (cols : List Slice) :
    ∀ m : Mem α, (∀ c ∈ cols, m.valid c) →
      copyColumns m cols =
        (m ++ m.matrix cols, freshCols m.length (m.matrix cols)) := by
  induction cols with
  | nil =>
    intro m _
    simp [copyColumns, Mem.matrix, freshCols]
  | cons cs rest ih =>
    intro m hv
    have hrest : ∀ c ∈ rest, Mem.valid (m ++ [m.contents cs]) c :=
      fun c hc => valid_append m _ c (hv c (List.mem_cons_of_mem _ hc))
    have hmap : Mem.matrix (m ++ [m.contents cs]) rest = m.matrix rest := by
      unfold Mem.matrix
      apply List.map_congr_left
      intro c hc
      exact contents_append m _ c (hv c (List.mem_cons_of_mem _ hc))
    simp only [copyColumns, Mem.alloc]
    rw [ih _ hrest, hmap]
    simp [Mem.matrix, freshCols, List.append_assoc]

theorem freshCols_addr {α : Type} (l : List (List α)) :
    ∀ (base : Nat) (c : Slice), c ∈ freshCols base l → base ≤ c.addr := by
  induction l with
  | nil => simp [freshCols]
  | cons x rest ih =>
    intro base c hc
    simp only [freshCols, List.mem_cons] at hc
    rcases hc with rfl | hc
    · exact Nat.le_refl _
    · have := ih (base + 1) c hc
      omega

theorem freshCols_matrix {α : Type} (l : List (List α)) :
    ∀ (m : Mem α), Mem.matrix (m ++ l) (freshCols m.length l) = l := by
  induction l with
  | nil => simp [freshCols, Mem.matrix]
  | cons x rest ih =>
    intro m
    have h1 := ih (m ++ [x])
    simp only [List.length_append, List.length_singleton, List.append_assoc,
      List.singleton_append] at h1
    simp only [freshCols, Mem.matrix, List.map_cons]
    unfold Mem.matrix at h1
    rw [h1]
    have hx : Mem.buf (m ++ x :: rest) m.length = x := by
      unfold Mem.buf
      rw [List.getElem?_append_right (Nat.le_refl _)]
      simp
    simp [Mem.contents, hx]

theorem buf_setCell_ne {α : Type} (m m2 : Mem α) (c : Slice) (r : Nat) (v : α) (a : Nat)
    (hset : m.setCell c r v = some m2) (ha : a ≠ c.addr) : m2.buf a = m.buf a := by
  unfold Mem.setCell at hset
  split at hset
  · simp at hset
    subst hset
    unfold Mem.buf
    rw [List.getElem?_set_ne (Ne.symm ha)]
  · simp at hset

theorem setCell_pos {α : Type} (m m2 : Mem α) (c : Slice) (r : Nat) (v : α)
    (hset : m.setCell c r v = some m2) : 0 < c.len ∧ c.addr < m.length := by
  unfold Mem.setCell at hset
  split at hset
  · rename_i hlt
    refine ⟨by omega, ?_⟩
    by_contra hge
    rw [buf_of_le m c.addr (by omega)] at hlt
    simp at hlt
  · simp at hset

theorem contents_setCell_ne {α : Type} (m m2 : Mem α) (c d : Slice) (r : Nat) (v : α)
    (hset : m.setCell c r v = some m2) (hd : d.addr ≠ c.addr ∨ d.len = 0) :
    m2.contents d = m.contents d := by
  rcases hd with hd | hd
  · unfold Mem.contents
    rw [buf_setCell_ne m m2 c r v d.addr hset hd]
  · rw [contents_of_len_zero _ d hd, contents_of_len_zero _ d hd]

theorem copy_independent {α : Type} (m : Mem α) (cols : List Slice)
    (hv : ∀ c ∈ cols, m.valid c) :
    Mem.matrix (copyColumns m cols).1 (copyColumns m cols).2 = m.matrix cols ∧
    Mem.matrix (copyColumns m cols).1 cols = m.matrix cols ∧
    (∀ c ∈ (copyColumns m cols).2, ∀ r v m2, Mem.setCell (copyColumns m cols).1 c r v = some m2 →
      m2.matrix cols = m.matrix cols) ∧
    (∀ c ∈ cols, ∀ r v m2, Mem.setCell (copyColumns m cols).1 c r v = some m2 →
      m2.matrix (copyColumns m cols).2 = m.matrix cols) := by
  rw [copyColumns_eq cols m hv]
  have hA : Mem.matrix (m ++ m.matrix cols) cols = m.matrix cols := by
    unfold Mem.matrix
    apply List.map_congr_left
    intro c hc
    exact contents_append m _ c (hv c hc)
  have hB : Mem.matrix (m ++ m.matrix cols) (freshCols m.length (m.matrix cols)) = m.matrix cols :=
    freshCols_matrix _ m
  refine ⟨hB, hA, ?_, ?_⟩
  · intro c hc r v m2 hset
    refine Eq.trans ?_ hA
    unfold Mem.matrix
    apply List.map_congr_left
    intro d hd
    apply contents_setCell_ne _ m2 c d r v hset
    have hca := freshCols_addr _ _ c hc
    rcases valid_addr_or_empty m d (hv d hd) with h1 | h1
    · left
      omega
    · exact Or.inr h1
  · intro c hc r v m2 hset
    refine Eq.trans ?_ hB
    unfold Mem.matrix
    apply List.map_congr_left
    intro d hd
    apply contents_setCell_ne _ m2 c d r v hset
    left
    have hda := freshCols_addr _ _ d hd
    have hpos := (setCell_pos _ m2 c r v hset).1
    rcases valid_addr_or_empty m c (hv c hc) with h1 | h1
    · omega
    · omega

theorem Seq_Copy_eq (h : Heap) (A : Seq) :
    Seq.Copy h A = ({ h with letters := (copyColumns h.letters A.Seq).1 },
                    { A with Seq := (copyColumns h.letters A.Seq).2 }) := by
  unfold Seq.Copy
  cases copyColumns h.letters A.Seq
  rfl

theorem QSeq_Copy_eq (h : Heap) (A : QSeq) :
    QSeq.Copy h A = ({ h with qletters := (copyColumns h.qletters A.Seq).1 },
                     { A with Seq := (copyColumns h.qletters A.Seq).2 }) := by
  unfold QSeq.Copy
  cases copyColumns h.qletters A.Seq
  rfl

theorem colAt_mem (cols : List Slice) (idx : Int) (c : Slice) (h : colAt cols idx = some c) :
    c ∈ cols := by
  unfold colAt at h
  split at h
  · simp at h
  · exact List.getElem?_mem h

theorem Row_Set_cell (h : Heap) (r : Row) (pos : Int) (l : QLetter) (st : Heap × Seq)
    (hok : Row.Set h r pos l = some st) :
    ∃ c ∈ r.Align.Seq, h.letters.setCell c r.Row l.L = some st.1.letters := by
  unfold Row.Set at hok
  split at hok
  · rename_i c hc
    split at hok
    · rename_i m hm
      simp at hok
      subst hok
      exact ⟨c, colAt_mem _ _ c hc, hm⟩
    · simp at hok
  · simp at hok

theorem QRow_Set_cell (h : Heap) (r : QRow) (pos : Int) (l : QLetter) (st : Heap × QSeq)
    (hok : QRow.Set h r pos l = some st) :
    ∃ c ∈ r.Align.Seq, h.qletters.setCell c r.Row l = some st.1.qletters := by
  unfold QRow.Set at hok
  split at hok
  · rename_i c hc
    split at hok
    · rename_i m hm
      simp at hok
      subst hok
      exact ⟨c, colAt_mem _ _ c hc, hm⟩
    · simp at hok
  · simp at hok

/-- C6: for every alignment A, plain or quality, `B = A.Copy()` has the same
symbol matrix as A and leaves that of A as it was; writing any cell of B, in
particular through `B.Row(r).Set(pos, l)`, leaves every cell of A unchanged, and
writing any cell of A leaves every cell of B unchanged. -/
theorem copy_cells_independent (h : Heap) (A : Seq) (Q : QSeq)
    (hA : ∀ c ∈ A.Seq, h.letters.valid c) (hQ : ∀ c ∈ Q.Seq, h.qletters.valid c) :
    ((Seq.Copy h A).1.letters.matrix (Seq.Copy h A).2.Seq = h.letters.matrix A.Seq ∧
     (Seq.Copy h A).1.letters.matrix A.Seq = h.letters.matrix A.Seq ∧
     (∀ c ∈ (Seq.Copy h A).2.Seq, ∀ r v m2, (Seq.Copy h A).1.letters.setCell c r v = some m2 →
        m2.matrix A.Seq = h.letters.matrix A.Seq) ∧
     (∀ c ∈ A.Seq, ∀ r v m2, (Seq.Copy h A).1.letters.setCell c r v = some m2 →
        m2.matrix (Seq.Copy h A).2.Seq = h.letters.matrix A.Seq) ∧
     (∀ row pos l st2, Row.Set (Seq.Copy h A).1 (Seq.Row (Seq.Copy h A).2 row) pos l = some st2 →
        st2.1.letters.matrix A.Seq = h.letters.matrix A.Seq) ∧
     (∀ row pos l st2, Row.Set (Seq.Copy h A).1 (Seq.Row A row) pos l = some st2 →
        st2.1.letters.matrix (Seq.Copy h A).2.Seq = h.letters.matrix A.Seq)) ∧
    ((QSeq.Copy h Q).1.qletters.matrix (QSeq.Copy h Q).2.Seq = h.qletters.matrix Q.Seq ∧
     (QSeq.Copy h Q).1.qletters.matrix Q.Seq = h.qletters.matrix Q.Seq ∧
     (∀ c ∈ (QSeq.Copy h Q).2.Seq, ∀ r v m2,
        (QSeq.Copy h Q).1.qletters.setCell c r v = some m2 →
        m2.matrix Q.Seq = h.qletters.matrix Q.Seq) ∧
     (∀ c ∈ Q.Seq, ∀ r v m2, (QSeq.Copy h Q).1.qletters.setCell c r v = some m2 →
        m2.matrix (QSeq.Copy h Q).2.Seq = h.qletters.matrix Q.Seq) ∧
     (∀ row pos l st2,
        QRow.Set (QSeq.Copy h Q).1 (QSeq.Row (QSeq.Copy h Q).2 row) pos l = some st2 →
        st2.1.qletters.matrix Q.Seq = h.qletters.matrix Q.Seq) ∧
     (∀ row pos l st2, QRow.Set (QSeq.Copy h Q).1 (QSeq.Row Q row) pos l = some st2 →
        st2.1.qletters.matrix (QSeq.Copy h Q).2.Seq = h.qletters.matrix Q.Seq)) := by
  obtain ⟨a1, a2, a3, a4⟩ := copy_independent h.letters A.Seq hA
  obtain ⟨q1, q2, q3, q4⟩ := copy_independent h.qletters Q.Seq hQ
  rw [Seq_Copy_eq, QSeq_Copy_eq]
  refine ⟨⟨a1, a2, a3, a4, ?_, ?_⟩, ⟨q1, q2, q3, q4, ?_, ?_⟩⟩
  · intro row pos l st2 hset
    obtain ⟨c, hc, hcell⟩ := Row_Set_cell _ _ pos l st2 hset
    exact a3 c hc _ _ _ hcell
  · intro row pos l st2 hset
    obtain ⟨c, hc, hcell⟩ := Row_Set_cell _ _ pos l st2 hset
    exact a4 c hc _ _ _ hcell
  · intro row pos l st2 hset
    obtain ⟨c, hc, hcell⟩ := QRow_Set_cell _ _ pos l st2 hset
    exact q3 c hc _ _ _ hcell
  · intro row pos l st2 hset
    obtain ⟨c, hc, hcell⟩ := QRow_Set_cell _ _ pos l st2 hset
    exact q4 c hc _ _ _ hcell

/-- C6, at a concrete input: the copy of the alignment of three columns and two
rows, plain and quality, is written through `Row(1).Set(1, t)`; the original
still holds `AC`, `GT`, `AA`. -/
theorem copy_cells_independent_witness :
    (∃ st2, Row.Set (Seq.Copy squareState squareSeq).1
        (Seq.Row (Seq.Copy squareState squareSeq).2 1) 1 { L := 116, Q := 0 } = some st2 ∧
      st2.1.letters.matrix squareSeq.Seq = squareState.letters.matrix squareSeq.Seq) ∧
    squareState.letters.matrix squareSeq.Seq = [[65, 67], [71, 84], [65, 65]] ∧
    (∃ st2, QRow.Set (QSeq.Copy squareState squareQSeq).1
        (QSeq.Row (QSeq.Copy squareState squareQSeq).2 1) 1 { L := 116, Q := 0 } = some st2 ∧
      st2.1.qletters.matrix squareQSeq.Seq = squareState.qletters.matrix squareQSeq.Seq) :=
  ⟨exists_of_isSome (by decide!)
      (fun st2 h2 => (copy_cells_independent squareState squareSeq squareQSeq
        (fun c hc => (squareSeq_cols c hc).2) (fun c hc => (squareQSeq_cols c hc).2)).1.2.2.2.2.1
        1 1 _ st2 h2),
   by decide,
   exists_of_isSome (by decide!)
      (fun st2 h2 => (copy_cells_independent squareState squareSeq squareQSeq
        (fun c hc => (squareSeq_cols c hc).2) (fun c hc => (squareQSeq_cols c hc).2)).2.2.2.2.2.1
        1 1 _ st2 h2)⟩

theorem cell_setCell_same {α : Type} (m m2 : Mem α) (c : Slice) (r : Nat) (v : α)
    (hset : m.setCell c r v = some m2) : m2.cell c r = some v := by
  obtain ⟨_, hp2⟩ := setCell_pos m m2 c r v hset
  have hb : m.buf c.addr = m[c.addr] := by
    unfold Mem.buf
    simp [hp2]
  unfold Mem.setCell at hset
  split at hset
  · rename_i hlt
    simp at hset
    subst hset
    rw [hb] at hlt
    unfold Mem.cell Mem.buf
    simp [hlt.1, hp2, hlt.2, hb]
  · simp at hset

theorem mapCell_isSome {α : Type} (f : α → α) (m : Mem α) (c : Slice) (r : Nat) (hr : r < c.len)
    (hv : m.valid c) :
    ∃ x m2, m.cell c r = some x ∧ mapCell f c r m = some m2 ∧ m2.cell c r = some (f x) := by
  obtain ⟨x, hx⟩ := cell_isSome m c r hr hv
  have hlt : r < (m.buf c.addr).length := by
    unfold Mem.valid at hv
    omega
  have hset : m.setCell c r (f x) = some (m.set c.addr ((m.buf c.addr).set r (f x))) := by
    simp [Mem.setCell, hr, hlt]
  exact ⟨x, _, hx, by simp [mapCell, hx, hset], cell_setCell_same m _ c r (f x) hset⟩

/-- C7: `Copy` does not give the copy its own sub-annotations.  For every
alignment A, plain or quality, and every row `r` that has a sub-annotation,
after `B = A.Copy()` the call `B.Row(r).SetOffset(o)` succeeds and `A.Row(r).Start()`
then returns `o`: the write through B has changed the annotation of A. -/
theorem copy_shares_subannotations (h : Heap) (sl : Slice) (r : Nat) (o : Int)
    (hr : r < sl.len) (hv : h.annots.valid sl) :
    (∀ A : Seq, A.SubAnnotations = some sl →
      ∃ st2, Row.SetOffset (Seq.Copy h A).1 (Seq.Row (Seq.Copy h A).2 r) o = some st2 ∧
        Row.Start st2.1 (Seq.Row A r) = some o) ∧
    (∀ Q : QSeq, Q.SubAnnotations = some sl →
      ∃ st2, QRow.SetOffset (QSeq.Copy h Q).1 (QSeq.Row (QSeq.Copy h Q).2 r) o = some st2 ∧
        QRow.Start st2.1 (QSeq.Row Q r) = some o) := by
  obtain ⟨x, m2, _, hm, hc⟩ := mapCell_isSome (fun x => { x with Offset := o }) h.annots sl r hr hv
  constructor
  · intro A hsub
    rw [Seq_Copy_eq]
    refine ⟨({ h with letters := (copyColumns h.letters A.Seq).1, annots := m2 },
      { A with Seq := (copyColumns h.letters A.Seq).2 }), ?_, ?_⟩
    · simp [Row.SetOffset, Seq.Row, setSubAnn, hsub, hm]
    · simp [Row.Start, Seq.Row, subAnn, hsub, hc]
  · intro Q hsub
    rw [QSeq_Copy_eq]
    refine ⟨({ h with qletters := (copyColumns h.qletters Q.Seq).1, annots := m2 },
      { Q with Seq := (copyColumns h.qletters Q.Seq).2 }), ?_, ?_⟩
    · simp [QRow.SetOffset, QSeq.Row, setSubAnn, hsub, hm]
    · simp [QRow.Start, QSeq.Row, subAnn, hsub, hc]

/-- C7, at a concrete input: in the alignment of three columns and two rows,
plain and quality, row 0 starts at 0; after `B = A.Copy()` and
`B.Row(0).SetOffset(7)`, row 0 of A starts at 7. -/
theorem copy_shares_subannotations_witness :
    Row.Start squareState (Seq.Row squareSeq 0) = some 0 ∧
    (∃ st2, Row.SetOffset (Seq.Copy squareState squareSeq).1
        (Seq.Row (Seq.Copy squareState squareSeq).2 0) 7 = some st2 ∧
      Row.Start st2.1 (Seq.Row squareSeq 0) = some 7) ∧
    QRow.Start squareState (QSeq.Row squareQSeq 0) = some 0 ∧
    (∃ st2, QRow.SetOffset (QSeq.Copy squareState squareQSeq).1
        (QSeq.Row (QSeq.Copy squareState squareQSeq).2 0) 7 = some st2 ∧
      QRow.Start st2.1 (QSeq.Row squareQSeq 0) = some 7) :=
  ⟨by decide,
   (copy_shares_subannotations squareState { addr := 0, len := 2 } 0 7 (by decide)
      (by simp [Mem.valid, Mem.buf, squareState])).1 squareSeq rfl,
   by decide,
   (copy_shares_subannotations squareState { addr := 0, len := 2 } 0 7 (by decide)
      (by simp [Mem.valid, Mem.buf, squareState])).2 squareQSeq rfl⟩

/-! ## Growth -/

theorem checkColumns_of_widths (rows : Option Nat) (ws : List Nat) (i : Nat)
    (hw : ∀ w ∈ ws, some w = rows) : checkColumns rows ws i = .ok () := by
  induction ws generalizing i with
  | nil => rfl
  | cons w rest ih =>
    have h1 := hw w (List.mem_cons_self _ _)
    subst h1
    simp only [checkColumns]
    simp
    exact ih (i + 1) (fun x hx => hw x (List.mem_cons_of_mem _ hx))

theorem matrix_append {α : Type} (m extra : Mem α) (cols : List Slice)
    (hv : ∀ c ∈ cols, m.valid c) : Mem.matrix (m ++ extra) cols = m.matrix cols := by
  unfold Mem.matrix
  apply List.map_congr_left
  intro c hc
  exact contents_append m _ c (hv c hc)

/-- C8: for every plain alignment and every list `a` of columns each of width
`Rows()`, `AppendColumns(a...)` returns no error, leaves the existing columns
unchanged, and makes `Len()` grow by exactly `len(a)`; the new columns hold, in
the given order and row by row, the letter components of the columns of `a`. -/
theorem appendColumns_appends (e : Option Nat) (h : Heap) (s : Seq) (a : List (List QLetter))
    (hw : ∀ c ∈ a, some c.length = s.Rows e) (hv : ∀ c ∈ s.Seq, h.letters.valid c) :
    ∃ st, Seq.AppendColumns e h s a = .ok st ∧
      st.2.Len = s.Len + a.length ∧
      st.2.Seq.take s.Len = s.Seq ∧
      st.1.letters.matrix s.Seq = h.letters.matrix s.Seq ∧
      st.1.letters.matrix (st.2.Seq.drop s.Len) = a.map (fun r => r.map (fun ql => ql.L)) := by
  have hc : checkColumns (s.Rows e) (a.map List.length) 0 = .ok () := by
    apply checkColumns_of_widths
    intro w hw1
    obtain ⟨c, hc, rfl⟩ := List.mem_map.1 hw1
    exact hw c hc
  refine ⟨Seq.appendLetters a (h, s), ?_, ?_, ?_, ?_, ?_⟩
  · simp [Seq.AppendColumns, hc]
  · rw [appendLetters_eq]
    simp [Seq.Len, freshCols_length]
  · rw [appendLetters_eq]
    simp [Seq.Len]
  · rw [appendLetters_eq]
    exact matrix_append _ _ _ hv
  · rw [appendLetters_eq]
    simp only [Seq.Len, List.drop_left']
    exact freshCols_matrix _ _

/-- C8, at a concrete input: the columns `TT` and `CG` appended to the alignment
of three columns and two rows. -/
theorem appendColumns_appends_witness :
    ∃ st, Seq.AppendColumns none squareState squareSeq
        [[{ L := 84, Q := 9 }, { L := 84, Q := 9 }], [{ L := 67, Q := 9 }, { L := 71, Q := 9 }]] =
          .ok st ∧
      st.2.Len = squareSeq.Len + 2 ∧
      st.2.Seq.take squareSeq.Len = squareSeq.Seq ∧
      st.1.letters.matrix squareSeq.Seq = squareState.letters.matrix squareSeq.Seq ∧
      st.1.letters.matrix (st.2.Seq.drop squareSeq.Len) = [[84, 84], [67, 71]] :=
  appendColumns_appends none squareState squareSeq
    [[{ L := 84, Q := 9 }, { L := 84, Q := 9 }], [{ L := 67, Q := 9 }, { L := 71, Q := 9 }]]
    (by decide) (fun c hc => (squareSeq_cols c hc).2)

theorem checkColumns_error_iff (n : Nat) (ws : List Nat) (i : Nat) :
    (∃ u msg, checkColumns (some n) ws i = .error u msg) ↔ ∃ w ∈ ws, w ≠ n := by
  induction ws generalizing i with
  | nil => simp [checkColumns]
  | cons w rest ih =>
    simp only [checkColumns]
    by_cases hw : w = n
    · simp [hw, ih (i + 1)]
    · simp [hw]

theorem checkColumns_none_not_error (ws : List Nat) (i : Nat) (u : Unit) (msg : String) :
    checkColumns none ws i ≠ .error u msg := by
  cases ws <;> simp [checkColumns]

theorem Seq_AppendColumns_error_iff (e : Option Nat) (h : Heap) (s : Seq)
    (a : List (List QLetter)) :
    (∃ st msg, Seq.AppendColumns e h s a = .error st msg) ↔
      ∃ n, s.Rows e = some n ∧ ∃ c ∈ a, c.length ≠ n := by
  unfold Seq.AppendColumns
  cases hr : s.Rows e with
  | none =>
    simp only [false_and, exists_false, iff_false, reduceCtorEq]
    rintro ⟨st, msg, hst⟩
    split at hst
    · simp at hst
    · rename_i u m hc
      exact checkColumns_none_not_error _ _ _ _ hc
    · simp at hst
  | some n =>
    have key := checkColumns_error_iff n (a.map List.length) 0
    simp only [List.mem_map, exists_exists_and_eq_and] at key
    simp only [Option.some.injEq, exists_eq_left']
    rw [← key]
    constructor
    · rintro ⟨st, msg, hst⟩
      split at hst
      · simp at hst
      · rename_i u m hc
        exact ⟨u, m, hc⟩
      · simp at hst
    · rintro ⟨u, m, hc⟩
      exact ⟨(h, s), m, by simp [hc]⟩

theorem QSeq_AppendColumns_error_iff (e : Option Nat) (h : Heap) (s : QSeq) (a : List Slice) :
    (∃ st msg, QSeq.AppendColumns e h s a = .error st msg) ↔
      ∃ n, s.Rows e = some n ∧ ∃ c ∈ a, c.len ≠ n := by
  unfold QSeq.AppendColumns
  cases hr : s.Rows e with
  | none =>
    simp only [false_and, exists_false, iff_false, reduceCtorEq]
    rintro ⟨st, msg, hst⟩
    split at hst
    · simp at hst
    · rename_i u m hc
      exact checkColumns_none_not_error _ _ _ _ hc
    · simp at hst
  | some n =>
    have key := checkColumns_error_iff n (a.map (fun c => c.len)) 0
    simp only [List.mem_map, exists_exists_and_eq_and] at key
    simp only [Option.some.injEq, exists_eq_left']
    rw [← key]
    constructor
    · rintro ⟨st, msg, hst⟩
      split at hst
      · simp at hst
      · rename_i u m hc
        exact ⟨u, m, hc⟩
      · simp at hst
    · rintro ⟨u, m, hc⟩
      exact ⟨(h, s), m, by simp [hc]⟩

theorem Seq_AppendEach_error (e : Option Nat) (MinInt : Int) (h : Heap) (s : Seq)
    (a : List (List QLetter)) (st : Heap × Seq) (msg : String) :
    Seq.AppendEach e MinInt h s a = .error st msg ↔
      ∃ n, s.Rows e = some n ∧ a.length ≠ n ∧ st = (h, s) ∧ msg = eachError a.length n := by
  unfold Seq.AppendEach
  cases hr : s.Rows e with
  | none => simp
  | some n =>
    simp only [Option.some.injEq, exists_eq_left']
    by_cases hn : a.length = n
    · simp only [hn, ne_eq, not_true_eq_false, ite_false, false_and, iff_false]
      split
      · simp
      · split <;> simp
    · simp [hn, eq_comm]

theorem QSeq_AppendEach_error (e : Option Nat) (MinInt : Int) (h : Heap) (s : QSeq)
    (a : List (List QLetter)) (st : Heap × QSeq) (msg : String) :
    QSeq.AppendEach e MinInt h s a = .error st msg ↔
      ∃ n, s.Rows e = some n ∧ a.length ≠ n ∧ st = (h, s) ∧ msg = eachError a.length n := by
  unfold QSeq.AppendEach
  cases hr : s.Rows e with
  | none => simp
  | some n =>
    simp only [Option.some.injEq, exists_eq_left']
    by_cases hn : a.length = n
    · simp only [hn, ne_eq, not_true_eq_false, ite_false, false_and, iff_false]
      split
      · simp
      · simp only [Mem.alloc]
        split <;> simp
    · simp [hn, eq_comm]

/-- C9: `AppendColumns` returns an error exactly when some supplied column has a
width different from `Rows()`, and `AppendEach` returns an error exactly when the
number of supplied row sequences differs from `Rows()`, for the plain and for
the quality alignment; whenever one of them returns an error, the heap and the
alignment (columns, `Len()`, `Rows()`, sub-annotations) are the same after the
call as before. -/
theorem growth_errors (e : Option Nat) (MinInt : Int) (h : Heap) (s : Seq) (q : QSeq)
    (a : List (List QLetter)) (cols : List Slice) :
    (((∃ st msg, Seq.AppendColumns e h s a = .error st msg) ↔
        ∃ n, s.Rows e = some n ∧ ∃ c ∈ a, c.length ≠ n) ∧
      (∀ st msg, Seq.AppendColumns e h s a = .error st msg → st = (h, s))) ∧
    (((∃ st msg, Seq.AppendEach e MinInt h s a = .error st msg) ↔
        ∃ n, s.Rows e = some n ∧ a.length ≠ n) ∧
      (∀ st msg, Seq.AppendEach e MinInt h s a = .error st msg → st = (h, s))) ∧
    (((∃ st msg, QSeq.AppendColumns e h q cols = .error st msg) ↔
        ∃ n, q.Rows e = some n ∧ ∃ c ∈ cols, c.len ≠ n) ∧
      (∀ st msg, QSeq.AppendColumns e h q cols = .error st msg → st = (h, q))) ∧
    (((∃ st msg, QSeq.AppendEach e MinInt h q a = .error st msg) ↔
        ∃ n, q.Rows e = some n ∧ a.length ≠ n) ∧
      (∀ st msg, QSeq.AppendEach e MinInt h q a = .error st msg → st = (h, q))) := by
  refine ⟨⟨Seq_AppendColumns_error_iff e h s a, Seq_AppendColumns_error e h s a⟩, ⟨?_, ?_⟩,
    ⟨QSeq_AppendColumns_error_iff e h q cols, QSeq_AppendColumns_error e h q cols⟩, ⟨?_, ?_⟩⟩
  · constructor
    · rintro ⟨st, msg, hst⟩
      obtain ⟨n, hn, hne, _⟩ := (Seq_AppendEach_error e MinInt h s a st msg).1 hst
      exact ⟨n, hn, hne⟩
    · rintro ⟨n, hn, hne⟩
      exact ⟨(h, s), eachError a.length n,
        (Seq_AppendEach_error e MinInt h s a _ _).2 ⟨n, hn, hne, rfl, rfl⟩⟩
  · intro st msg hst
    obtain ⟨n, _, _, hs, _⟩ := (Seq_AppendEach_error e MinInt h s a st msg).1 hst
    exact hs
  · constructor
    · rintro ⟨st, msg, hst⟩
      obtain ⟨n, hn, hne, _⟩ := (QSeq_AppendEach_error e MinInt h q a st msg).1 hst
      exact ⟨n, hn, hne⟩
    · rintro ⟨n, hn, hne⟩
      exact ⟨(h, q), eachError a.length n,
        (QSeq_AppendEach_error e MinInt h q a _ _).2 ⟨n, hn, hne, rfl, rfl⟩⟩
  · intro st msg hst
    obtain ⟨n, _, _, hs, _⟩ := (QSeq_AppendEach_error e MinInt h q a st msg).1 hst
    exact hs

/-- C9, at a concrete input: a column of one row, and a single row sequence,
given to the alignment of three columns and two rows, plain and quality: each
call returns an error and leaves the heap and the alignment as they were. -/
theorem growth_errors_witness :
    (∃ st msg, Seq.AppendColumns none squareState squareSeq [[{ L := 84, Q := 9 }]] =
        .error st msg ∧ st = (squareState, squareSeq)) ∧
    (∃ st msg, Seq.AppendEach none (-1) squareState squareSeq [[{ L := 84, Q := 9 }]] =
        .error st msg ∧ st = (squareState, squareSeq)) ∧
    (∃ st msg, QSeq.AppendColumns none squareState squareQSeq [{ addr := 0, len := 1 }] =
        .error st msg ∧ st = (squareState, squareQSeq)) ∧
    (∃ st msg, QSeq.AppendEach none (-1) squareState squareQSeq [[{ L := 84, Q := 9 }]] =
        .error st msg ∧ st = (squareState, squareQSeq)) := by
  have T := growth_errors none (-1) squareState squareSeq squareQSeq [[{ L := 84, Q := 9 }]]
    [{ addr := 0, len := 1 }]
  obtain ⟨⟨t1, t2⟩, ⟨t3, t4⟩, ⟨t5, t6⟩, ⟨t7, t8⟩⟩ := T
  refine ⟨?_, ?_, ?_, ?_⟩
  · obtain ⟨st, msg, hst⟩ := t1.2 ⟨2, rfl, [{ L := 84, Q := 9 }], by simp, by decide⟩
    exact ⟨st, msg, hst, t2 st msg hst⟩
  · obtain ⟨st, msg, hst⟩ := t3.2 ⟨2, rfl, by decide⟩
    exact ⟨st, msg, hst, t4 st msg hst⟩
  · obtain ⟨st, msg, hst⟩ := t5.2 ⟨2, rfl, { addr := 0, len := 1 }, by simp, by decide⟩
    exact ⟨st, msg, hst, t6 st msg hst⟩
  · obtain ⟨st, msg, hst⟩ := t7.2 ⟨2, rfl, by decide⟩
    exact ⟨st, msg, hst, t8 st msg hst⟩

theorem maxLen_cons (M : Int) (x : List QLetter) (rest : List (List QLetter)) :
    maxLen M (x :: rest) = maxLen (max M (x.length : Int)) rest := by
  unfold maxLen
  simp only [List.foldl_cons]
  congr 1
  split
  · rw [max_eq_right (by omega)]
  · rw [max_eq_left (by omega)]

theorem maxLen_eq (a : List (List QLetter)) :
    ∀ M : Int, a ≠ [] → maxLen M a = max M ((longest a : Nat) : Int) := by
  induction a with
  | nil => intro M h; exact absurd rfl h
  | cons x rest ih =>
    intro M _
    rw [maxLen_cons]
    by_cases hr : rest = []
    · subst hr
      simp [maxLen, longest]
    · rw [ih _ hr]
      simp only [longest, List.map_cons, List.foldr_cons, Nat.cast_max]
      rw [max_assoc]

theorem maxLen_longest (M : Int) (a : List (List QLetter)) (hM : M ≤ 0) (ha : a ≠ []) :
    maxLen M a = ((longest a : Nat) : Int) := by
  rw [maxLen_eq a M ha]
  apply max_eq_right
  omega

theorem eachColumn_some (al : Alphabet) (a : List (List QLetter)) (i : Nat) :
    eachColumn (some al) a i =
      some (a.map (fun ss => (ss[i]?).getD { L := al.Gap, Q := 0 })) := by
  induction a with
  | nil => rfl
  | cons ss rest ih =>
    simp only [eachColumn, ih]
    by_cases hi : i < ss.length
    · simp [hi]
    · simp [hi, List.getElem?_eq_none (Nat.le_of_not_lt hi)]

theorem paddedColumn_eq (gap : Letter) (a : List (List QLetter)) (i : Nat) :
    (a.map (fun ss => (ss[i]?).getD { L := gap, Q := 0 })).map (fun ql => ql.L) =
      paddedColumn gap a i := by
  unfold paddedColumn
  rw [List.map_map]
  apply List.map_congr_left
  intro ss _
  by_cases hi : i < ss.length
  · simp [hi]
  · simp [hi, List.getElem?_eq_none (Nat.le_of_not_lt hi)]

theorem paddedColumn_length (gap : Letter) (a : List (List QLetter)) (i : Nat) :
    (paddedColumn gap a i).length = a.length := by
  simp [paddedColumn]

theorem Seq_appendEachLoop_eq (e : Option Nat) (al : Alphabet) (a : List (List QLetter)) :
    ∀ (k i : Nat) (h : Heap) (s : Seq), s.Alpha = some al → s.Rows e = some a.length →
      Seq.appendEachLoop e a k i (h, s) =
        some ({ h with letters := h.letters ++ (List.range' i k).map (paddedColumn al.Gap a) },
              { s with Seq := s.Seq ++
                  freshCols h.letters.length ((List.range' i k).map (paddedColumn al.Gap a)) }) := by
  intro k
  induction k with
  | zero =>
    intro i h s _ _
    simp [Seq.appendEachLoop, freshCols]
  | succ k ih =>
    intro i h s hal hrows
    have hcheck : checkColumns (s.Rows e)
        [(a.map (fun ss => (ss[i]?).getD { L := al.Gap, Q := 0 })).length] 0 = .ok () := by
      apply checkColumns_of_widths
      intro w hw
      simp at hw
      rw [hw, hrows]
    have hrows1 : Seq.Rows e { s with Seq := s.Seq ++
        [{ addr := h.letters.length, len := (paddedColumn al.Gap a i).length }] } =
          some a.length := by
      unfold Seq.Rows at hrows ⊢
      simp only
      rw [rows_append e s.Seq _ (by
        intro c hc
        simp at hc
        rw [hc, hrows]
        simp [paddedColumn_length])]
      exact hrows
    simp only [Seq.appendEachLoop, hal, eachColumn_some, Seq.AppendColumns, List.map_cons,
      List.map_nil, hcheck, appendLetters_eq, paddedColumn_eq, freshCols]
    rw [ih (i + 1) { h with letters := h.letters ++ [paddedColumn al.Gap a i] }
      { s with Seq := s.Seq ++
          [{ addr := h.letters.length, len := (paddedColumn al.Gap a i).length }] } hal hrows1]
    simp [List.range'_succ, freshCols, List.append_assoc]

/-- C10: for every plain alignment with `Rows() >= 1` and an alphabet, and every
list `a` of `Rows()` row sequences with longest length `max`, `Seq.AppendEach(a)`
returns no error and appends exactly `max` new columns; for every `i < max` and
row `r` the new column `i` holds at row `r` the letter of `a[r][i]` when
`i < len(a[r])` and the gap symbol of the alphabet otherwise; the existing
columns are unchanged.  (`util.MinInt` is taken to be at most 0.) -/
theorem appendEach_pads (e : Option Nat) (MinInt : Int) (h : Heap) (s : Seq)
    (a : List (List QLetter)) (n : Nat) (al : Alphabet)
    (hrows : s.Rows e = some n) (hn : 1 ≤ n) (hlen : a.length = n) (hal : s.Alpha = some al)
    (hM : MinInt ≤ 0) (hv : ∀ c ∈ s.Seq, h.letters.valid c) :
    ∃ st, Seq.AppendEach e MinInt h s a = .ok st ∧
      st.2.Len = s.Len + longest a ∧
      st.2.Seq.take s.Len = s.Seq ∧
      st.1.letters.matrix s.Seq = h.letters.matrix s.Seq ∧
      st.1.letters.matrix (st.2.Seq.drop s.Len) =
        (List.range (longest a)).map (paddedColumn al.Gap a) := by
  have ha : a ≠ [] := by
    intro h0
    subst h0
    simp at hlen
    omega
  have hmax := maxLen_longest MinInt a hM ha
  have hloop := Seq_appendEachLoop_eq e al a (longest a) 0 h s hal (hlen ▸ hrows)
  refine ⟨({ h with letters := h.letters ++
      (List.range' 0 (longest a)).map (paddedColumn al.Gap a) },
    { s with Seq := s.Seq ++
      freshCols h.letters.length ((List.range' 0 (longest a)).map (paddedColumn al.Gap a)) }),
    ?_, ?_, ?_, ?_, ?_⟩
  · unfold Seq.AppendEach
    simp only [hrows, hlen, ne_eq, not_true_eq_false, ite_false, hmax]
    rw [if_neg (by omega)]
    simp only [Int.toNat_ofNat, hloop]
  · simp [Seq.Len, freshCols_length]
  · simp [Seq.Len]
  · exact matrix_append _ _ _ hv
  · simp only [Seq.Len, List.drop_left', List.range_eq_range']
    exact freshCols_matrix _ _

/-- C10, at the input of the spec's padding example: rows of lengths 3, 1 and 2
appended to an alignment of three rows; three columns are added, `CAG`, `G-T`
and `T--`. -/
theorem appendEach_pads_witness :
    ∃ st, Seq.AppendEach none (-1)
        { letters := [[65, 67, 71]], qletters := [], annots := [] }
        { squareSeq with SubAnnotations := none, Seq := [{ addr := 0, len := 3 }] }
        [[{ L := 67, Q := 9 }, { L := 71, Q := 9 }, { L := 84, Q := 9 }],
         [{ L := 65, Q := 9 }],
         [{ L := 71, Q := 9 }, { L := 84, Q := 9 }]] = .ok st ∧
      st.2.Len = 1 + 3 ∧
      st.2.Seq.take 1 = [{ addr := 0, len := 3 }] ∧
      st.1.letters.matrix [{ addr := 0, len := 3 }] = [[65, 67, 71]] ∧
      st.1.letters.matrix (st.2.Seq.drop 1) = [[67, 65, 71], [71, 45, 84], [84, 45, 45]] :=
  appendEach_pads none (-1) { letters := [[65, 67, 71]], qletters := [], annots := [] }
    { squareSeq with SubAnnotations := none, Seq := [{ addr := 0, len := 3 }] }
    [[{ L := 67, Q := 9 }, { L := 71, Q := 9 }, { L := 84, Q := 9 }],
     [{ L := 65, Q := 9 }],
     [{ L := 71, Q := 9 }, { L := 84, Q := 9 }]] 3 dna rfl (by decide) rfl rfl (by decide)
    (by
      intro c hc
      simp at hc
      subst hc
      simp [Mem.valid, Mem.buf])

/-! ## Buffer reuse in `QSeq.AppendEach` -/

theorem qpaddedColumn_eq (gap : Letter) (a : List (List QLetter)) (i : Nat) :
    a.map (fun ss => (ss[i]?).getD { L := gap, Q := 0 }) = qpaddedColumn gap a i := by
  unfold qpaddedColumn
  apply List.map_congr_left
  intro ss _
  by_cases hi : i < ss.length
  · simp [hi]
  · simp [hi, List.getElem?_eq_none (Nat.le_of_not_lt hi)]

theorem qpaddedColumn_length (gap : Letter) (a : List (List QLetter)) (i : Nat) :
    (qpaddedColumn gap a i).length = a.length := by
  simp [qpaddedColumn]

theorem QSeq_appendEachLoop_eq (e : Option Nat) (al : Alphabet) (a : List (List QLetter))
    (b : Nat) :
    ∀ (k i : Nat) (h : Heap) (s : QSeq), s.Alpha = some al → s.Rows e = some a.length →
      QSeq.appendEachLoop e a b (k + 1) i (h, s) =
        some ({ h with qletters := h.qletters.set b (qpaddedColumn al.Gap a (i + k)) },
              { s with Seq := s.Seq ++
                  List.replicate (k + 1) { addr := b, len := a.length } }) := by
  intro k
  induction k with
  | zero =>
    intro i h s hal hrows
    have hcheck : checkColumns (s.Rows e) [a.length] 0 = .ok () := by
      apply checkColumns_of_widths
      intro w hw
      simp at hw
      rw [hw, hrows]
    simp only [QSeq.appendEachLoop, hal, eachColumn_some, qpaddedColumn_eq,
      QSeq.AppendColumns, List.map_cons, List.map_nil, hcheck, qpaddedColumn_length]
    simp
  | succ k ih =>
    intro i h s hal hrows
    have hcheck : checkColumns (s.Rows e) [a.length] 0 = .ok () := by
      apply checkColumns_of_widths
      intro w hw
      simp at hw
      rw [hw, hrows]
    have hrows1 : QSeq.Rows e { s with Seq := s.Seq ++ [{ addr := b, len := a.length }] } =
        some a.length := by
      unfold QSeq.Rows at hrows ⊢
      simp only
      rw [rows_append e s.Seq _ (by
        intro c hc
        simp at hc
        rw [hc, hrows])]
      exact hrows
    rw [QSeq.appendEachLoop]
    simp only [hal, eachColumn_some, qpaddedColumn_eq, QSeq.AppendColumns, List.map_cons,
      List.map_nil, hcheck, qpaddedColumn_length]
    rw [ih (i + 1) { h with qletters := h.qletters.set b (qpaddedColumn al.Gap a i) }
      { s with Seq := s.Seq ++ [{ addr := b, len := a.length }] } hal hrows1]
    simp [List.replicate_succ, List.append_assoc, Nat.add_assoc, Nat.add_comm 1 k]

/-- C11: `QSeq.AppendEach` does not give the new columns their own contents.  For
every quality alignment with `Rows() >= 1` and an alphabet, and every list `a`
of `Rows()` row sequences whose longest has length `max >= 1`, the call returns
no error and appends `max` columns, but all of them are the one slice of the
buffer made before the loop: every new column holds the padded column of index
`max - 1`, the last one written.  (`util.MinInt` is taken to be at most 0.) -/
theorem QSeq_AppendEach_reuses_buffer (e : Option Nat) (MinInt : Int) (h : Heap) (s : QSeq)
    (a : List (List QLetter)) (n : Nat) (al : Alphabet)
    (hrows : s.Rows e = some n) (hn : 1 ≤ n) (hlen : a.length = n) (hal : s.Alpha = some al)
    (hM : MinInt ≤ 0) (hmax : 1 ≤ longest a) :
    ∃ st, QSeq.AppendEach e MinInt h s a = .ok st ∧
      st.2.Seq = s.Seq ++ List.replicate (longest a) { addr := h.qletters.length, len := n } ∧
      ∀ c ∈ st.2.Seq.drop s.Len,
        st.1.qletters.contents c = qpaddedColumn al.Gap a (longest a - 1) := by
  have ha : a ≠ [] := by
    intro h0
    subst h0
    simp at hlen
    omega
  have hmx := maxLen_longest MinInt a hM ha
  obtain ⟨k, hk⟩ : ∃ k, longest a = k + 1 := ⟨longest a - 1, by omega⟩
  have hloop := QSeq_appendEachLoop_eq e al a h.qletters.length k 0
    { h with qletters := h.qletters ++ [List.replicate a.length QLetter.zero] } s hal
    (hlen ▸ hrows)
  refine ⟨({ h with qletters := h.qletters ++ [qpaddedColumn al.Gap a k] },
    { s with Seq := s.Seq ++
      List.replicate (k + 1) { addr := h.qletters.length, len := a.length } }), ?_, ?_, ?_⟩
  · unfold QSeq.AppendEach
    simp only [hrows, hlen, ne_eq, not_true_eq_false, ite_false, hmx]
    rw [if_neg (by omega)]
    simp only [Int.toNat_ofNat, hk, Mem.alloc]
    rw [← hlen, hloop]
    simp
  · simp [hk, hlen]
  · intro c hc
    simp only [QSeq.Len, List.drop_left'] at hc
    have hc1 := List.eq_of_mem_replicate hc
    subst hc1
    simp [Mem.contents, Mem.buf, hk]
    rw [qpaddedColumn_length]

theorem tripleQSeq_rows : tripleQSeq.Rows none = some 3 := rfl

/-- C11, at the input of the spec's padding example: rows of lengths 3, 1 and 2
appended to a quality alignment of three rows.  The claim asks for the columns
`C A G`, `G - T` and `T - -`; the three stored columns all hold `T - -`. -/
theorem QSeq_AppendEach_reuses_buffer_witness :
    (∃ st, QSeq.AppendEach none (-1) tripleHeap tripleQSeq raggedRows = .ok st ∧
      st.2.Seq = tripleQSeq.Seq ++ List.replicate 3 { addr := 1, len := 3 } ∧
      ∀ c ∈ st.2.Seq.drop tripleQSeq.Len,
        st.1.qletters.contents c =
          [{ L := 84, Q := 9 }, { L := 45, Q := 0 }, { L := 45, Q := 0 }]) ∧
    qpaddedColumn 45 raggedRows 0 =
      [{ L := 67, Q := 9 }, { L := 65, Q := 9 }, { L := 71, Q := 9 }] ∧
    qpaddedColumn 45 raggedRows 1 =
      [{ L := 71, Q := 9 }, { L := 45, Q := 0 }, { L := 84, Q := 9 }] :=
  ⟨QSeq_AppendEach_reuses_buffer none (-1) tripleHeap tripleQSeq raggedRows 3 dna
      tripleQSeq_rows (by decide) rfl rfl (by decide) (by decide),
   by decide, by decide⟩

/-! ## Memory -/

theorem buf_set {α : Type} (m : Mem α) (a b : Nat) (x : List α) :
    Mem.buf (m.set a x) b = if a = b ∧ a < m.length then x else m.buf b := by
  unfold Mem.buf
  rw [List.getElem?_set]
  by_cases hab : a = b
  · subst hab
    by_cases hlt : a < m.length
    · rw [if_pos rfl, if_pos hlt, if_pos ⟨rfl, hlt⟩]
      rfl
    · rw [if_pos rfl, if_neg hlt, if_neg (fun h => hlt h.2),
        List.getElem?_eq_none (Nat.le_of_not_lt hlt)]
  · rw [if_neg hab, if_neg (fun h => hab h.1)]

theorem buf_alloc {α : Type} (m : Mem α) (x : List α) : Mem.buf (m ++ [x]) m.length = x := by
  unfold Mem.buf
  rw [List.getElem?_append_right (Nat.le_refl _)]
  simp

theorem contents_length {α : Type} (m : Mem α) (c : Slice) (hv : m.valid c) :
    (m.contents c).length = c.len := by
  unfold Mem.contents
  unfold Mem.valid at hv
  simp
  omega

theorem append_spec {α : Type} (m : Mem α) (c : Slice) (xs : List α) (hc : c.addr < m.length)
    (hv : m.valid c) :
    (m.append c xs).1.contents (m.append c xs).2 = m.contents c ++ xs ∧
    (m.append c xs).2.len = c.len + xs.length ∧
    ((m.append c xs).2.addr = c.addr ∨ (m.append c xs).2.addr = m.length) ∧
    m.length ≤ (m.append c xs).1.length ∧
    (m.append c xs).2.addr < (m.append c xs).1.length ∧
    (m.append c xs).1.valid (m.append c xs).2 ∧
    (∀ a : Nat, a ≠ c.addr → a < m.length → (m.append c xs).1.buf a = m.buf a) ∧
    (∀ a : Nat, a < m.length → ((m.append c xs).1.buf a).length = (m.buf a).length) := by
  unfold Mem.append
  by_cases hfit : c.len + xs.length ≤ (m.buf c.addr).length
  · rw [if_pos hfit]
    have hb : Mem.buf (m.set c.addr ((m.buf c.addr).take c.len ++ xs ++
        (m.buf c.addr).drop (c.len + xs.length))) c.addr =
        (m.buf c.addr).take c.len ++ xs ++ (m.buf c.addr).drop (c.len + xs.length) := by
      rw [buf_set]
      simp [hc]
    have hlen : ((m.buf c.addr).take c.len ++ xs).length = c.len + xs.length := by
      simp
      omega
    refine ⟨?_, rfl, Or.inl rfl, by simp, by simpa using hc, ?_, ?_, ?_⟩
    · simp only [Mem.contents, hb]
      rw [List.take_left' hlen]
    · simp only [Mem.valid, hb]
      simp
      omega
    · intro a ha _
      rw [buf_set]
      simp [Ne.symm ha]
    · intro a _
      rw [buf_set]
      by_cases hac : c.addr = a
      · subst hac
        simp [hc]
        omega
      · simp [hac]
  · rw [if_neg hfit]
    have hcl := contents_length m c hv
    refine ⟨?_, rfl, Or.inr rfl, by simp, by simp, ?_, ?_, ?_⟩
    · simp only [Mem.contents, buf_alloc]
      rw [List.take_of_length_le]
      simp [Mem.contents] at hcl ⊢
    · simp only [Mem.valid, buf_alloc]
      simp [Mem.contents] at hcl ⊢
      omega
    · intro a _ ha
      exact buf_append_lt m _ a ha
    · intro a ha
      rw [buf_append_lt m _ a ha]

/-! ## Separate storage -/

theorem separate_inj {α : Type} (m : Mem α) (cols : List Slice) (hs : m.separate cols)
    (i j : Nat) (c d : Slice) (hi : cols[i]? = some c) (hj : cols[j]? = some d)
    (hcd : c.addr = d.addr) : i = j := by
  have hnd := List.nodup_iff_getElem?_ne_getElem?.mp hs.1
  have hil : i < cols.length := (List.getElem?_eq_some_iff.mp hi).1
  have hjl : j < cols.length := (List.getElem?_eq_some_iff.mp hj).1
  have hmi : (cols.map (fun c => c.addr))[i]? = some c.addr := by simp [hi]
  have hmj : (cols.map (fun c => c.addr))[j]? = some d.addr := by simp [hj]
  rcases Nat.lt_trichotomy i j with hlt | heq | hgt
  · exact absurd (hmi.trans (hcd ▸ hmj.symm)) (hnd i j hlt (by simpa using hjl))
  · exact heq
  · exact absurd (hmj.trans (hcd ▸ hmi.symm)) (hnd j i hgt (by simpa using hil))

theorem separate_of_inj {α : Type} (m : Mem α) (cols : List Slice)
    (hinj : ∀ (i j : Nat) (c d : Slice), cols[i]? = some c → cols[j]? = some d →
      c.addr = d.addr → i = j)
    (hv : ∀ (i : Nat) (c : Slice), cols[i]? = some c → c.addr < m.length ∧ m.valid c) :
    m.separate cols := by
  constructor
  · rw [List.nodup_iff_getElem?_ne_getElem?]
    intro i j hij hj heq
    simp only [List.length_map] at hj
    have hi : i < cols.length := by omega
    have h1 : cols[i]? = some cols[i] := List.getElem?_eq_getElem hi
    have h2 : cols[j]? = some cols[j] := List.getElem?_eq_getElem hj
    simp only [List.getElem?_map, h1, h2, Option.map_some', Option.some.injEq] at heq
    have := hinj i j _ _ h1 h2 heq
    omega
  · intro c hc
    obtain ⟨i, hi⟩ := List.mem_iff_getElem?.mp hc
    exact hv i c hi

theorem separate_valid {α : Type} (m : Mem α) (cols : List Slice) (hs : m.separate cols)
    (i : Nat) (c : Slice) (hi : cols[i]? = some c) : c.addr < m.length ∧ m.valid c :=
  hs.2 c (List.getElem?_mem hi)

theorem contents_of_buf {α : Type} (m m1 : Mem α) (c : Slice)
    (hb : m1.buf c.addr = m.buf c.addr) : m1.contents c = m.contents c := by
  simp [Mem.contents, hb]

theorem separate_append {α : Type} (m : Mem α) (cols : List Slice) (hs : m.separate cols)
    (i : Nat) (c : Slice) (hi : cols[i]? = some c) (xs : List α) :
    (m.append c xs).1.separate (cols.set i (m.append c xs).2) := by
  have hcv := separate_valid m cols hs i c hi
  obtain ⟨_, _, haddr, hlen, hlt, hval, _, hbl⟩ := append_spec m c xs hcv.1 hcv.2
  have hil : i < cols.length := (List.getElem?_eq_some_iff.mp hi).1
  have key : ∀ (p : Nat) (d : Slice), (cols.set i (m.append c xs).2)[p]? = some d →
      (p = i ∧ d = (m.append c xs).2) ∨ (p ≠ i ∧ cols[p]? = some d) := by
    intro p d hp
    rw [List.getElem?_set] at hp
    by_cases hip : i = p
    · rw [if_pos hip, if_pos hil] at hp
      exact Or.inl ⟨hip.symm, (Option.some.inj hp).symm⟩
    · rw [if_neg hip] at hp
      exact Or.inr ⟨fun h => hip h.symm, hp⟩
  apply separate_of_inj
  · intro p q d1 d2 hp hq hdd
    rcases key p d1 hp with ⟨hp1, hd1⟩ | ⟨hp1, hd1⟩ <;>
      rcases key q d2 hq with ⟨hq1, hd2⟩ | ⟨hq1, hd2⟩
    · omega
    · exfalso
      subst hd1
      have hq2 := separate_valid m cols hs q d2 hd2
      rcases haddr with ha | ha
      · exact hq1 (separate_inj m cols hs q i d2 c hd2 hi (by rw [← hdd, ha]))
      · omega
    · exfalso
      subst hd2
      have hp2 := separate_valid m cols hs p d1 hd1
      rcases haddr with ha | ha
      · exact hp1 (separate_inj m cols hs p i d1 c hd1 hi (by rw [hdd, ha]))
      · omega
    · exact separate_inj m cols hs p q d1 d2 hd1 hd2 hdd
  · intro p d hp
    rcases key p d hp with ⟨_, hd⟩ | ⟨_, hd⟩
    · subst hd
      exact ⟨hlt, hval⟩
    · have hd2 := separate_valid m cols hs p d hd
      refine ⟨by omega, ?_⟩
      unfold Mem.valid
      rw [hbl d.addr hd2.1]
      exact hd2.2

/-! ## Merging -/

theorem colAt_natCast (cols : List Slice) (i : Nat) : colAt cols (i : Int) = cols[i]? := by
  unfold colAt
  rw [if_neg (by omega)]
  simp

theorem addCols_spec {α : Type} (col : Int → Option (List α)) (rowsAt : Nat → List α) (N : Nat)
    (hcol : ∀ p : Nat, p < N → col p = some (rowsAt p)) :
    ∀ (k i : Nat) (m : Mem α) (cols : List Slice), i + k = N → cols.length = N →
      m.separate cols →
      ∃ m1 cols1, addCols col k (i : Int) (m, cols) = some (m1, cols1) ∧
        cols1.length = N ∧ m1.separate cols1 ∧
        ∀ (p : Nat) (c : Slice), cols[p]? = some c →
          ∃ c1, cols1[p]? = some c1 ∧
            m1.contents c1 = m.contents c ++ (if i ≤ p then rowsAt p else []) := by
  intro k
  induction k with
  | zero =>
    intro i m cols hik hN hs
    refine ⟨m, cols, rfl, hN, hs, ?_⟩
    intro p c hp
    have hpl : p < cols.length := (List.getElem?_eq_some_iff.mp hp).1
    refine ⟨c, hp, ?_⟩
    rw [if_neg (by omega)]
    simp
  | succ k ih =>
    intro i m cols hik hN hs
    have hil : i < cols.length := by omega
    have hi : cols[i]? = some cols[i] := List.getElem?_eq_getElem hil
    have hcv := separate_valid m cols hs i _ hi
    obtain ⟨hcont, _, _, _, _, _, hbuf, _⟩ := append_spec m cols[i] (rowsAt i) hcv.1 hcv.2
    have hs1 := separate_append m cols hs i _ hi (rowsAt i)
    obtain ⟨m1, cols1, hrun, hlen1, hsep1, hall⟩ :=
      ih (i + 1) (m.append cols[i] (rowsAt i)).1 (cols.set i (m.append cols[i] (rowsAt i)).2)
        (by omega) (by simpa using hN) hs1
    refine ⟨m1, cols1, ?_, hlen1, hsep1, ?_⟩
    · rw [addCols, colAt_natCast, hi]
      simp only [hcol i (by omega), Int.toNat_ofNat]
      exact hrun
    · intro p c hp
      by_cases hpi : p = i
      · subst hpi
        have hc : c = cols[p] := by
          rw [hi] at hp
          exact (Option.some.inj hp).symm
        subst hc
        obtain ⟨c1, hc1, hcc⟩ := hall p (m.append cols[p] (rowsAt p)).2 (by
          rw [List.getElem?_set]
          simp [hil])
        refine ⟨c1, hc1, ?_⟩
        rw [hcc, hcont, if_neg (by omega), if_pos (Nat.le_refl _)]
        simp
      · obtain ⟨c1, hc1, hcc⟩ := hall p c (by
          rw [List.getElem?_set_ne (fun h => hpi h.symm)]
          exact hp)
        refine ⟨c1, hc1, ?_⟩
        have hcv2 := separate_valid m cols hs p c hp
        have hne : c.addr ≠ cols[i].addr := fun h =>
          hpi (separate_inj m cols hs p i c _ hp hi h)
        rw [hcc, contents_of_buf m _ c (hbuf c.addr hne hcv2.1)]
        by_cases hle : i ≤ p
        · rw [if_pos hle, if_pos (by omega)]
        · rw [if_neg hle, if_neg (by omega)]

theorem rows_of_colAt (e : Option Nat) (cols : List Slice) (i : Int) (c : Slice)
    (h : colAt cols i = some c) : ∃ n, Columns.Rows e cols = some n := by
  cases cols with
  | nil =>
    unfold colAt at h
    split at h <;> simp at h
  | cons c0 rest => exact ⟨c0.len, rfl⟩

theorem Seq_addLoop_eq (e : Option Nat) (n : List Added) :
    ∀ (k : Nat) (i : Int) (h : Heap) (s : Seq),
      Seq.addLoop e n k i (h, s) =
        (addCols (fun p => columnLetters s.Alpha p n) k i (h.letters, s.Seq)).map
          (fun r => ({ h with letters := r.1 }, { s with Seq := r.2 })) := by
  intro k
  induction k with
  | zero =>
    intro i h s
    rfl
  | succ k ih =>
    intro i h s
    rw [Seq.addLoop, addCols]
    cases hc : colAt s.Seq i with
    | none => rfl
    | some c =>
      obtain ⟨r, hr⟩ := rows_of_colAt e s.Seq i c hc
      simp only [Seq.column, Seq.Rows, hr]
      cases hx : columnLetters s.Alpha i n with
      | none => rfl
      | some xs =>
        simp only []
        rw [ih]

theorem QSeq_addLoop_eq (e : Option Nat) (n : List Added) :
    ∀ (k : Nat) (i : Int) (h : Heap) (s : QSeq),
      QSeq.addLoop e n k i (h, s) =
        (addCols (fun p => columnQLetters s.Alpha p n) k i (h.qletters, s.Seq)).map
          (fun r => ({ h with qletters := r.1 }, { s with Seq := r.2 })) := by
  intro k
  induction k with
  | zero =>
    intro i h s
    rfl
  | succ k ih =>
    intro i h s
    rw [QSeq.addLoop, addCols]
    cases hc : colAt s.Seq i with
    | none => rfl
    | some c =>
      obtain ⟨r, hr⟩ := rows_of_colAt e s.Seq i c hc
      simp only [QSeq.column, QSeq.Rows, hr]
      cases hx : columnQLetters s.Alpha i n with
      | none => rfl
      | some xs =>
        simp only []
        rw [ih]

theorem columnLetters_singles (al : Alphabet) (pos : Int) (ss : List Sequence)
    (hat : ∀ x ∈ ss, x.Start ≤ pos → pos < x.End → (x.At pos).isSome = true) :
    columnLetters (some al) pos (ss.map Added.single) =
      some (ss.map (fun x => (addedRow al.Gap x pos).getD al.Gap)) := by
  induction ss with
  | nil => rfl
  | cons x rest ih =>
    have hrest := ih (fun y hy => hat y (List.mem_cons_of_mem _ hy))
    simp only [List.map_cons, columnLetters, hrest, addedRow]
    by_cases hin : x.Start ≤ pos ∧ pos < x.End
    · obtain ⟨q, hq⟩ := Option.isSome_iff_exists.mp (hat x (List.mem_cons_self _ _) hin.1 hin.2)
      simp [hin, hq]
    · simp [hin]

theorem addedRow_some (al : Alphabet) (pos : Int) (ss : List Sequence)
    (hat : ∀ x ∈ ss, x.Start ≤ pos → pos < x.End → (x.At pos).isSome = true) :
    (ss.map (fun x => (addedRow al.Gap x pos).getD al.Gap)).map some =
      ss.map (fun x => addedRow al.Gap x pos) := by
  rw [List.map_map]
  apply List.map_congr_left
  intro x hx
  simp only [Function.comp, addedRow]
  by_cases hin : x.Start ≤ pos ∧ pos < x.End
  · obtain ⟨q, hq⟩ := Option.isSome_iff_exists.mp (hat x hx hin.1 hin.2)
    simp [hin, hq]
  · simp [hin]

/-- C12 (as amended): for every plain alignment with `Start() = 0` whose columns
lie in separate storage, and every list `ss` of single-row sequences that answer `At`
on their own range, `Add` returns no error, keeps `Len()`, and extends every
column in place of the old one: the column at position `pos` holds the old rows
unchanged, followed by one new row per sequence in the supplied order, which is
the symbol of the sequence at `pos` when `pos` is in its range and the gap
symbol of the alphabet otherwise. -/
theorem add_single_rows (e : Option Nat) (h : Heap) (s : Seq) (al : Alphabet)
    (ss : List Sequence) (hstart : s.Start = 0) (hal : s.Alpha = some al)
    (hsep : h.letters.separate s.Seq)
    (hat : ∀ x ∈ ss, ∀ pos : Int, x.Start ≤ pos → pos < x.End → (x.At pos).isSome = true) :
    ∃ st, Seq.Add e h s (ss.map Added.single) = .ok st ∧
      st.2.Len = s.Len ∧
      ∀ (pos : Nat) (c : Slice), s.Seq[pos]? = some c →
        ∃ c1, st.2.Seq[pos]? = some c1 ∧
          (st.1.letters.contents c1).map some =
            (h.letters.contents c).map some ++ ss.map (fun x => addedRow al.Gap x pos) := by
  obtain ⟨m1, cols1, hrun, hlen, _, hall⟩ :=
    addCols_spec (fun p => columnLetters s.Alpha p (ss.map Added.single))
      (fun p => ss.map (fun x => (addedRow al.Gap x p).getD al.Gap)) s.Seq.length
      (fun p _ => by
        rw [hal]
        exact columnLetters_singles al p ss (fun x hx => hat x hx p))
      s.Seq.length 0 h.letters s.Seq (by omega) rfl hsep
  have hloop : Seq.addLoop e (ss.map Added.single) s.Len s.Start (h, s) =
      some ({ h with letters := m1 }, { s with Seq := cols1 }) := by
    rw [Seq_addLoop_eq, hstart]
    unfold Seq.Len
    have h0 : (0 : Int) = ((0 : Nat) : Int) := rfl
    rw [h0, hrun]
    rfl
  refine ⟨_, by
    unfold Seq.Add
    rw [hloop], ?_, ?_⟩
  · exact hlen
  · intro pos c hp
    obtain ⟨c1, hc1, hcc⟩ := hall pos c hp
    refine ⟨c1, hc1, ?_⟩
    simp only [] at hcc ⊢
    rw [hcc, if_pos (Nat.zero_le _), List.map_append,
      addedRow_some al pos ss (fun x hx => hat x hx pos)]

theorem squareSeq_separate : squareState.letters.separate squareSeq.Seq := by
  unfold Mem.separate
  refine ⟨by decide, ?_⟩
  intro c hc
  have := squareSeq_cols c hc
  refine ⟨?_, this.2⟩
  simp [squareSeq, squareBlock] at hc
  rcases hc with rfl | rfl | rfl <;> decide

/-- C12 (as amended), at the clip-and-fill example: a sequence that covers `[1, 3)` with the
symbols `g` and `t`, added to the alignment of three columns `AC`, `GT`, `AA`.
The columns become `AC-`, `GTg` and `AAt`. -/
theorem add_single_rows_witness :
    (∃ st, Seq.Add none squareState squareSeq ([clipSequence].map Added.single) = .ok st ∧
      st.2.Len = squareSeq.Len ∧
      ∀ (pos : Nat) (c : Slice), squareSeq.Seq[pos]? = some c →
        ∃ c1, st.2.Seq[pos]? = some c1 ∧
          (st.1.letters.contents c1).map some =
            (squareState.letters.contents c).map some ++
              [clipSequence].map (fun x => addedRow dna.Gap x pos)) ∧
    [clipSequence].map (fun x => addedRow dna.Gap x 0) = [some 45] ∧
    [clipSequence].map (fun x => addedRow dna.Gap x 1) = [some 103] ∧
    [clipSequence].map (fun x => addedRow dna.Gap x 2) = [some 116] :=
  ⟨add_single_rows none squareState squareSeq dna [clipSequence] rfl rfl squareSeq_separate
      (by
        intro x hx pos _ _
        simp at hx
        subst hx
        simp only [clipSequence]
        split <;> rfl),
   by decide, by decide, by decide⟩

theorem addCols_out_of_range {α : Type} (col : Int → Option (List α)) :
    ∀ (k : Nat) (i : Int) (m : Mem α) (cols : List Slice), 1 ≤ k →
      (i < 0 ∨ (cols.length : Int) < i + k) → addCols col k i (m, cols) = none := by
  intro k
  induction k with
  | zero =>
    intro i m cols hk
    omega
  | succ k ih =>
    intro i m cols _ hout
    rw [addCols]
    cases hc : colAt cols i with
    | none => rfl
    | some c =>
      unfold colAt at hc
      have hi : ¬ i < 0 := by
        intro hneg
        rw [if_pos hneg] at hc
        exact Option.noConfusion hc
      rw [if_neg hi] at hc
      have hil : i.toNat < cols.length := (List.getElem?_eq_some_iff.mp hc).1
      cases hx : col i with
      | none => rfl
      | some xs =>
        simp only []
        apply ih
        · omega
        · right
          simp only [List.length_set]
          omega

/-- C13: `Add` does not complete on an alignment whose global offset is not 0.
For every plain or quality alignment with `Start() ≠ 0` and at least one column,
and every list of added sequences, `Add` fails with an index out of range: its
loop runs `i` over `[Start(), End())` and indexes `s.Seq[i]` with that global
position. -/
theorem add_panics_off_origin (e : Option Nat) (h : Heap) (n : List Added) :
    (∀ s : Seq, s.Start ≠ 0 → 1 ≤ s.Len → Seq.Add e h s n = .panic) ∧
    (∀ s : QSeq, s.Start ≠ 0 → 1 ≤ s.Len → QSeq.Add e h s n = .panic) := by
  constructor
  · intro s hs hl
    unfold Seq.Add
    rw [Seq_addLoop_eq, addCols_out_of_range _ _ _ _ _ hl (by
      unfold Seq.Len
      omega)]
    rfl
  · intro s hs hl
    unfold QSeq.Add
    rw [QSeq_addLoop_eq, addCols_out_of_range _ _ _ _ _ hl (by
      unfold QSeq.Len
      omega)]
    rfl

/-- C13, at a concrete input: the alignment of three columns and two rows at the
global offset 1, plain and quality, and one added sequence. -/
theorem add_panics_off_origin_witness :
    Seq.Add none squareState shiftedSeq [.single clipSequence] = .panic ∧
    QSeq.Add none squareState shiftedQSeq [.single clipSequence] = .panic :=
  ⟨(add_panics_off_origin none squareState [.single clipSequence]).1 shiftedSeq
      (by decide) (by decide),
   (add_panics_off_origin none squareState [.single clipSequence]).2 shiftedQSeq
      (by decide) (by decide)⟩

theorem appendAnn_subLen (annots : Mem Annotation) (sub : Option Slice) (x : Annotation) :
    subLen (appendAnn annots sub x).2 = subLen sub + 1 := by
  cases sub with
  | none => rfl
  | some sl =>
    simp only [appendAnn, subLen, Mem.append]
    split <;> rfl

theorem addAnns_subLen (n : List Added) :
    ∀ (annots : Mem Annotation) (sub : Option Slice),
      subLen (addAnns n (annots, sub)).2 = subLen sub + n.length := by
  induction n with
  | nil =>
    intro annots sub
    rfl
  | cons x rest ih =>
    intro annots sub
    rw [addAnns]
    have h1 := ih (appendAnn annots sub x.ann).1 (appendAnn annots sub x.ann).2
    rw [h1, appendAnn_subLen, List.length_cons]
    omega

theorem addCols_total {α : Type} (col : Int → Option (List α)) (m : Mem α) (cols : List Slice)
    (hsep : m.separate cols) (hcol : ∀ p : Nat, p < cols.length → (col p).isSome = true) :
    ∃ m1 cols1, addCols col cols.length 0 (m, cols) = some (m1, cols1) ∧
      ∀ (pos : Nat) (c : Slice), cols[pos]? = some c →
        ∃ c1 xs, cols1[pos]? = some c1 ∧ col pos = some xs ∧
          m1.contents c1 = m.contents c ++ xs ∧ c1.len = c.len + xs.length := by
  obtain ⟨m1, cols1, hrun, _, hsep1, hall⟩ :=
    addCols_spec col (fun p => (col p).getD []) cols.length
      (fun p hp => by
        obtain ⟨xs, hxs⟩ := Option.isSome_iff_exists.mp (hcol p hp)
        simp only [hxs, Option.getD_some])
      cols.length 0 m cols (by omega) rfl hsep
  refine ⟨m1, cols1, hrun, ?_⟩
  intro pos c hp
  obtain ⟨c1, hc1, hcc⟩ := hall pos c hp
  have hpl : pos < cols.length := (List.getElem?_eq_some_iff.mp hp).1
  obtain ⟨xs, hxs⟩ := Option.isSome_iff_exists.mp (hcol pos hpl)
  rw [if_pos (Nat.zero_le _)] at hcc
  simp only [hxs, Option.getD_some] at hcc
  refine ⟨c1, xs, hc1, hxs, hcc, ?_⟩
  have h1 := contents_length m1 c1 (separate_valid m1 cols1 hsep1 pos c1 hc1).2
  have h2 := contents_length m c (separate_valid m cols hsep pos c hp).2
  rw [hcc, List.length_append, h2] at h1
  exact h1.symm

/-- C14: `Add` appends one sub-annotation for each added sequence, not for each
added row.  For every plain or quality alignment with `Start() = 0` whose
columns lie in separate storage, and every list `n` of added sequences that
answer at every position of the alignment, `Add` returns no error,
`len(SubAnnotations)` grows by `len(n)`, and every column grows by the number of
symbols that the sequences contribute there, which is the sum of their row
counts. -/
theorem add_annotates_per_sequence (e : Option Nat) (h : Heap) (n : List Added) :
    (∀ s : Seq, s.Start = 0 → h.letters.separate s.Seq →
      (∀ p : Nat, p < s.Len → (columnLetters s.Alpha p n).isSome = true) →
      ∃ st, Seq.Add e h s n = .ok st ∧
        subLen st.2.SubAnnotations = subLen s.SubAnnotations + n.length ∧
        ∀ (pos : Nat) (c : Slice), s.Seq[pos]? = some c →
          ∃ c1 xs, st.2.Seq[pos]? = some c1 ∧ columnLetters s.Alpha pos n = some xs ∧
            c1.len = c.len + xs.length) ∧
    (∀ s : QSeq, s.Start = 0 → h.qletters.separate s.Seq →
      (∀ p : Nat, p < s.Len → (columnQLetters s.Alpha p n).isSome = true) →
      ∃ st, QSeq.Add e h s n = .ok st ∧
        subLen st.2.SubAnnotations = subLen s.SubAnnotations + n.length ∧
        ∀ (pos : Nat) (c : Slice), s.Seq[pos]? = some c →
          ∃ c1 xs, st.2.Seq[pos]? = some c1 ∧ columnQLetters s.Alpha pos n = some xs ∧
            c1.len = c.len + xs.length) := by
  constructor
  · intro s hstart hsep hcol
    obtain ⟨m1, cols1, hrun, hall⟩ :=
      addCols_total (fun p => columnLetters s.Alpha p n) h.letters s.Seq hsep hcol
    have hloop : Seq.addLoop e n s.Len s.Start (h, s) =
        some ({ h with letters := m1 }, { s with Seq := cols1 }) := by
      rw [Seq_addLoop_eq, hstart]
      unfold Seq.Len
      rw [hrun]
      rfl
    refine ⟨_, by
      unfold Seq.Add
      rw [hloop], ?_, ?_⟩
    · exact addAnns_subLen n _ _
    · intro pos c hp
      obtain ⟨c1, xs, hc1, hxs, _, hlen⟩ := hall pos c hp
      exact ⟨c1, xs, hc1, hxs, hlen⟩
  · intro s hstart hsep hcol
    obtain ⟨m1, cols1, hrun, hall⟩ :=
      addCols_total (fun p => columnQLetters s.Alpha p n) h.qletters s.Seq hsep hcol
    have hloop : QSeq.addLoop e n s.Len s.Start (h, s) =
        some ({ h with qletters := m1 }, { s with Seq := cols1 }) := by
      rw [QSeq_addLoop_eq, hstart]
      unfold QSeq.Len
      rw [hrun]
      rfl
    refine ⟨_, by
      unfold QSeq.Add
      rw [hloop], ?_, ?_⟩
    · exact addAnns_subLen n _ _
    · intro pos c hp
      obtain ⟨c1, xs, hc1, hxs, _, hlen⟩ := hall pos c hp
      exact ⟨c1, xs, hc1, hxs, hlen⟩

theorem squareQSeq_separate : squareState.qletters.separate squareQSeq.Seq := by
  unfold Mem.separate
  refine ⟨by decide, ?_⟩
  intro c hc
  have := squareQSeq_cols c hc
  refine ⟨?_, this.2⟩
  simp [squareQSeq, squareBlock] at hc
  rcases hc with rfl | rfl | rfl <;> decide

theorem rows_of_head (e : Option Nat) (cols : List Slice) (c : Slice) (h : cols[0]? = some c) :
    Columns.Rows e cols = some c.len := by
  cases cols with
  | nil => simp at h
  | cons c0 rest =>
    simp at h
    subst h
    rfl

/-- C14, at a concrete input: one `Aligned` input of three rows added to the
alignment of three columns and two rows with two sub-annotations, plain and
quality.  Afterwards `Rows()` is 5 and `len(SubAnnotations)` is 3. -/
theorem add_annotates_per_sequence_witness :
    (∃ st, Seq.Add none squareState squareSeq [.aligned tripleAligned] = .ok st ∧
      st.2.Rows none = some 5 ∧ subLen st.2.SubAnnotations = 3) ∧
    (∃ st, QSeq.Add none squareState squareQSeq [.aligned tripleAligned] = .ok st ∧
      st.2.Rows none = some 5 ∧ subLen st.2.SubAnnotations = 3) := by
  obtain ⟨st, hst, hsub, hall⟩ :=
    (add_annotates_per_sequence none squareState [.aligned tripleAligned]).1 squareSeq rfl
      squareSeq_separate (by decide)
  obtain ⟨qst, hqst, hqsub, hqall⟩ :=
    (add_annotates_per_sequence none squareState [.aligned tripleAligned]).2 squareQSeq rfl
      squareQSeq_separate (by decide)
  refine ⟨⟨st, hst, ?_, hsub⟩, ⟨qst, hqst, ?_, hqsub⟩⟩
  · obtain ⟨c1, xs, hc1, hxs, hlen⟩ := hall 0 { addr := 0, len := 2 } rfl
    have hx : columnLetters squareSeq.Alpha ((0 : Nat) : Int) [.aligned tripleAligned] =
        some [97, 98, 99] := by decide
    rw [hx] at hxs
    have hxs1 := Option.some.inj hxs
    subst hxs1
    unfold Seq.Rows
    rw [rows_of_head none _ c1 hc1, hlen]
    rfl
  · obtain ⟨c1, xs, hc1, hxs, hlen⟩ := hqall 0 { addr := 0, len := 2 } rfl
    have hx : columnQLetters squareQSeq.Alpha ((0 : Nat) : Int) [.aligned tripleAligned] =
        some [{ L := 97, Q := 9 }, { L := 98, Q := 9 }, { L := 99, Q := 9 }] := by decide
    rw [hx] at hxs
    have hxs1 := Option.some.inj hxs
    subst hxs1
    unfold QSeq.Rows
    rw [rows_of_head none _ c1 hc1, hlen]
    rfl

/-! ## Row access -/

theorem cell_setCell {α : Type} (m m2 : Mem α) (c d : Slice) (r q : Nat) (v : α)
    (hset : m.setCell c r v = some m2) :
    m2.cell d q =
      if d.addr = c.addr ∧ q = r then (if q < d.len then some v else none)
      else m.cell d q := by
  obtain ⟨_, hlt⟩ := setCell_pos m m2 c r v hset
  unfold Mem.setCell at hset
  split at hset
  · rename_i hr
    have hm2 := (Option.some.inj hset).symm
    subst hm2
    unfold Mem.cell
    rw [buf_set]
    by_cases ha : d.addr = c.addr
    · by_cases hq : q = r
      · by_cases hql : q < d.len
        · simp [ha, hq, hql, hlt, hr.2, List.getElem?_set]
        · subst hq
          simp [ha, hql, hlt]
      · by_cases hql : q < d.len
        · simp [ha, hq, hql, hlt, List.getElem?_set, Ne.symm hq]
        · simp [ha, hq, hql, hlt]
    · by_cases hql : q < d.len
      · simp [ha, hql, hlt, Ne.symm ha]
      · simp [ha, hql, hlt, Ne.symm ha]
  · exact Option.noConfusion hset

theorem setCell_isSome {α : Type} (m : Mem α) (c : Slice) (r : Nat) (v : α) (hr : r < c.len)
    (hv : m.valid c) : ∃ m2, m.setCell c r v = some m2 := by
  unfold Mem.valid at hv
  unfold Mem.setCell
  rw [if_pos ⟨hr, by omega⟩]
  exact ⟨_, rfl⟩

theorem colAt_sub (cols : List Slice) (pos off : Int) (k : Nat) (hk : pos = off + k) :
    colAt cols (pos - off) = cols[k]? := by
  have h1 : pos - off = (k : Int) := by omega
  rw [h1, colAt_natCast]

/-- The frame of `At` and `Set` of a row view is that of the owning alignment.
For every row view, plain or quality, and every position
`pos = Align.Start() + k` whose column `Align.Seq[k]` holds the row, `At(pos)`
reads and `Set(pos, l)` writes the cell of the row in that column, whatever the
sub-annotations hold (so whatever the offset of the row is); `Set` changes no
other cell and no annotation. -/
theorem row_access_uses_alignment_frame (D : Qphred) (h : Heap) (pos : Int) (k : Nat)
    (c : Slice) (row : Nat) :
    (∀ r : Row, r.Row = row → pos = r.Align.Start + k → r.Align.Seq[k]? = some c →
      row < c.len → h.letters.valid c →
      (∀ an, Row.At D { h with annots := an } r pos =
        (h.letters.cell c row).map (fun x => { L := x, Q := D })) ∧
      (∃ x, h.letters.cell c row = some x) ∧
      ∀ l an, ∃ st, Row.Set { h with annots := an } r pos l = some st ∧
        st.2 = r.Align ∧ st.1.annots = an ∧ st.1.letters.cell c row = some l.L ∧
        ∀ (d : Slice) (q : Nat), d.addr ≠ c.addr ∨ q ≠ row →
          st.1.letters.cell d q = h.letters.cell d q) ∧
    (∀ r : QRow, r.Row = row → pos = r.Align.Start + k → r.Align.Seq[k]? = some c →
      row < c.len → h.qletters.valid c →
      (∀ an, QRow.At { h with annots := an } r pos = h.qletters.cell c row) ∧
      (∃ x, h.qletters.cell c row = some x) ∧
      ∀ l an, ∃ st, QRow.Set { h with annots := an } r pos l = some st ∧
        st.2 = r.Align ∧ st.1.annots = an ∧ st.1.qletters.cell c row = some l ∧
        ∀ (d : Slice) (q : Nat), d.addr ≠ c.addr ∨ q ≠ row →
          st.1.qletters.cell d q = h.qletters.cell d q) := by
  constructor
  · intro r hrow hpos hc hlt hv
    subst hrow
    have hcol : colAt r.Align.Seq (pos - r.Align.Offset) = some c := by
      rw [colAt_sub _ pos r.Align.Offset k hpos, hc]
    refine ⟨?_, cell_isSome _ c r.Row hlt hv, ?_⟩
    · intro an
      simp only [Row.At, hcol]
    · intro l an
      obtain ⟨m2, hm2⟩ := setCell_isSome h.letters c r.Row l.L hlt hv
      refine ⟨({ h with annots := an, letters := m2 }, r.Align), ?_, rfl, rfl, ?_, ?_⟩
      · simp only [Row.Set, hcol, hm2]
      · exact cell_setCell_same _ _ c r.Row l.L hm2
      · intro d q hdq
        simp only []
        rw [cell_setCell _ _ c d r.Row q l.L hm2, if_neg]
        intro hand
        rcases hdq with hd | hq
        · exact hd hand.1
        · exact hq hand.2
  · intro r hrow hpos hc hlt hv
    subst hrow
    have hcol : colAt r.Align.Seq (pos - r.Align.Offset) = some c := by
      rw [colAt_sub _ pos r.Align.Offset k hpos, hc]
    refine ⟨?_, cell_isSome _ c r.Row hlt hv, ?_⟩
    · intro an
      simp only [QRow.At, hcol]
    · intro l an
      obtain ⟨m2, hm2⟩ := setCell_isSome h.qletters c r.Row l hlt hv
      refine ⟨({ h with annots := an, qletters := m2 }, r.Align), ?_, rfl, rfl, ?_, ?_⟩
      · simp only [QRow.Set, hcol, hm2]
      · exact cell_setCell_same _ _ c r.Row l hm2
      · intro d q hdq
        simp only []
        rw [cell_setCell _ _ c d r.Row q l hm2, if_neg]
        intro hand
        rcases hdq with hd | hq
        · exact hd hand.1
        · exact hq hand.2

/-- C15: `At` and `Set` of a row view do not translate the position with the
offset of the row that `Start()` and `End()` report.  In the alignment of three
columns `AC`, `GT`, `AA` at offset 0, after `Row(0).SetOffset(1)` the view of
row 0 reports `Start() = 1` and `End() = 4`.  `At(1)` returns `G`, the symbol of
column 1, and not `A`, the symbol of column `1 - Start() = 0`; `Set(1, t)` writes
column 1 and leaves column 0 as it was; and `At(3)` and `Set(3, t)` fail although
`3 < End()`.  The quality view does the same. -/
theorem row_access_ignores_row_offset :
    (Row.SetOffset squareState (squareSeq.Row 0) 1 = some (offsetState, squareSeq) ∧
      Row.Start offsetState (squareSeq.Row 0) = some 1 ∧
      Row.End offsetState (squareSeq.Row 0) = some 4 ∧
      Row.At 0 offsetState (squareSeq.Row 0) 1 = some { L := 71, Q := 0 } ∧
      offsetState.letters.cell { addr := 0, len := 2 } 0 = some 65 ∧
      (∃ st, Row.Set offsetState (squareSeq.Row 0) 1 { L := 116, Q := 0 } = some st ∧
        st.1.letters.cell { addr := 0, len := 2 } 0 = some 65 ∧
        st.1.letters.cell { addr := 1, len := 2 } 0 = some 116) ∧
      Row.At 0 offsetState (squareSeq.Row 0) 3 = none ∧
      Row.Set offsetState (squareSeq.Row 0) 3 { L := 116, Q := 0 } = none) ∧
    (QRow.SetOffset squareState (squareQSeq.Row 0) 1 = some (offsetState, squareQSeq) ∧
      QRow.Start offsetState (squareQSeq.Row 0) = some 1 ∧
      QRow.End offsetState (squareQSeq.Row 0) = some 4 ∧
      QRow.At offsetState (squareQSeq.Row 0) 1 = some { L := 71, Q := 40 } ∧
      offsetState.qletters.cell { addr := 0, len := 2 } 0 = some { L := 65, Q := 40 } ∧
      (∃ st, QRow.Set offsetState (squareQSeq.Row 0) 1 { L := 116, Q := 7 } = some st ∧
        st.1.qletters.cell { addr := 0, len := 2 } 0 = some { L := 65, Q := 40 } ∧
        st.1.qletters.cell { addr := 1, len := 2 } 0 = some { L := 116, Q := 7 }) ∧
      QRow.At offsetState (squareQSeq.Row 0) 3 = none ∧
      QRow.Set offsetState (squareQSeq.Row 0) 3 { L := 116, Q := 7 } = none) :=
  ⟨⟨rfl, rfl, rfl, rfl, rfl, ⟨_, rfl, rfl, rfl⟩, rfl, rfl⟩,
   ⟨rfl, rfl, rfl, rfl, rfl, ⟨_, rfl, rfl, rfl⟩, rfl, rfl⟩⟩

/-- The frame of `At` and `Set`, at a concrete input: row 0 of the alignment of
three columns and two rows, at position 1, with the offset of the row set to 1. -/
theorem row_access_uses_alignment_frame_witness :
    ((∀ an, Row.At 0 { offsetState with annots := an } (squareSeq.Row 0) 1 =
        (offsetState.letters.cell { addr := 1, len := 2 } 0).map
          (fun x => { L := x, Q := 0 })) ∧
      (∃ x, offsetState.letters.cell { addr := 1, len := 2 } 0 = some x) ∧
      ∀ l an, ∃ st, Row.Set { offsetState with annots := an } (squareSeq.Row 0) 1 l = some st ∧
        st.2 = (squareSeq.Row 0).Align ∧ st.1.annots = an ∧
        st.1.letters.cell { addr := 1, len := 2 } 0 = some l.L ∧
        ∀ (d : Slice) (q : Nat), d.addr ≠ 1 ∨ q ≠ 0 →
          st.1.letters.cell d q = offsetState.letters.cell d q) ∧
    ((∀ an, QRow.At { offsetState with annots := an } (squareQSeq.Row 0) 1 =
        offsetState.qletters.cell { addr := 1, len := 2 } 0) ∧
      (∃ x, offsetState.qletters.cell { addr := 1, len := 2 } 0 = some x) ∧
      ∀ l an, ∃ st, QRow.Set { offsetState with annots := an } (squareQSeq.Row 0) 1 l = some st ∧
        st.2 = (squareQSeq.Row 0).Align ∧ st.1.annots = an ∧
        st.1.qletters.cell { addr := 1, len := 2 } 0 = some l ∧
        ∀ (d : Slice) (q : Nat), d.addr ≠ 1 ∨ q ≠ 0 →
          st.1.qletters.cell d q = offsetState.qletters.cell d q) :=
  ⟨(row_access_uses_alignment_frame 0 offsetState 1 1 { addr := 1, len := 2 } 0).1
      (squareSeq.Row 0) rfl rfl rfl (by decide) (by unfold Mem.valid; decide),
   (row_access_uses_alignment_frame 0 offsetState 1 1 { addr := 1, len := 2 } 0).2
      (squareQSeq.Row 0) rfl rfl rfl (by decide) (by unfold Mem.valid; decide)⟩

/-! ## Writes in place -/

theorem shape_setCell {α : Type} (m m2 : Mem α) (c : Slice) (r : Nat) (v : α)
    (hset : m.setCell c r v = some m2) : m2.map List.length = m.map List.length := by
  obtain ⟨_, hlt⟩ := setCell_pos m m2 c r v hset
  unfold Mem.setCell at hset
  split at hset
  · have hm2 := (Option.some.inj hset).symm
    subst hm2
    apply List.ext_getElem?
    intro k
    simp only [List.getElem?_map, List.getElem?_set]
    by_cases hk : c.addr = k
    · subst hk
      simp [hlt, Mem.buf]
    · simp [hk]
  · exact Option.noConfusion hset

theorem buf_length_of_shape {α : Type} (m m0 : Mem α)
    (hs : m.map List.length = m0.map List.length) (a : Nat) :
    (m.buf a).length = (m0.buf a).length := by
  have h1 : (m.map List.length)[a]? = (m0.map List.length)[a]? := by rw [hs]
  simp only [List.getElem?_map] at h1
  unfold Mem.buf
  cases hm : m[a]? <;> cases hm0 : m0[a]? <;> simp [hm, hm0] at h1 ⊢
  exact h1

theorem valid_of_shape {α : Type} (m m0 : Mem α) (hs : m.map List.length = m0.map List.length)
    (c : Slice) (hv : m0.valid c) : m.valid c := by
  unfold Mem.valid at hv ⊢
  rw [buf_length_of_shape m m0 hs]
  exact hv

theorem mapCell_spec {α : Type} (f : α → α) (ci : Slice) (r : Nat) (m : Mem α)
    (hi : r < ci.len) (hvi : m.valid ci) :
    ∃ m2, mapCell f ci r m = some m2 ∧ m2.map List.length = m.map List.length ∧
      ∀ (d : Slice) (q : Nat), m2.cell d q =
        if d.addr = ci.addr ∧ q = r ∧ q < d.len then (m.cell ci q).map f else m.cell d q := by
  obtain ⟨y, hy⟩ := cell_isSome m ci r hi hvi
  obtain ⟨m2, hm2⟩ := setCell_isSome m ci r (f y) hi hvi
  refine ⟨m2, by simp only [mapCell, hy, hm2], shape_setCell m m2 ci r (f y) hm2, ?_⟩
  intro d q
  rw [cell_setCell m m2 ci d r q (f y) hm2]
  by_cases ha : d.addr = ci.addr ∧ q = r
  · obtain ⟨ha1, ha2⟩ := ha
    subst ha2
    by_cases hq : q < d.len
    · simp [ha1, hq, hy]
    · simp [ha1, hq, Mem.cell]
  · rw [if_neg ha, if_neg (fun h => ha ⟨h.1, h.2.1⟩)]

theorem swapCells_spec {α : Type} (f : α → α) (ci cj : Slice) (r : Nat) (m : Mem α)
    (hne : ci.addr ≠ cj.addr) (hi : r < ci.len) (hj : r < cj.len) (hvi : m.valid ci)
    (hvj : m.valid cj) :
    ∃ m2, swapCells f ci cj r m = some m2 ∧ m2.map List.length = m.map List.length ∧
      ∀ (d : Slice) (q : Nat), m2.cell d q =
        if d.addr = ci.addr ∧ q = r ∧ q < d.len then (m.cell cj q).map f
        else if d.addr = cj.addr ∧ q = r ∧ q < d.len then (m.cell ci q).map f
        else m.cell d q := by
  obtain ⟨x, hx⟩ := cell_isSome m cj r hj hvj
  obtain ⟨y, hy⟩ := cell_isSome m ci r hi hvi
  obtain ⟨m1, hm1⟩ := setCell_isSome m ci r (f x) hi hvi
  have hs1 := shape_setCell m m1 ci r (f x) hm1
  obtain ⟨m2, hm2⟩ := setCell_isSome m1 cj r (f y) hj (valid_of_shape m1 m hs1 cj hvj)
  have hs2 := shape_setCell m1 m2 cj r (f y) hm2
  refine ⟨m2, by simp only [swapCells, hx, hy, hm1, hm2], hs2.trans hs1, ?_⟩
  intro d q
  rw [cell_setCell m1 m2 cj d r q (f y) hm2, cell_setCell m m1 ci d r q (f x) hm1]
  by_cases hq : q = r
  · subst hq
    by_cases hql : q < d.len
    · by_cases ha : d.addr = ci.addr
      · have hb : d.addr ≠ cj.addr := fun h => hne (ha.symm.trans h)
        simp [ha, hql, hx, hne]
      · by_cases hb : d.addr = cj.addr
        · simp [hb, hql, hy, Ne.symm hne]
        · simp [ha, hb]
    · have hn : m.cell d q = none := by simp [Mem.cell, hql]
      simp [hql, hn]
  · simp [hq]

theorem swapLQ_spec (comp : Letter → Letter) (ci cj : Slice) (r : Nat) (m : Mem QLetter)
    (hne : ci.addr ≠ cj.addr) (hi : r < ci.len) (hj : r < cj.len) (hvi : m.valid ci)
    (hvj : m.valid cj) :
    ∃ m2, swapLQ comp ci cj r m = some m2 ∧ m2.map List.length = m.map List.length ∧
      ∀ (d : Slice) (q : Nat), m2.cell d q =
        if d.addr = ci.addr ∧ q = r ∧ q < d.len then
          (m.cell cj q).map (fun l => { L := comp l.L, Q := l.Q })
        else if d.addr = cj.addr ∧ q = r ∧ q < d.len then
          (m.cell ci q).map (fun l => { L := comp l.L, Q := l.Q })
        else m.cell d q := by
  obtain ⟨x, hx⟩ := cell_isSome m cj r hj hvj
  obtain ⟨y, hy⟩ := cell_isSome m ci r hi hvi
  obtain ⟨m1, hm1, hs1, hc1⟩ := mapCell_spec (fun q => { q with L := comp x.L }) ci r m hi hvi
  have hvj1 := valid_of_shape m1 m hs1 cj hvj
  have hvi1 := valid_of_shape m1 m hs1 ci hvi
  obtain ⟨m2, hm2, hs2, hc2⟩ := mapCell_spec (fun q => { q with L := comp y.L }) cj r m1 hj hvj1
  have hvj2 := valid_of_shape m2 m1 hs2 cj hvj1
  have hvi2 := valid_of_shape m2 m1 hs2 ci hvi1
  have hx2 : m2.cell cj r = some { L := comp y.L, Q := x.Q } := by
    simp [hc2, hc1, hj, Ne.symm hne, hx]
  have hy2 : m2.cell ci r = some { L := comp x.L, Q := y.Q } := by
    simp [hc2, hc1, hi, hne, hy]
  obtain ⟨m3, hm3, hs3, hc3⟩ := mapCell_spec (fun q : QLetter => { q with Q := x.Q }) ci r m2 hi hvi2
  have hvj3 := valid_of_shape m3 m2 hs3 cj hvj2
  obtain ⟨m4, hm4, hs4, hc4⟩ := mapCell_spec (fun q : QLetter => { q with Q := y.Q }) cj r m3 hj hvj3
  refine ⟨m4, ?_, ((hs4.trans hs3).trans hs2).trans hs1, ?_⟩
  · simp only [swapLQ, swapL, swapQ, hx, hy, hm1, hm2, hx2, hy2, hm3, hm4]
  · intro d q
    by_cases hq : q = r
    · subst hq
      by_cases hql : q < d.len
      · by_cases ha : d.addr = ci.addr
        · have h3 : m3.cell ci q = some { L := comp x.L, Q := x.Q } := by
            simp [hc3, hi, hy2]
          have h4 : m4.cell d q = m3.cell d q := by
            rw [hc4, if_neg]
            intro hh
            exact hne (ha.symm.trans hh.1)
          have h3d : m3.cell d q = m3.cell ci q := by
            simp [Mem.cell, hql, hi, ha]
          rw [h4, h3d, h3]
          simp [ha, hql, hx]
        · by_cases hb : d.addr = cj.addr
          · have h3 : m3.cell cj q = some { L := comp y.L, Q := x.Q } := by
              simp [hc3, Ne.symm hne, hx2]
            have h4 : m4.cell cj q = some { L := comp y.L, Q := y.Q } := by
              simp [hc4, hj, h3]
            have h4d : m4.cell d q = m4.cell cj q := by
              simp [Mem.cell, hql, hj, hb]
            rw [h4d, h4]
            simp [hb, hql, Ne.symm hne, hy]
          · simp [hc4, hc3, hc2, hc1, ha, hb]
      · have hn : ∀ mm : Mem QLetter, mm.cell d q = none := by
          intro mm
          simp [Mem.cell, hql]
        simp [hql, hn]
    · simp [hc4, hc3, hc2, hc1, hq]

/-! ## Mirroring loops -/

theorem forRows_pair {α : Type} (f : α → α) (ci cj : Slice) (n : Nat)
    (body : Nat → Mem α → Option (Mem α)) (m0 : Mem α)
    (hstep : ∀ (r : Nat) (m : Mem α), r < n → m.map List.length = m0.map List.length →
      ∃ m2, body r m = some m2 ∧ m2.map List.length = m.map List.length ∧
        ∀ (d : Slice) (q : Nat), m2.cell d q =
          if d.addr = ci.addr ∧ q = r ∧ q < d.len then (m.cell cj q).map f
          else if d.addr = cj.addr ∧ q = r ∧ q < d.len then (m.cell ci q).map f
          else m.cell d q) :
    ∀ (k r : Nat) (m : Mem α), r + k = n → m.map List.length = m0.map List.length →
      ∃ m2, forRows body k r m = some m2 ∧ m2.map List.length = m.map List.length ∧
        ∀ (d : Slice) (q : Nat), m2.cell d q =
          if d.addr = ci.addr ∧ (r ≤ q ∧ q < n) ∧ q < d.len then (m.cell cj q).map f
          else if d.addr = cj.addr ∧ (r ≤ q ∧ q < n) ∧ q < d.len then (m.cell ci q).map f
          else m.cell d q := by
  intro k
  induction k with
  | zero =>
    intro r m hr hs
    refine ⟨m, rfl, rfl, ?_⟩
    intro d q
    have h0 : ¬ (r ≤ q ∧ q < n) := by omega
    simp [h0]
  | succ k ih =>
    intro r m hr hs
    obtain ⟨m1, hb1, hs1, hc1⟩ := hstep r m (by omega) hs
    obtain ⟨m2, hb2, hs2, hc2⟩ := ih (r + 1) m1 (by omega) (hs1.trans hs)
    refine ⟨m2, ?_, hs2.trans hs1, ?_⟩
    · simp only [forRows, hb1]
      exact hb2
    · intro d q
      rw [hc2]
      simp only [hc1]
      by_cases hq : q = r
      · subst hq
        have h1 : ¬ (q + 1 ≤ q) := by omega
        have h2 : q < n := by omega
        simp [h1, h2]
      · have h1 : (r + 1 ≤ q) ↔ (r ≤ q) := by omega
        simp [hq, h1]

theorem forRows_map {α : Type} (f : α → α) (ci : Slice) (n : Nat)
    (body : Nat → Mem α → Option (Mem α)) (m0 : Mem α)
    (hstep : ∀ (r : Nat) (m : Mem α), r < n → m.map List.length = m0.map List.length →
      ∃ m2, body r m = some m2 ∧ m2.map List.length = m.map List.length ∧
        ∀ (d : Slice) (q : Nat), m2.cell d q =
          if d.addr = ci.addr ∧ q = r ∧ q < d.len then (m.cell ci q).map f else m.cell d q) :
    ∀ (k r : Nat) (m : Mem α), r + k = n → m.map List.length = m0.map List.length →
      ∃ m2, forRows body k r m = some m2 ∧ m2.map List.length = m.map List.length ∧
        ∀ (d : Slice) (q : Nat), m2.cell d q =
          if d.addr = ci.addr ∧ (r ≤ q ∧ q < n) ∧ q < d.len then (m.cell ci q).map f
          else m.cell d q := by
  intro k
  induction k with
  | zero =>
    intro r m hr hs
    refine ⟨m, rfl, rfl, ?_⟩
    intro d q
    have h0 : ¬ (r ≤ q ∧ q < n) := by omega
    simp [h0]
  | succ k ih =>
    intro r m hr hs
    obtain ⟨m1, hb1, hs1, hc1⟩ := hstep r m (by omega) hs
    obtain ⟨m2, hb2, hs2, hc2⟩ := ih (r + 1) m1 (by omega) (hs1.trans hs)
    refine ⟨m2, ?_, hs2.trans hs1, ?_⟩
    · simp only [forRows, hb1]
      exact hb2
    · intro d q
      rw [hc2]
      simp only [hc1]
      by_cases hq : q = r
      · subst hq
        have h1 : ¬ (q + 1 ≤ q) := by omega
        have h2 : q < n := by omega
        simp [h1, h2]
      · have h1 : (r + 1 ≤ q) ↔ (r ≤ q) := by omega
        simp [hq, h1]

theorem forEnds_mirror {α : Type} (f : α → α) (T : Nat → Prop) [DecidablePred T]
    (rs : List Slice) (m0 : Mem α) (body : Nat → Nat → Mem α → Option (Mem α))
    (hsep : m0.separate rs) (hT : ∀ c ∈ rs, ∀ q, T q → q < c.len)
    (hbody : ∀ (i j : Nat) (ci cj : Slice) (m : Mem α), i < j → rs[i]? = some ci →
      rs[j]? = some cj → m.map List.length = m0.map List.length →
      ∃ m2, body i j m = some m2 ∧ m2.map List.length = m.map List.length ∧
        ∀ (d : Slice) (q : Nat), m2.cell d q =
          if d.addr = ci.addr ∧ T q ∧ q < d.len then (m.cell cj q).map f
          else if d.addr = cj.addr ∧ T q ∧ q < d.len then (m.cell ci q).map f
          else m.cell d q) :
    ∀ (fuel i : Nat) (m : Mem α), 2 * i ≤ rs.length → rs.length ≤ 2 * i + 2 * fuel + 1 →
      m.map List.length = m0.map List.length →
      (∀ (k : Nat) (c : Slice), rs[k]? = some c → ∀ q : Nat, m.cell c q =
        if T q ∧ (k < i ∨ rs.length ≤ k + i) then
          ((rs[rs.length - 1 - k]?).bind (fun c1 => m0.cell c1 q)).map f
        else m0.cell c q) →
      ∃ (m1 : Mem α) (i1 : Nat), forEnds body fuel i ((rs.length : Int) - 1 - i) m =
          some (m1, i1, (rs.length : Int) - 1 - (i1 : Int)) ∧
        (rs.length = 2 * i1 ∨ rs.length = 2 * i1 + 1) ∧
        m1.map List.length = m0.map List.length ∧
        ∀ (k : Nat) (c : Slice), rs[k]? = some c → ∀ q : Nat, m1.cell c q =
          if T q ∧ (k < i1 ∨ rs.length ≤ k + i1) then
            ((rs[rs.length - 1 - k]?).bind (fun c1 => m0.cell c1 q)).map f
          else m0.cell c q := by
  intro fuel
  induction fuel with
  | zero =>
    intro i m hi hfuel hs hinv
    have hstop : ¬ ((i : Int) < (rs.length : Int) - 1 - i) := by omega
    refine ⟨m, i, ?_, by omega, hs, hinv⟩
    unfold forEnds
    rw [if_neg hstop]
  | succ fuel ih =>
    intro i m hi hfuel hs hinv
    by_cases hgo : (i : Int) < (rs.length : Int) - 1 - i
    · have hj : ((rs.length : Int) - 1 - i).toNat = rs.length - 1 - i := by omega
      have hil : i < rs.length := by omega
      have hjl : rs.length - 1 - i < rs.length := by omega
      have hci : rs[i]? = some rs[i] := List.getElem?_eq_getElem hil
      have hcj : rs[rs.length - 1 - i]? = some rs[rs.length - 1 - i] :=
        List.getElem?_eq_getElem hjl
      obtain ⟨m2, hb, hs2, hc2⟩ := hbody i (rs.length - 1 - i) _ _ m (by omega) hci hcj hs
      have hinv2 : ∀ (k : Nat) (c : Slice), rs[k]? = some c → ∀ q : Nat, m2.cell c q =
          if T q ∧ (k < i + 1 ∨ rs.length ≤ k + (i + 1)) then
            ((rs[rs.length - 1 - k]?).bind (fun c1 => m0.cell c1 q)).map f
          else m0.cell c q := by
        intro k c hk q
        have e1 := hinv _ _ hcj q
        have e2 := hinv _ _ hci q
        have e3 := hinv k c hk q
        have hkl : k < rs.length := (List.getElem?_eq_some_iff.mp hk).1
        rw [hc2, e1, e2, e3]
        by_cases hTq : T q
        · have hql : q < c.len := hT c (List.getElem?_mem hk) q hTq
          by_cases hki : k = i
          · subst hki
            have hc : c = rs[k] := by
              rw [hci] at hk
              exact (Option.some.inj hk).symm
            subst hc
            have a1 : ¬ (rs.length - 1 - k < k ∨ rs.length ≤ rs.length - 1 - k + k) := by omega
            simp [hTq, hql, a1, hcj]
          · have hne1 : c.addr ≠ rs[i].addr := fun h =>
              hki (separate_inj m0 rs hsep k i c _ hk hci h)
            by_cases hkj : k = rs.length - 1 - i
            · subst hkj
              have hc : c = rs[rs.length - 1 - i] := by
                rw [hcj] at hk
                exact (Option.some.inj hk).symm
              subst hc
              have a1 : ¬ rs.length ≤ i + i := by omega
              have a2 : rs.length - 1 - i < i + 1 ∨ rs.length ≤ rs.length - 1 - i + (i + 1) := by
                omega
              have a3 : rs.length - 1 - (rs.length - 1 - i) = i := by omega
              simp [hTq, hql, hne1, a1, a2, a3, hci]
            · have hne2 : c.addr ≠ rs[rs.length - 1 - i].addr := fun h =>
                hkj (separate_inj m0 rs hsep k _ c _ hk hcj h)
              have a1 : (k < i + 1 ∨ rs.length ≤ k + (i + 1)) ↔ (k < i ∨ rs.length ≤ k + i) := by
                omega
              simp [hne1, hne2, a1]
        · simp [hTq]
      obtain ⟨m1, i1, hrun, hpar, hs1, hinv1⟩ :=
        ih (i + 1) m2 (by omega) (by omega) (hs2.trans hs) hinv2
      refine ⟨m1, i1, ?_, hpar, hs1, hinv1⟩
      unfold forEnds
      rw [if_pos hgo]
      simp only [hj, hb]
      have hcast : (rs.length : Int) - 1 - (i : Int) - 1 =
          (rs.length : Int) - 1 - ((i + 1 : Nat) : Int) := by omega
      rw [hcast]
      exact hrun
    · refine ⟨m, i, ?_, by omega, hs, hinv⟩
      unfold forEnds
      rw [if_neg hgo]

theorem forEnds_mirror_start {α : Type} (f : α → α) (T : Nat → Prop) [DecidablePred T]
    (rs : List Slice) (m0 : Mem α) (body : Nat → Nat → Mem α → Option (Mem α))
    (hsep : m0.separate rs) (hT : ∀ c ∈ rs, ∀ q, T q → q < c.len)
    (hbody : ∀ (i j : Nat) (ci cj : Slice) (m : Mem α), i < j → rs[i]? = some ci →
      rs[j]? = some cj → m.map List.length = m0.map List.length →
      ∃ m2, body i j m = some m2 ∧ m2.map List.length = m.map List.length ∧
        ∀ (d : Slice) (q : Nat), m2.cell d q =
          if d.addr = ci.addr ∧ T q ∧ q < d.len then (m.cell cj q).map f
          else if d.addr = cj.addr ∧ T q ∧ q < d.len then (m.cell ci q).map f
          else m.cell d q) :
    ∃ (m1 : Mem α) (i1 : Nat), forEnds body rs.length 0 ((rs.length : Int) - 1) m0 =
        some (m1, i1, (rs.length : Int) - 1 - (i1 : Int)) ∧
      (rs.length = 2 * i1 ∨ rs.length = 2 * i1 + 1) ∧
      m1.map List.length = m0.map List.length ∧
      ∀ (k : Nat) (c : Slice), rs[k]? = some c → ∀ q : Nat, m1.cell c q =
        if T q ∧ (k < i1 ∨ rs.length ≤ k + i1) then
          ((rs[rs.length - 1 - k]?).bind (fun c1 => m0.cell c1 q)).map f
        else m0.cell c q := by
  have h := forEnds_mirror f T rs m0 body hsep hT hbody rs.length 0 m0 (by omega) (by omega) rfl
    (by
      intro k c hk q
      have hkl : k < rs.length := (List.getElem?_eq_some_iff.mp hk).1
      have a1 : ¬ (k < 0 ∨ rs.length ≤ k + 0) := by omega
      rw [if_neg (fun hh => a1 hh.2)])
  simpa using h

theorem mirror_with_mid {α : Type} (f : α → α) (T : Nat → Prop) [DecidablePred T]
    (rs : List Slice) (m0 : Mem α) (body : Nat → Nat → Mem α → Option (Mem α))
    (midc : Slice → Mem α → Option (Mem α))
    (hsep : m0.separate rs) (hT : ∀ c ∈ rs, ∀ q, T q → q < c.len)
    (hbody : ∀ (i j : Nat) (ci cj : Slice) (m : Mem α), i < j → rs[i]? = some ci →
      rs[j]? = some cj → m.map List.length = m0.map List.length →
      ∃ m2, body i j m = some m2 ∧ m2.map List.length = m.map List.length ∧
        ∀ (d : Slice) (q : Nat), m2.cell d q =
          if d.addr = ci.addr ∧ T q ∧ q < d.len then (m.cell cj q).map f
          else if d.addr = cj.addr ∧ T q ∧ q < d.len then (m.cell ci q).map f
          else m.cell d q)
    (hmid : ∀ (ci : Slice) (m : Mem α), ci ∈ rs → m.map List.length = m0.map List.length →
      ∃ m2, midc ci m = some m2 ∧ m2.map List.length = m.map List.length ∧
        ∀ (d : Slice) (q : Nat), m2.cell d q =
          if d.addr = ci.addr ∧ T q ∧ q < d.len then (m.cell ci q).map f else m.cell d q) :
    ∃ (m1 : Mem α) (i1 : Nat) (j1 : Int) (m2 : Mem α),
      forEnds body rs.length 0 ((rs.length : Int) - 1) m0 = some (m1, i1, j1) ∧
      (if (i1 : Int) = j1 then (rs[i1]?).bind (fun ci => midc ci m1) else some m1) = some m2 ∧
      m2.map List.length = m0.map List.length ∧
      ∀ (k : Nat) (c : Slice), rs[k]? = some c → ∀ q : Nat, m2.cell c q =
        if T q then ((rs[rs.length - 1 - k]?).bind (fun c1 => m0.cell c1 q)).map f
        else m0.cell c q := by
  obtain ⟨m1, i1, hrun, hpar, hs1, hinv⟩ := forEnds_mirror_start f T rs m0 body hsep hT hbody
  rcases hpar with hpar | hpar
  · refine ⟨m1, i1, _, m1, hrun, ?_, hs1, ?_⟩
    · rw [if_neg (by omega)]
    · intro k c hk q
      have hkl : k < rs.length := (List.getElem?_eq_some_iff.mp hk).1
      rw [hinv k c hk q]
      have a1 : k < i1 ∨ rs.length ≤ k + i1 := by omega
      simp [a1]
  · have hil : i1 < rs.length := by omega
    have hci : rs[i1]? = some rs[i1] := List.getElem?_eq_getElem hil
    obtain ⟨m2, hm2, hs2, hc2⟩ := hmid rs[i1] m1 (List.getElem?_mem hci) hs1
    refine ⟨m1, i1, _, m2, hrun, ?_, hs2.trans hs1, ?_⟩
    · rw [if_pos (by omega), hci]
      exact hm2
    · intro k c hk q
      have hkl : k < rs.length := (List.getElem?_eq_some_iff.mp hk).1
      rw [hc2, hinv k c hk q, hinv i1 _ hci q]
      by_cases hki : k = i1
      · subst hki
        have hc : c = rs[k] := by
          rw [hci] at hk
          exact (Option.some.inj hk).symm
        subst hc
        have a1 : ¬ rs.length ≤ k + k := by omega
        have a2 : rs.length - 1 - k = k := by omega
        by_cases hTq : T q
        · have hql := hT _ (List.getElem?_mem hci) q hTq
          simp [hTq, hql, a1, a2, hci]
        · simp [hTq]
      · have hne : c.addr ≠ rs[i1].addr := fun h =>
          hki (separate_inj m0 rs hsep k i1 c _ hk hci h)
        have a1 : k < i1 ∨ rs.length ≤ k + i1 := by omega
        simp [hne, a1]

theorem mirror_without_mid {α : Type} (T : Nat → Prop) [DecidablePred T]
    (rs : List Slice) (m0 : Mem α) (body : Nat → Nat → Mem α → Option (Mem α))
    (hsep : m0.separate rs) (hT : ∀ c ∈ rs, ∀ q, T q → q < c.len)
    (hbody : ∀ (i j : Nat) (ci cj : Slice) (m : Mem α), i < j → rs[i]? = some ci →
      rs[j]? = some cj → m.map List.length = m0.map List.length →
      ∃ m2, body i j m = some m2 ∧ m2.map List.length = m.map List.length ∧
        ∀ (d : Slice) (q : Nat), m2.cell d q =
          if d.addr = ci.addr ∧ T q ∧ q < d.len then (m.cell cj q).map (fun x => x)
          else if d.addr = cj.addr ∧ T q ∧ q < d.len then (m.cell ci q).map (fun x => x)
          else m.cell d q) :
    ∃ (m1 : Mem α) (i1 : Nat) (j1 : Int),
      forEnds body rs.length 0 ((rs.length : Int) - 1) m0 = some (m1, i1, j1) ∧
      m1.map List.length = m0.map List.length ∧
      ∀ (k : Nat) (c : Slice), rs[k]? = some c → ∀ q : Nat, m1.cell c q =
        if T q then (rs[rs.length - 1 - k]?).bind (fun c1 => m0.cell c1 q)
        else m0.cell c q := by
  obtain ⟨m1, i1, hrun, hpar, hs1, hinv⟩ :=
    forEnds_mirror_start (fun x => x) T rs m0 body hsep hT hbody
  refine ⟨m1, i1, _, hrun, hs1, ?_⟩
  intro k c hk q
  have hkl : k < rs.length := (List.getElem?_eq_some_iff.mp hk).1
  rw [hinv k c hk q]
  by_cases hTq : T q
  · by_cases hmid : k < i1 ∨ rs.length ≤ k + i1
    · simp [hTq, hmid]
    · have a2 : rs.length - 1 - k = k := by omega
      simp [hTq, hmid, a2, hk]
  · simp [hTq]

theorem wide_mirror {α : Type} (f : α → α) (rs : List Slice) (m0 : Mem α) (n : Nat)
    (body : Nat → Nat → Mem α → Option (Mem α)) (mid : Nat → Int → Mem α → Option (Mem α))
    (swap : Slice → Slice → Nat → Mem α → Option (Mem α))
    (mp : Slice → Nat → Mem α → Option (Mem α))
    (hsep : m0.separate rs) (hn : ∀ c ∈ rs, c.len = n)
    (hswap : ∀ (ci cj : Slice) (r : Nat) (m : Mem α), ci.addr ≠ cj.addr → r < ci.len →
      r < cj.len → m.valid ci → m.valid cj →
      ∃ m2, swap ci cj r m = some m2 ∧ m2.map List.length = m.map List.length ∧
        ∀ (d : Slice) (q : Nat), m2.cell d q =
          if d.addr = ci.addr ∧ q = r ∧ q < d.len then (m.cell cj q).map f
          else if d.addr = cj.addr ∧ q = r ∧ q < d.len then (m.cell ci q).map f
          else m.cell d q)
    (hmp : ∀ (ci : Slice) (r : Nat) (m : Mem α), r < ci.len → m.valid ci →
      ∃ m2, mp ci r m = some m2 ∧ m2.map List.length = m.map List.length ∧
        ∀ (d : Slice) (q : Nat), m2.cell d q =
          if d.addr = ci.addr ∧ q = r ∧ q < d.len then (m.cell ci q).map f else m.cell d q)
    (hbodyeq : ∀ (i j : Nat) (ci cj : Slice) (m : Mem α), rs[i]? = some ci → rs[j]? = some cj →
      body i j m = forRows (swap ci cj) ci.len 0 m)
    (hmideq : ∀ (i : Nat) (j : Int) (m : Mem α), mid i j m =
      if (i : Int) = j then (rs[i]?).bind (fun ci => forRows (mp ci) ci.len 0 m) else some m) :
    ∃ (m1 : Mem α) (i1 : Nat) (j1 : Int) (m2 : Mem α),
      forEnds body rs.length 0 ((rs.length : Int) - 1) m0 = some (m1, i1, j1) ∧
      mid i1 j1 m1 = some m2 ∧
      m2.map List.length = m0.map List.length ∧
      ∀ (k : Nat) (c : Slice), rs[k]? = some c → ∀ q : Nat, q < n →
        m2.cell c q = ((rs[rs.length - 1 - k]?).bind (fun c1 => m0.cell c1 q)).map f := by
  obtain ⟨m1, i1, j1, m2, hrun, hmid, hs2, hfin⟩ :=
    mirror_with_mid f (fun q => q < n) rs m0 body (fun ci m => forRows (mp ci) ci.len 0 m) hsep
      (by
        intro c hc q hq
        rw [hn c hc]
        exact hq)
      (by
        intro i j ci cj m hij hci hcj hs
        have hmi := List.getElem?_mem hci
        have hmj := List.getElem?_mem hcj
        have hne : ci.addr ≠ cj.addr := fun h => by
          have := separate_inj m0 rs hsep i j ci cj hci hcj h
          omega
        rw [hbodyeq i j ci cj m hci hcj]
        obtain ⟨m2, hb, hs2, hc⟩ := forRows_pair f ci cj ci.len (swap ci cj) m0
          (fun r m3 hr hs3 => hswap ci cj r m3 hne hr (by rw [hn cj hmj, ← hn ci hmi]; exact hr)
            (valid_of_shape m3 m0 hs3 ci (hsep.2 ci hmi).2)
            (valid_of_shape m3 m0 hs3 cj (hsep.2 cj hmj).2))
          ci.len 0 m (by omega) hs
        refine ⟨m2, hb, hs2, ?_⟩
        intro d q
        rw [hc d q]
        simp [hn ci hmi])
      (by
        intro ci m hmi hs
        obtain ⟨m2, hb, hs2, hc⟩ := forRows_map f ci ci.len (mp ci) m0
          (fun r m3 hr hs3 => hmp ci r m3 hr (valid_of_shape m3 m0 hs3 ci (hsep.2 ci hmi).2))
          ci.len 0 m (by omega) hs
        refine ⟨m2, hb, hs2, ?_⟩
        intro d q
        rw [hc d q]
        simp [hn ci hmi])
  refine ⟨m1, i1, j1, m2, hrun, ?_, hs2, ?_⟩
  · rw [hmideq]
    exact hmid
  · intro k c hk q hq
    rw [hfin k c hk q, if_pos hq]

theorem row_mirror {α : Type} (f : α → α) (rs : List Slice) (m0 : Mem α) (row : Nat)
    (body : Nat → Nat → Mem α → Option (Mem α)) (mid : Nat → Int → Mem α → Option (Mem α))
    (swap : Slice → Slice → Nat → Mem α → Option (Mem α))
    (mp : Slice → Nat → Mem α → Option (Mem α))
    (hsep : m0.separate rs) (hrow : ∀ c ∈ rs, row < c.len)
    (hswap : ∀ (ci cj : Slice) (r : Nat) (m : Mem α), ci.addr ≠ cj.addr → r < ci.len →
      r < cj.len → m.valid ci → m.valid cj →
      ∃ m2, swap ci cj r m = some m2 ∧ m2.map List.length = m.map List.length ∧
        ∀ (d : Slice) (q : Nat), m2.cell d q =
          if d.addr = ci.addr ∧ q = r ∧ q < d.len then (m.cell cj q).map f
          else if d.addr = cj.addr ∧ q = r ∧ q < d.len then (m.cell ci q).map f
          else m.cell d q)
    (hmp : ∀ (ci : Slice) (r : Nat) (m : Mem α), r < ci.len → m.valid ci →
      ∃ m2, mp ci r m = some m2 ∧ m2.map List.length = m.map List.length ∧
        ∀ (d : Slice) (q : Nat), m2.cell d q =
          if d.addr = ci.addr ∧ q = r ∧ q < d.len then (m.cell ci q).map f else m.cell d q)
    (hbodyeq : ∀ (i j : Nat) (ci cj : Slice) (m : Mem α), rs[i]? = some ci → rs[j]? = some cj →
      body i j m = swap ci cj row m)
    (hmideq : ∀ (i : Nat) (j : Int) (m : Mem α), mid i j m =
      if (i : Int) = j then (rs[i]?).bind (fun ci => mp ci row m) else some m) :
    ∃ (m1 : Mem α) (i1 : Nat) (j1 : Int) (m2 : Mem α),
      forEnds body rs.length 0 ((rs.length : Int) - 1) m0 = some (m1, i1, j1) ∧
      mid i1 j1 m1 = some m2 ∧
      m2.map List.length = m0.map List.length ∧
      ∀ (k : Nat) (c : Slice), rs[k]? = some c → ∀ q : Nat, m2.cell c q =
        if q = row then ((rs[rs.length - 1 - k]?).bind (fun c1 => m0.cell c1 q)).map f
        else m0.cell c q := by
  obtain ⟨m1, i1, j1, m2, hrun, hmid, hs2, hfin⟩ :=
    mirror_with_mid f (fun q => q = row) rs m0 body (fun ci m => mp ci row m) hsep
      (by
        intro c hc q hq
        rw [hq]
        exact hrow c hc)
      (by
        intro i j ci cj m hij hci hcj hs
        have hmi := List.getElem?_mem hci
        have hmj := List.getElem?_mem hcj
        have hne : ci.addr ≠ cj.addr := fun h => by
          have := separate_inj m0 rs hsep i j ci cj hci hcj h
          omega
        rw [hbodyeq i j ci cj m hci hcj]
        exact hswap ci cj row m hne (hrow ci hmi) (hrow cj hmj)
          (valid_of_shape m m0 hs ci (hsep.2 ci hmi).2)
          (valid_of_shape m m0 hs cj (hsep.2 cj hmj).2))
      (by
        intro ci m hmi hs
        exact hmp ci row m (hrow ci hmi) (valid_of_shape m m0 hs ci (hsep.2 ci hmi).2))
  refine ⟨m1, i1, j1, m2, hrun, ?_, hs2, hfin⟩
  rw [hmideq]
  exact hmid

theorem row_mirror_plain {α : Type} (rs : List Slice) (m0 : Mem α) (row : Nat)
    (hsep : m0.separate rs) (hrow : ∀ c ∈ rs, row < c.len) :
    ∃ (m1 : Mem α) (i1 : Nat) (j1 : Int),
      forEnds (rowSwapPair (fun x => x) rs row) rs.length 0 ((rs.length : Int) - 1) m0 =
        some (m1, i1, j1) ∧
      m1.map List.length = m0.map List.length ∧
      ∀ (k : Nat) (c : Slice), rs[k]? = some c → ∀ q : Nat, m1.cell c q =
        if q = row then (rs[rs.length - 1 - k]?).bind (fun c1 => m0.cell c1 q)
        else m0.cell c q := by
  exact mirror_without_mid (fun q => q = row) rs m0 (rowSwapPair (fun x => x) rs row) hsep
    (by
      intro c hc q hq
      rw [hq]
      exact hrow c hc)
    (by
      intro i j ci cj m hij hci hcj hs
      have hmi := List.getElem?_mem hci
      have hmj := List.getElem?_mem hcj
      have hne : ci.addr ≠ cj.addr := fun h => by
        have := separate_inj m0 rs hsep i j ci cj hci hcj h
        omega
      simp only [rowSwapPair, hci, hcj]
      exact swapCells_spec (fun x => x) ci cj row m hne (hrow ci hmi) (hrow cj hmj)
        (valid_of_shape m m0 hs ci (hsep.2 ci hmi).2)
        (valid_of_shape m m0 hs cj (hsep.2 cj hmj).2))

/-! ## Reverse complement -/

theorem separate_of_shape {α : Type} (m m0 : Mem α) (rs : List Slice)
    (hs : m.map List.length = m0.map List.length) (hsep : m0.separate rs) : m.separate rs := by
  refine ⟨hsep.1, ?_⟩
  intro c hc
  have hl : m.length = m0.length := by
    have := congrArg List.length hs
    simpa using this
  exact ⟨by rw [hl]; exact (hsep.2 c hc).1, valid_of_shape m m0 hs c (hsep.2 c hc).2⟩

theorem rectangular_len (cols : List Slice) (hr : rectangular cols) :
    ∃ n, ∀ c ∈ cols, c.len = n := by
  cases cols with
  | nil => exact ⟨0, by simp⟩
  | cons c0 rest => exact ⟨c0.len, fun c hc => hr c hc c0 (List.mem_cons_self _ _)⟩

theorem Seq_RevComp_spec (h : Heap) (s : Seq) (comp : Letter → Letter) (n : Nat)
    (hal : s.Alpha.bind (fun al => al.ComplementTable) = some comp)
    (hsep : h.letters.separate s.Seq) (hn : ∀ c ∈ s.Seq, c.len = n) :
    ∃ m2, Seq.RevComp h s =
        some ({ h with letters := m2 },
              { s with toAnnotation := { s.toAnnotation with Strand := s.Strand.neg } }) ∧
      m2.map List.length = h.letters.map List.length ∧
      ∀ (k : Nat) (c : Slice), s.Seq[k]? = some c → ∀ q : Nat, q < n →
        m2.cell c q =
          ((s.Seq[s.Seq.length - 1 - k]?).bind (fun c1 => h.letters.cell c1 q)).map comp := by
  obtain ⟨m1, i1, j1, m2, hrun, hmid, hs2, hfin⟩ :=
    wide_mirror comp s.Seq h.letters n (Seq.revCompPair comp s.Seq) (Seq.revCompMid comp s.Seq)
      (swapCells comp) (mapCell comp) hsep hn
      (fun ci cj r m => swapCells_spec comp ci cj r m)
      (fun ci r m => mapCell_spec comp ci r m)
      (by
        intro i j ci cj m hci hcj
        simp only [Seq.revCompPair, hci, hcj])
      (by
        intro i j m
        unfold Seq.revCompMid
        split
        · cases s.Seq[i]? <;> rfl
        · rfl)
  refine ⟨m2, ?_, hs2, hfin⟩
  unfold Seq.RevComp
  simp only [hal, hrun, hmid]

theorem QSeq_RevComp_spec (h : Heap) (s : QSeq) (comp : Letter → Letter) (n : Nat)
    (hal : s.Alpha.bind (fun al => al.ComplementTable) = some comp)
    (hsep : h.qletters.separate s.Seq) (hn : ∀ c ∈ s.Seq, c.len = n) :
    ∃ m2, QSeq.RevComp h s =
        some ({ h with qletters := m2 },
              { s with toAnnotation := { s.toAnnotation with Strand := s.Strand.neg } }) ∧
      m2.map List.length = h.qletters.map List.length ∧
      ∀ (k : Nat) (c : Slice), s.Seq[k]? = some c → ∀ q : Nat, q < n →
        m2.cell c q =
          ((s.Seq[s.Seq.length - 1 - k]?).bind (fun c1 => h.qletters.cell c1 q)).map
            (fun l => { L := comp l.L, Q := l.Q }) := by
  obtain ⟨m1, i1, j1, m2, hrun, hmid, hs2, hfin⟩ :=
    wide_mirror (fun l : QLetter => { L := comp l.L, Q := l.Q }) s.Seq h.qletters n
      (QSeq.revCompPair comp s.Seq) (QSeq.revCompMid comp s.Seq)
      (swapLQ comp) (mapCell (fun q => { q with L := comp q.L })) hsep hn
      (fun ci cj r m => swapLQ_spec comp ci cj r m)
      (fun ci r m => mapCell_spec (fun q => { q with L := comp q.L }) ci r m)
      (by
        intro i j ci cj m hci hcj
        simp only [QSeq.revCompPair, hci, hcj])
      (by
        intro i j m
        unfold QSeq.revCompMid
        split
        · cases s.Seq[i]? <;> rfl
        · rfl)
  refine ⟨m2, ?_, hs2, hfin⟩
  unfold QSeq.RevComp
  simp only [hal, hrun, hmid]

theorem mirror_index (cols : List Slice) (k : Nat) (c : Slice) (hk : cols[k]? = some c) :
    ∃ c1, cols[cols.length - 1 - k]? = some c1 ∧
      cols[cols.length - 1 - (cols.length - 1 - k)]? = some c := by
  have hkl : k < cols.length := (List.getElem?_eq_some_iff.mp hk).1
  have hjl : cols.length - 1 - k < cols.length := by omega
  have hback : cols.length - 1 - (cols.length - 1 - k) = k := by omega
  exact ⟨cols[cols.length - 1 - k], List.getElem?_eq_getElem hjl, by rw [hback]; exact hk⟩

/-- C16 (as amended): for every rectangular alignment, plain or quality, whose
columns lie in separate storage and whose alphabet supplies the complement table `comp`,
alignment-wide `RevComp` returns, keeps the column headers and negates the
strand of the alignment; afterwards the symbol at column `i`, row `r` is `comp`
of the original symbol at column `Len() - 1 - i`, row `r`, for every column
(the middle one included) and every row, and in the quality variant the quality
there is the original quality at column `Len() - 1 - i`, row `r`. -/
theorem revComp_mirrors (h : Heap) (al : Alphabet) (comp : Letter → Letter)
    (hcomp : al.ComplementTable = some comp) :
    (∀ s : Seq, s.Alpha = some al → h.letters.separate s.Seq → rectangular s.Seq →
      ∃ st, Seq.RevComp h s = some st ∧ st.2.Seq = s.Seq ∧ st.2.Strand = s.Strand.neg ∧
        ∀ (i : Nat) (c : Slice), s.Seq[i]? = some c → ∀ r : Nat, r < c.len →
          ∃ c1 x, s.Seq[s.Len - 1 - i]? = some c1 ∧ h.letters.cell c1 r = some x ∧
            st.1.letters.cell c r = some (comp x)) ∧
    (∀ s : QSeq, s.Alpha = some al → h.qletters.separate s.Seq → rectangular s.Seq →
      ∃ st, QSeq.RevComp h s = some st ∧ st.2.Seq = s.Seq ∧ st.2.Strand = s.Strand.neg ∧
        ∀ (i : Nat) (c : Slice), s.Seq[i]? = some c → ∀ r : Nat, r < c.len →
          ∃ c1 x, s.Seq[s.Len - 1 - i]? = some c1 ∧ h.qletters.cell c1 r = some x ∧
            st.1.qletters.cell c r = some { L := comp x.L, Q := x.Q }) := by
  constructor
  · intro s hal hsep hrect
    obtain ⟨n, hn⟩ := rectangular_len s.Seq hrect
    obtain ⟨m2, hrun, _, hfin⟩ := Seq_RevComp_spec h s comp n (by simp [hal, hcomp]) hsep hn
    refine ⟨_, hrun, rfl, rfl, ?_⟩
    intro i c hi r hr
    obtain ⟨c1, hc1, _⟩ := mirror_index s.Seq i c hi
    have hm1 := List.getElem?_mem hc1
    obtain ⟨x, hx⟩ := cell_isSome h.letters c1 r
      (by rw [hn c1 hm1, ← hn c (List.getElem?_mem hi)]; exact hr) (hsep.2 c1 hm1).2
    refine ⟨c1, x, hc1, hx, ?_⟩
    simp only []
    rw [hfin i c hi r (by rw [← hn c (List.getElem?_mem hi)]; exact hr), hc1]
    simp [hx]
  · intro s hal hsep hrect
    obtain ⟨n, hn⟩ := rectangular_len s.Seq hrect
    obtain ⟨m2, hrun, _, hfin⟩ := QSeq_RevComp_spec h s comp n (by simp [hal, hcomp]) hsep hn
    refine ⟨_, hrun, rfl, rfl, ?_⟩
    intro i c hi r hr
    obtain ⟨c1, hc1, _⟩ := mirror_index s.Seq i c hi
    have hm1 := List.getElem?_mem hc1
    obtain ⟨x, hx⟩ := cell_isSome h.qletters c1 r
      (by rw [hn c1 hm1, ← hn c (List.getElem?_mem hi)]; exact hr) (hsep.2 c1 hm1).2
    refine ⟨c1, x, hc1, hx, ?_⟩
    simp only []
    rw [hfin i c hi r (by rw [← hn c (List.getElem?_mem hi)]; exact hr), hc1]
    simp [hx]

/-- C16 (as amended), at a concrete input: the alignment of three columns and two rows with
the DNA alphabet, plain and quality. -/
theorem revComp_mirrors_witness :
    (∃ st, Seq.RevComp squareState squareSeq = some st ∧ st.2.Seq = squareSeq.Seq ∧
      st.2.Strand = squareSeq.Strand.neg ∧
      ∀ (i : Nat) (c : Slice), squareSeq.Seq[i]? = some c → ∀ r : Nat, r < c.len →
        ∃ c1 x, squareSeq.Seq[squareSeq.Len - 1 - i]? = some c1 ∧
          squareState.letters.cell c1 r = some x ∧
          st.1.letters.cell c r = some (dnaComplement x)) ∧
    (∃ st, QSeq.RevComp squareState squareQSeq = some st ∧ st.2.Seq = squareQSeq.Seq ∧
      st.2.Strand = squareQSeq.Strand.neg ∧
      ∀ (i : Nat) (c : Slice), squareQSeq.Seq[i]? = some c → ∀ r : Nat, r < c.len →
        ∃ c1 x, squareQSeq.Seq[squareQSeq.Len - 1 - i]? = some c1 ∧
          squareState.qletters.cell c1 r = some x ∧
          st.1.qletters.cell c r = some { L := dnaComplement x.L, Q := x.Q }) :=
  ⟨(revComp_mirrors squareState dna dnaComplement rfl).1 squareSeq rfl squareSeq_separate
      rectangular_squareBlock,
   (revComp_mirrors squareState dna dnaComplement rfl).2 squareQSeq rfl squareQSeq_separate
      rectangular_squareBlock⟩

theorem Strand_neg_neg (x : Strand) : x.neg.neg = x := by
  cases x <;> rfl

theorem contents_eq_of_cells {α : Type} (m m1 : Mem α) (c : Slice)
    (hc : ∀ q : Nat, m1.cell c q = m.cell c q) : m1.contents c = m.contents c := by
  apply List.ext_getElem?
  intro q
  rw [← cell_eq_contents, ← cell_eq_contents]
  exact hc q

theorem mem_of_cell {α : Type} (m : Mem α) (c : Slice) (q : Nat) (x : α)
    (hx : m.cell c q = some x) : x ∈ m.contents c := by
  rw [cell_eq_contents] at hx
  exact List.getElem?_mem hx

theorem twice_mirrored {α : Type} (f : α → α) (rs : List Slice) (m0 m2 m4 : Mem α) (n : Nat)
    (hn : ∀ c ∈ rs, c.len = n)
    (hf : ∀ c ∈ rs, ∀ x ∈ m0.contents c, f (f x) = x)
    (h2 : ∀ (k : Nat) (c : Slice), rs[k]? = some c → ∀ q : Nat, q < n →
      m2.cell c q = ((rs[rs.length - 1 - k]?).bind (fun c1 => m0.cell c1 q)).map f)
    (h4 : ∀ (k : Nat) (c : Slice), rs[k]? = some c → ∀ q : Nat, q < n →
      m4.cell c q = ((rs[rs.length - 1 - k]?).bind (fun c1 => m2.cell c1 q)).map f) :
    m4.matrix rs = m0.matrix rs := by
  unfold Mem.matrix
  apply List.map_congr_left
  intro c hc
  apply contents_eq_of_cells
  intro q
  obtain ⟨k, hk⟩ := List.mem_iff_getElem?.mp hc
  by_cases hq : q < n
  · obtain ⟨c1, hc1, hback⟩ := mirror_index rs k c hk
    rw [h4 k c hk q hq, hc1]
    simp only [Option.some_bind]
    rw [h2 _ c1 hc1 q hq, hback]
    simp only [Option.some_bind]
    cases hx : m0.cell c q with
    | none => rfl
    | some x =>
      simp only [Option.map_some']
      rw [hf c hc x (mem_of_cell m0 c q x hx)]
  · have hlen := hn c hc
    simp [Mem.cell, hlen, hq]

/-- C17 (as amended): for every rectangular alignment, plain or quality, whose
columns lie in separate storage and whose alphabet supplies a complement table `comp` with
`comp (comp x) = x` on the letters present, alignment-wide `RevComp` called
twice returns both times and restores the symbol matrix (with the qualities in
the quality variant) and the alignment value, its strand included. -/
theorem revComp_involution (h : Heap) (al : Alphabet) (comp : Letter → Letter)
    (hcomp : al.ComplementTable = some comp) :
    (∀ s : Seq, s.Alpha = some al → h.letters.separate s.Seq → rectangular s.Seq →
      (∀ c ∈ s.Seq, ∀ x ∈ h.letters.contents c, comp (comp x) = x) →
      ∃ st1 st2, Seq.RevComp h s = some st1 ∧ Seq.RevComp st1.1 st1.2 = some st2 ∧
        st2.1.letters.matrix st2.2.Seq = h.letters.matrix s.Seq ∧ st2.2 = s) ∧
    (∀ s : QSeq, s.Alpha = some al → h.qletters.separate s.Seq → rectangular s.Seq →
      (∀ c ∈ s.Seq, ∀ x ∈ h.qletters.contents c, comp (comp x.L) = x.L) →
      ∃ st1 st2, QSeq.RevComp h s = some st1 ∧ QSeq.RevComp st1.1 st1.2 = some st2 ∧
        st2.1.qletters.matrix st2.2.Seq = h.qletters.matrix s.Seq ∧ st2.2 = s) := by
  constructor
  · intro s hal hsep hrect hinv
    obtain ⟨n, hn⟩ := rectangular_len s.Seq hrect
    have hal1 : s.Alpha.bind (fun al => al.ComplementTable) = some comp := by simp [hal, hcomp]
    obtain ⟨m2, hrun1, hs2, hfin1⟩ := Seq_RevComp_spec h s comp n hal1 hsep hn
    obtain ⟨m4, hrun2, _, hfin2⟩ := Seq_RevComp_spec { h with letters := m2 }
      { s with toAnnotation := { s.toAnnotation with Strand := s.Strand.neg } } comp n hal1
      (separate_of_shape m2 h.letters s.Seq hs2 hsep) hn
    refine ⟨_, _, hrun1, hrun2, ?_, ?_⟩
    · exact twice_mirrored comp s.Seq h.letters m2 m4 n hn hinv hfin1 hfin2
    · simp only [Strand_neg_neg]
  · intro s hal hsep hrect hinv
    obtain ⟨n, hn⟩ := rectangular_len s.Seq hrect
    have hal1 : s.Alpha.bind (fun al => al.ComplementTable) = some comp := by simp [hal, hcomp]
    obtain ⟨m2, hrun1, hs2, hfin1⟩ := QSeq_RevComp_spec h s comp n hal1 hsep hn
    obtain ⟨m4, hrun2, _, hfin2⟩ := QSeq_RevComp_spec { h with qletters := m2 }
      { s with toAnnotation := { s.toAnnotation with Strand := s.Strand.neg } } comp n hal1
      (separate_of_shape m2 h.qletters s.Seq hs2 hsep) hn
    refine ⟨_, _, hrun1, hrun2, ?_, ?_⟩
    · exact twice_mirrored (fun l : QLetter => { L := comp l.L, Q := l.Q }) s.Seq h.qletters
        m2 m4 n hn
        (by
          intro c hc x hx
          simp only [hinv c hc x hx])
        hfin1 hfin2
    · simp only [Strand_neg_neg]

theorem dnaComplement_involutive (x : Letter) : dnaComplement (dnaComplement x) = x := by
  unfold dnaComplement
  split_ifs <;> simp_all

/-- C17 (as amended), at a concrete input: the alignment of three columns and two rows with
the DNA alphabet, plain and quality. -/
theorem revComp_involution_witness :
    (∃ st1 st2, Seq.RevComp squareState squareSeq = some st1 ∧
      Seq.RevComp st1.1 st1.2 = some st2 ∧
      st2.1.letters.matrix st2.2.Seq = squareState.letters.matrix squareSeq.Seq ∧
      st2.2 = squareSeq) ∧
    (∃ st1 st2, QSeq.RevComp squareState squareQSeq = some st1 ∧
      QSeq.RevComp st1.1 st1.2 = some st2 ∧
      st2.1.qletters.matrix st2.2.Seq = squareState.qletters.matrix squareQSeq.Seq ∧
      st2.2 = squareQSeq) :=
  ⟨(revComp_involution squareState dna dnaComplement rfl).1 squareSeq rfl squareSeq_separate
      rectangular_squareBlock (fun _ _ x _ => dnaComplement_involutive x),
   (revComp_involution squareState dna dnaComplement rfl).2 squareQSeq rfl squareQSeq_separate
      rectangular_squareBlock (fun _ _ x _ => dnaComplement_involutive x.L)⟩

/-! ## Reversal of the column order -/

theorem forEnds_swapCols {α : Type} (rs : List α) :
    ∀ (fuel i : Nat) (l : List α), 2 * i ≤ rs.length → rs.length ≤ 2 * i + 2 * fuel + 1 →
      l.length = rs.length →
      (∀ k : Nat, k < rs.length →
        l[k]? = if k < i ∨ rs.length ≤ k + i then rs[rs.length - 1 - k]? else rs[k]?) →
      ∃ (l1 : List α) (i1 : Nat), forEnds swapCols fuel i ((rs.length : Int) - 1 - i) l =
          some (l1, i1, (rs.length : Int) - 1 - (i1 : Int)) ∧
        l1.length = rs.length ∧
        ∀ k : Nat, k < rs.length → l1[k]? = rs[rs.length - 1 - k]? := by
  intro fuel
  induction fuel with
  | zero =>
    intro i l hi hfuel hlen hinv
    have hstop : ¬ ((i : Int) < (rs.length : Int) - 1 - i) := by omega
    refine ⟨l, i, ?_, hlen, ?_⟩
    · unfold forEnds
      rw [if_neg hstop]
    · intro k hk
      rw [hinv k hk]
      by_cases hc : k < i ∨ rs.length ≤ k + i
      · rw [if_pos hc]
      · rw [if_neg hc]
        have hkk : rs.length - 1 - k = k := by omega
        rw [hkk]
  | succ fuel ih =>
    intro i l hi hfuel hlen hinv
    by_cases hgo : (i : Int) < (rs.length : Int) - 1 - i
    · have hj : ((rs.length : Int) - 1 - i).toNat = rs.length - 1 - i := by omega
      have hil : i < l.length := by omega
      have hjl : rs.length - 1 - i < l.length := by omega
      have hxi : l[i]? = some l[i] := List.getElem?_eq_getElem hil
      have hxj : l[rs.length - 1 - i]? = some l[rs.length - 1 - i] := List.getElem?_eq_getElem hjl
      have hb : swapCols i (rs.length - 1 - i) l =
          some ((l.set i l[rs.length - 1 - i]).set (rs.length - 1 - i) l[i]) := by
        simp only [swapCols, hxi, hxj]
      obtain ⟨l1, i1, hrun, hlen1, hfin⟩ :=
        ih (i + 1) ((l.set i l[rs.length - 1 - i]).set (rs.length - 1 - i) l[i]) (by omega)
          (by omega) (by simpa using hlen)
          (by
            intro k hk
            have ei := hinv i (by omega)
            have ej := hinv (rs.length - 1 - i) (by omega)
            rw [hxi] at ei
            rw [hxj] at ej
            have a1 : ¬ (i < i ∨ rs.length ≤ i + i) := by omega
            have a2 : ¬ (rs.length - 1 - i < i ∨ rs.length ≤ rs.length - 1 - i + i) := by omega
            rw [if_neg a1] at ei
            rw [if_neg a2] at ej
            rw [List.getElem?_set]
            by_cases hkj : rs.length - 1 - i = k
            · rw [if_pos hkj, if_pos (by simpa using hjl)]
              subst hkj
              have a3 : rs.length - 1 - i < i + 1 ∨ rs.length ≤ rs.length - 1 - i + (i + 1) := by
                omega
              have a4 : rs.length - 1 - (rs.length - 1 - i) = i := by omega
              rw [if_pos a3, a4]
              exact ei
            · rw [if_neg hkj, List.getElem?_set]
              by_cases hki : i = k
              · rw [if_pos hki, if_pos hil]
                subst hki
                rw [if_pos (by omega)]
                exact ej
              · rw [if_neg hki, hinv k hk]
                by_cases hc : k < i ∨ rs.length ≤ k + i
                · rw [if_pos hc, if_pos (by omega)]
                · rw [if_neg hc, if_neg (by omega)])
      refine ⟨l1, i1, ?_, hlen1, hfin⟩
      unfold forEnds
      rw [if_pos hgo]
      simp only [hj, hb]
      have hcast : (rs.length : Int) - 1 - (i : Int) - 1 =
          (rs.length : Int) - 1 - ((i + 1 : Nat) : Int) := by omega
      rw [hcast]
      exact hrun
    · refine ⟨l, i, ?_, hlen, ?_⟩
      · unfold forEnds
        rw [if_neg hgo]
      · intro k hk
        rw [hinv k hk]
        by_cases hc : k < i ∨ rs.length ≤ k + i
        · rw [if_pos hc]
        · rw [if_neg hc]
          have hkk : rs.length - 1 - k = k := by omega
          rw [hkk]

theorem reverse_columns {α : Type} (rs : List α) :
    ∃ (l1 : List α) (i1 : Nat) (j1 : Int),
      forEnds swapCols rs.length 0 ((rs.length : Int) - 1) rs = some (l1, i1, j1) ∧
      l1.length = rs.length ∧ ∀ k : Nat, k < rs.length → l1[k]? = rs[rs.length - 1 - k]? := by
  obtain ⟨l1, i1, hrun, hlen, hfin⟩ := forEnds_swapCols rs rs.length 0 rs (by omega) (by omega) rfl
    (by
      intro k hk
      rw [if_neg (by omega)])
  exact ⟨l1, i1, _, by simpa using hrun, hlen, hfin⟩

/-- C18: for every alignment, plain or quality, alignment-wide `Reverse` returns
and leaves the heap as it was (no symbol is complemented, no sub-annotation is
touched); afterwards `Len()` is the same, the column at index `i` is the
original column at index `Len() - 1 - i` for every `i < Len()`, the strand of
the alignment is `None`, and the sub-annotations of the rows, their strands
included, are those from before. -/
theorem reverse_mirrors (h : Heap) :
    (∀ s : Seq, ∃ st, Seq.Reverse h s = some st ∧ st.1 = h ∧ st.2.Len = s.Len ∧
      (∀ i : Nat, i < s.Len → st.2.Seq[i]? = s.Seq[s.Len - 1 - i]?) ∧
      st.2.Strand = Strand.None ∧
      ∀ r : Nat, subAnn st.1.annots st.2.SubAnnotations r = subAnn h.annots s.SubAnnotations r) ∧
    (∀ s : QSeq, ∃ st, QSeq.Reverse h s = some st ∧ st.1 = h ∧ st.2.Len = s.Len ∧
      (∀ i : Nat, i < s.Len → st.2.Seq[i]? = s.Seq[s.Len - 1 - i]?) ∧
      st.2.Strand = Strand.None ∧
      ∀ r : Nat, subAnn st.1.annots st.2.SubAnnotations r = subAnn h.annots s.SubAnnotations r) := by
  constructor
  · intro s
    obtain ⟨l1, i1, j1, hrun, hlen, hfin⟩ := reverse_columns s.Seq
    refine ⟨(h, { s with
      Seq := l1, toAnnotation := { s.toAnnotation with Strand := Strand.None } }),
      ?_, rfl, hlen, hfin, rfl, fun _ => rfl⟩
    unfold Seq.Reverse
    simp only [hrun]
  · intro s
    obtain ⟨l1, i1, j1, hrun, hlen, hfin⟩ := reverse_columns s.Seq
    refine ⟨(h, { s with
      Seq := l1, toAnnotation := { s.toAnnotation with Strand := Strand.None } }),
      ?_, rfl, hlen, hfin, rfl, fun _ => rfl⟩
    unfold QSeq.Reverse
    simp only [hrun]

/-- C18, at a concrete input: the alignment of three columns and two rows, plain
and quality; the columns come out in the order 2, 1, 0. -/
theorem reverse_mirrors_witness :
    (∃ st, Seq.Reverse squareState squareSeq = some st ∧ st.1 = squareState ∧
      st.2.Seq[0]? = some { addr := 2, len := 2 } ∧
      st.2.Seq[1]? = some { addr := 1, len := 2 } ∧
      st.2.Seq[2]? = some { addr := 0, len := 2 } ∧ st.2.Strand = Strand.None) ∧
    (∃ st, QSeq.Reverse squareState squareQSeq = some st ∧ st.1 = squareState ∧
      st.2.Seq[0]? = some { addr := 2, len := 2 } ∧
      st.2.Seq[1]? = some { addr := 1, len := 2 } ∧
      st.2.Seq[2]? = some { addr := 0, len := 2 } ∧ st.2.Strand = Strand.None) := by
  obtain ⟨st, hst, hh, _, hcols, hstr, _⟩ := (reverse_mirrors squareState).1 squareSeq
  obtain ⟨qst, hqst, hqh, _, hqcols, hqstr, _⟩ := (reverse_mirrors squareState).2 squareQSeq
  exact ⟨⟨st, hst, hh, hcols 0 (by decide), hcols 1 (by decide), hcols 2 (by decide), hstr⟩,
    ⟨qst, hqst, hqh, hqcols 0 (by decide), hqcols 1 (by decide), hqcols 2 (by decide), hqstr⟩⟩

/-! ## Reversal of one row -/

theorem setSubAnn_spec (g : Strand → Strand) (annots : Mem Annotation) (sl : Slice) (row : Nat)
    (hrow : row < sl.len) (hv : annots.valid sl) :
    ∃ an, setSubAnn (fun x => { x with Strand := g x.Strand }) (some sl) row annots = some an ∧
      rowStrand annots an (some sl) row g := by
  obtain ⟨an, han, _, hc⟩ :=
    mapCell_spec (fun x : Annotation => { x with Strand := g x.Strand }) sl row annots hrow hv
  obtain ⟨a, ha⟩ := cell_isSome annots sl row hrow hv
  refine ⟨an, han, ⟨a, ha, ?_⟩, ?_⟩
  · simp only [subAnn]
    rw [hc sl row]
    simp [hrow, ha]
  · intro q hq
    simp only [subAnn]
    rw [hc sl q]
    simp [hq]

theorem rowMirrored_of_cells {α : Type} (f : α → α) (rs : List Slice) (m0 m2 : Mem α) (row : Nat)
    (hsep : m0.separate rs) (hrow : ∀ c ∈ rs, row < c.len)
    (hfin : ∀ (k : Nat) (c : Slice), rs[k]? = some c → ∀ q : Nat, m2.cell c q =
      if q = row then ((rs[rs.length - 1 - k]?).bind (fun c1 => m0.cell c1 q)).map f
      else m0.cell c q) :
    rowMirrored m0 m2 rs row f := by
  intro i c hi
  obtain ⟨c1, hc1, _⟩ := mirror_index rs i c hi
  have hm1 := List.getElem?_mem hc1
  obtain ⟨x, hx⟩ := cell_isSome m0 c1 row (hrow c1 hm1) (hsep.2 c1 hm1).2
  refine ⟨⟨c1, x, hc1, hx, ?_⟩, ?_⟩
  · rw [hfin i c hi row, if_pos rfl, hc1]
    simp [hx]
  · intro q hq
    rw [hfin i c hi q, if_neg hq]

theorem rowMid_eq {α : Type} (f : α → α) (rs : List Slice) (row : Nat) (i : Nat) (j : Int)
    (m : Mem α) :
    rowMid f rs row i j m =
      if (i : Int) = j then (rs[i]?).bind (fun ci => mapCell f ci row m) else some m := by
  unfold rowMid
  split
  · cases rs[i]? <;> rfl
  · rfl

/-- C19 (as amended): for every alignment, plain or quality, whose columns lie in
separate storage, and every row `row` that every column holds and that has a
sub-annotation, the row-level `RevComp` on the view of the row returns and
changes only that row: afterwards its symbol in column `i` is the complement of
its original symbol in column `Len() - 1 - i` (with the quality of that cell in
the quality variant), the symbols of all other rows are unchanged, the strand of
the row is negated, the other sub-annotations are unchanged and so is the
alignment value, its strand included.  The row-level `Reverse` does the same
without complementing and sets the strand of the row to `None`. -/
theorem row_reversal_frame (h : Heap) (row : Nat) (sl : Slice) (hrow : row < sl.len)
    (hv : h.annots.valid sl) :
    (∀ (s : Seq) (al : Alphabet) (comp : Letter → Letter), s.Alpha = some al →
      al.ComplementTable = some comp → s.SubAnnotations = some sl →
      h.letters.separate s.Seq → (∀ c ∈ s.Seq, row < c.len) →
      ∃ st, Row.RevComp h (s.Row row) = some st ∧ st.2 = s ∧
        rowMirrored h.letters st.1.letters s.Seq row comp ∧
        rowStrand h.annots st.1.annots s.SubAnnotations row Strand.neg) ∧
    (∀ s : Seq, s.SubAnnotations = some sl →
      h.letters.separate s.Seq → (∀ c ∈ s.Seq, row < c.len) →
      ∃ st, Row.Reverse h (s.Row row) = some st ∧ st.2 = s ∧
        rowMirrored h.letters st.1.letters s.Seq row (fun x => x) ∧
        rowStrand h.annots st.1.annots s.SubAnnotations row (fun _ => Strand.None)) ∧
    (∀ (s : QSeq) (al : Alphabet) (comp : Letter → Letter), s.Alpha = some al →
      al.ComplementTable = some comp → s.SubAnnotations = some sl →
      h.qletters.separate s.Seq → (∀ c ∈ s.Seq, row < c.len) →
      ∃ st, QRow.RevComp h (s.Row row) = some st ∧ st.2 = s ∧
        rowMirrored h.qletters st.1.qletters s.Seq row
          (fun l => { L := comp l.L, Q := l.Q }) ∧
        rowStrand h.annots st.1.annots s.SubAnnotations row Strand.neg) ∧
    (∀ s : QSeq, s.SubAnnotations = some sl →
      h.qletters.separate s.Seq → (∀ c ∈ s.Seq, row < c.len) →
      ∃ st, QRow.Reverse h (s.Row row) = some st ∧ st.2 = s ∧
        rowMirrored h.qletters st.1.qletters s.Seq row (fun x => x) ∧
        rowStrand h.annots st.1.annots s.SubAnnotations row (fun _ => Strand.None)) := by
  refine ⟨?_, ?_, ?_, ?_⟩
  · intro s al comp hal hcomp hsub hsep hrows
    obtain ⟨m1, i1, j1, m2, hrun, hmid, _, hfin⟩ :=
      row_mirror comp s.Seq h.letters row (rowSwapPair comp s.Seq row) (rowMid comp s.Seq row)
        (swapCells comp) (mapCell comp) hsep hrows
        (fun ci cj r m => swapCells_spec comp ci cj r m)
        (fun ci r m => mapCell_spec comp ci r m)
        (by
          intro i j ci cj m hci hcj
          simp only [rowSwapPair, hci, hcj])
        (rowMid_eq comp s.Seq row)
    obtain ⟨an, han, hstr⟩ := setSubAnn_spec Strand.neg h.annots sl row hrow hv
    refine ⟨({ h with letters := m2, annots := an }, s), ?_, rfl, ?_, ?_⟩
    · have hal1 : s.Alpha.bind (fun al => al.ComplementTable) = some comp := by
        simp [hal, hcomp]
      simp only [Row.RevComp, Seq.Row, Row.Alphabet, hal1, hrun, hmid, hsub, han]
    · exact rowMirrored_of_cells comp s.Seq h.letters m2 row hsep hrows hfin
    · rw [hsub]
      exact hstr
  · intro s hsub hsep hrows
    obtain ⟨m1, i1, j1, hrun, _, hfin⟩ := row_mirror_plain s.Seq h.letters row hsep hrows
    obtain ⟨an, han, hstr⟩ := setSubAnn_spec (fun _ => Strand.None) h.annots sl row hrow hv
    refine ⟨({ h with letters := m1, annots := an }, s), ?_, rfl, ?_, ?_⟩
    · simp only [Row.Reverse, Seq.Row, hrun, hsub, han]
    · apply rowMirrored_of_cells (fun x => x) s.Seq h.letters m1 row hsep hrows
      intro k c hk q
      rw [hfin k c hk q]
      simp
    · rw [hsub]
      exact hstr
  · intro s al comp hal hcomp hsub hsep hrows
    obtain ⟨m1, i1, j1, m2, hrun, hmid, _, hfin⟩ :=
      row_mirror (fun l : QLetter => { L := comp l.L, Q := l.Q }) s.Seq h.qletters row
        (QRow.revCompPair comp s.Seq row)
        (rowMid (fun q : QLetter => { q with L := comp q.L }) s.Seq row)
        (swapLQ comp) (mapCell (fun q => { q with L := comp q.L })) hsep hrows
        (fun ci cj r m => swapLQ_spec comp ci cj r m)
        (fun ci r m => mapCell_spec (fun q => { q with L := comp q.L }) ci r m)
        (by
          intro i j ci cj m hci hcj
          simp only [QRow.revCompPair, hci, hcj])
        (rowMid_eq (fun q : QLetter => { q with L := comp q.L }) s.Seq row)
    obtain ⟨an, han, hstr⟩ := setSubAnn_spec Strand.neg h.annots sl row hrow hv
    refine ⟨({ h with qletters := m2, annots := an }, s), ?_, rfl, ?_, ?_⟩
    · have hal1 : s.Alpha.bind (fun al => al.ComplementTable) = some comp := by
        simp [hal, hcomp]
      simp only [QRow.RevComp, QSeq.Row, QRow.Alphabet, hal1, hrun, hmid, hsub, han]
    · exact rowMirrored_of_cells _ s.Seq h.qletters m2 row hsep hrows hfin
    · rw [hsub]
      exact hstr
  · intro s hsub hsep hrows
    obtain ⟨m1, i1, j1, hrun, _, hfin⟩ := row_mirror_plain s.Seq h.qletters row hsep hrows
    obtain ⟨an, han, hstr⟩ := setSubAnn_spec (fun _ => Strand.None) h.annots sl row hrow hv
    refine ⟨({ h with qletters := m1, annots := an }, s), ?_, rfl, ?_, ?_⟩
    · simp only [QRow.Reverse, QSeq.Row, hrun, hsub, han]
    · apply rowMirrored_of_cells (fun x => x) s.Seq h.qletters m1 row hsep hrows
      intro k c hk q
      rw [hfin k c hk q]
      simp
    · rw [hsub]
      exact hstr

theorem squareState_sub : squareState.annots.valid { addr := 0, len := 2 } := by
  unfold Mem.valid
  decide

/-- C19 (as amended), at a concrete input: row 1 of the alignment of three columns and two
rows with the DNA alphabet, plain and quality. -/
theorem row_reversal_frame_witness :
    (∃ st, Row.RevComp squareState (squareSeq.Row 1) = some st ∧ st.2 = squareSeq ∧
      rowMirrored squareState.letters st.1.letters squareSeq.Seq 1 dnaComplement ∧
      rowStrand squareState.annots st.1.annots squareSeq.SubAnnotations 1 Strand.neg) ∧
    (∃ st, Row.Reverse squareState (squareSeq.Row 1) = some st ∧ st.2 = squareSeq ∧
      rowMirrored squareState.letters st.1.letters squareSeq.Seq 1 (fun x => x) ∧
      rowStrand squareState.annots st.1.annots squareSeq.SubAnnotations 1
        (fun _ => Strand.None)) ∧
    (∃ st, QRow.RevComp squareState (squareQSeq.Row 1) = some st ∧ st.2 = squareQSeq ∧
      rowMirrored squareState.qletters st.1.qletters squareQSeq.Seq 1
        (fun l => { L := dnaComplement l.L, Q := l.Q }) ∧
      rowStrand squareState.annots st.1.annots squareQSeq.SubAnnotations 1 Strand.neg) ∧
    (∃ st, QRow.Reverse squareState (squareQSeq.Row 1) = some st ∧ st.2 = squareQSeq ∧
      rowMirrored squareState.qletters st.1.qletters squareQSeq.Seq 1 (fun x => x) ∧
      rowStrand squareState.annots st.1.annots squareQSeq.SubAnnotations 1
        (fun _ => Strand.None)) :=
  ⟨(row_reversal_frame squareState 1 { addr := 0, len := 2 } (by decide) squareState_sub).1
      squareSeq dna dnaComplement rfl rfl rfl squareSeq_separate
      (fun c hc => (squareSeq_cols c hc).1),
   (row_reversal_frame squareState 1 { addr := 0, len := 2 } (by decide) squareState_sub).2.1
      squareSeq rfl squareSeq_separate (fun c hc => (squareSeq_cols c hc).1),
   (row_reversal_frame squareState 1 { addr := 0, len := 2 } (by decide) squareState_sub).2.2.1
      squareQSeq dna dnaComplement rfl rfl rfl squareQSeq_separate
      (fun c hc => (squareQSeq_cols c hc).1),
   (row_reversal_frame squareState 1 { addr := 0, len := 2 } (by decide) squareState_sub).2.2.2
      squareQSeq rfl squareQSeq_separate (fun c hc => (squareQSeq_cols c hc).1)⟩

/-! ## Column projection -/

theorem fillColumn_spec {α β : Type} (f : α → β) :
    ∀ (xs : List α) (i : Nat) (out : List β), i + xs.length ≤ out.length →
      ∃ c1, fillColumn f xs i out = some c1 ∧ c1.length = out.length ∧
        ∀ k : Nat, c1[k]? =
          if i ≤ k ∧ k < i + xs.length then (xs[k - i]?).map f else out[k]? := by
  intro xs
  induction xs with
  | nil =>
    intro i out _
    refine ⟨out, rfl, rfl, ?_⟩
    intro k
    rw [if_neg]
    simp
  | cons l rest ih =>
    intro i out hlen
    simp only [List.length_cons] at hlen
    have hi : i < out.length := by omega
    obtain ⟨c1, hrun, hl1, hc1⟩ := ih (i + 1) (out.set i (f l)) (by simp; omega)
    refine ⟨c1, ?_, by simpa using hl1, ?_⟩
    · simp only [fillColumn, hi, if_true]
      exact hrun
    · intro k
      rw [hc1 k]
      by_cases hk : k = i
      · subst hk
        have a1 : ¬ (k + 1 ≤ k ∧ k < k + 1 + rest.length) := by omega
        have a2 : k ≤ k ∧ k < k + (rest.length + 1) := by omega
        rw [if_neg a1, List.length_cons, if_pos a2, List.getElem?_set]
        simp [hi]
      · rw [List.getElem?_set_ne (fun h => hk h.symm), List.length_cons]
        by_cases hin : i ≤ k ∧ k < i + (rest.length + 1)
        · have a1 : i + 1 ≤ k ∧ k < i + 1 + rest.length := by omega
          have a2 : k - i = (k - (i + 1)) + 1 := by omega
          rw [if_pos hin, if_pos a1, a2, List.getElem?_cons_succ]
        · have a1 : ¬ (i + 1 ≤ k ∧ k < i + 1 + rest.length) := by omega
          rw [if_neg hin, if_neg a1]

/-- C20 (as amended): for every quality alignment and every column index `pos`
whose stored column has width `Rows()`, `QSeq.Column(pos)` returns `Rows()`
letters, where the letter at a row is the stored letter when the stored quality
is at least `Threshold` and the answer of the quality filter otherwise, and
`ColumnQL(pos)` returns the stored column itself; an alignment that `NewQSeq`
returns has `Threshold` 2, so a stored quality of 1 is filtered and a stored
quality of 2 is not. -/
theorem column_applies_threshold (e : Option Nat) (h : Heap) :
    (∀ (s : QSeq) (pos : Nat) (col : Slice), s.Seq[pos]? = some col →
      s.Rows e = some col.len → h.qletters.valid col →
      ∃ out, QSeq.Column e h s pos = some out ∧ out.length = col.len ∧
        (∀ (r : Nat) (l : QLetter), h.qletters.cell col r = some l →
          out[r]? = some (if l.Q ≥ s.Threshold then l.L
                        else s.QFilter s.Alpha 255 QLetter.zero)) ∧
        QSeq.ColumnQL s pos = some col) ∧
    (∀ (amb : QFilter) (id : String) (subids : List String) (ql : List Slice)
        (alpha : Option Alphabet) (enc : Encoding) (cons : ConsenseFunc) (h1 : Heap) (q : QSeq),
      NewQSeq amb h id subids ql alpha enc cons = .ok (h1, q) →
      q.Threshold = 2 ∧
      ∀ l : QLetter, (l.Q = 1 → q.filtered l = amb alpha 255 QLetter.zero) ∧
        (l.Q = 2 → q.filtered l = l.L)) := by
  constructor
  · intro s pos col hcol hrows hv
    have hlen := contents_length h.qletters col hv
    obtain ⟨c, hrun, hcl, hcs⟩ := fillColumn_spec s.filtered (h.qletters.contents col) 0
      (List.replicate col.len 0) (by simp [hlen])
    refine ⟨c, ?_, by simpa using hcl, ?_, ?_⟩
    · simp only [QSeq.Column, hrows, colAt_natCast, hcol]
      exact hrun
    · intro r l hl
      rw [cell_eq_contents] at hl
      have hr : r < (h.qletters.contents col).length := (List.getElem?_eq_some_iff.mp hl).1
      rw [hcs r, if_pos ⟨Nat.zero_le _, by omega⟩]
      simp only [Nat.sub_zero, hl, Option.map_some']
      rfl
    · simp only [QSeq.ColumnQL, colAt_natCast, hcol]
  · intro amb id subids ql alpha enc cons h1 q hnew
    have hq : q.Threshold = 2 ∧ q.QFilter = amb ∧ q.Alpha = alpha := by
      unfold NewQSeq at hnew
      split at hnew
      · exact Except.noConfusion hnew
      · injection hnew with hnew
        injection hnew with _ hq
        subst hq
        exact ⟨rfl, rfl, rfl⟩
      · injection hnew with hnew
        injection hnew with _ hq
        subst hq
        exact ⟨rfl, rfl, rfl⟩
    refine ⟨hq.1, ?_⟩
    intro l
    constructor
    · intro hl
      simp [QSeq.filtered, hq.1, hq.2.1, hq.2.2, hl]
    · intro hl
      simp [QSeq.filtered, hq.1, hl]

/-- C20, the claim as stated fails: `NewQSeq` accepts the ragged block of the
one-row column `G` followed by the two-row column `AC`; in the alignment it
returns `Rows()` is 1 and index 1 is a valid column index, but `Column(1)` fails:
the loop writes the second stored letter into a slice of `Rows() = 1` letters. -/
theorem column_fails_on_wide_column :
    ∃ h q, NewQSeq (fun _ _ _ => 110) raggedHeap "x" ["a"] wideBlock (some dna) 0 0 =
        .ok (h, q) ∧
      q.Rows none = some 1 ∧ q.Len = 2 ∧
      (QSeq.ColumnQL q 1).map (fun c => h.qletters.contents c) =
        some [{ L := 65, Q := 40 }, { L := 67, Q := 40 }] ∧
      QSeq.Column none h q 1 = none :=
  ⟨_, _, rfl, rfl, rfl, rfl, rfl⟩

theorem squareQSeq_col1 : squareState.qletters.valid { addr := 1, len := 2 } := by
  unfold Mem.valid
  decide

/-- C20 (as amended), at the input of the threshold scenario: column 1 of the
quality alignment of three columns and two rows holds `G` with quality 40 and
`T` with quality 1; with threshold 2 and a filter that answers `n`, `Column(1)`
is `G n`. -/
theorem column_applies_threshold_witness :
    (∃ out, QSeq.Column none squareState squareQSeq (1 : Nat) = some out ∧ out.length = 2 ∧
      (∀ (r : Nat) (l : QLetter),
        squareState.qletters.cell { addr := 1, len := 2 } r = some l →
          out[r]? = some (if l.Q ≥ squareQSeq.Threshold then l.L
                        else squareQSeq.QFilter squareQSeq.Alpha 255 QLetter.zero)) ∧
      QSeq.ColumnQL squareQSeq (1 : Nat) = some { addr := 1, len := 2 }) ∧
    QSeq.Column none squareState squareQSeq 1 = some [71, 110] ∧
    (∃ h1 q, NewQSeq (fun _ _ _ => 110) squareState "x" ["a", "b"] squareBlock (some dna) 0 0 =
        .ok (h1, q) ∧ q.Threshold = 2 ∧
      ∀ l : QLetter, (l.Q = 1 → q.filtered l = 110) ∧ (l.Q = 2 → q.filtered l = l.L)) :=
  ⟨(column_applies_threshold none squareState).1 squareQSeq 1 { addr := 1, len := 2 } rfl rfl
      squareQSeq_col1,
   rfl,
   ⟨_, _, rfl,
    (column_applies_threshold none squareState).2 (fun _ _ _ => 110) "x" ["a", "b"] squareBlock
      (some dna) 0 0 _ _ rfl⟩⟩

/-! ## Consensus -/

theorem consensusLoop_eq (g : Int → QLetter) :
    ∀ (k i : Nat) (cs : List QLetter),
      consensusLoop (some g) k i cs = some (cs ++ (List.range' i k).map (fun (j : Nat) => g (j : Int))) := by
  intro k
  induction k with
  | zero =>
    intro i cs
    simp [consensusLoop]
  | succ k ih =>
    intro i cs
    rw [consensusLoop, ih (i + 1) (cs ++ [g (i : Int)]), List.range'_succ]
    simp

theorem consensusLoop_spec (g : Int → QLetter) (n : Nat) :
    ∃ cs, consensusLoop (some g) n 0 [] = some cs ∧ cs.length = n ∧
      ∀ i : Nat, i < n → cs[i]? = some (g (i : Int)) := by
  refine ⟨(List.range' 0 n).map (fun (j : Nat) => g (j : Int)), ?_, by simp, ?_⟩
  · rw [consensusLoop_eq]
    rfl
  · intro i hi
    simp [List.getElem?_range' _ _ hi, hi]

/-- C21: for every alignment, plain or quality, whose field `ColumnConsense`
holds the function `f`, `Consensus()` returns a sequence of exactly `Len()`
quality letters; its element at index `i` is `f(alignment, alphabet, i, false)`,
for each column index `i` in increasing order, where the alphabet is the one
that `Alphabet()` reports; and the sequence carries the offset, the strand and
the conformation of the alignment. -/
theorem consensus_collects (Sanger : Encoding) (h : Heap) :
    (∀ (run : ConsenseFunc → Option (Heap → Seq → Option Alphabet → Int → Bool → QLetter))
        (s : Seq) (f : Heap → Seq → Option Alphabet → Int → Bool → QLetter),
      run s.ColumnConsense = some f →
      ∃ qs, Seq.Consensus run Sanger h s = some qs ∧ qs.Seq.length = s.Len ∧
        (∀ i : Nat, i < s.Len →
          qs.Seq[i]? = some (f h s ( Annotation.Alphabet s.toAnnotation) (i : Int) false)) ∧
        qs.Offset = s.Offset ∧ qs.Strand = s.Strand ∧ qs.Conform = s.Conform) ∧
    (∀ (run : ConsenseFunc → Option (Heap → QSeq → Option Alphabet → Int → Bool → QLetter))
        (s : QSeq) (f : Heap → QSeq → Option Alphabet → Int → Bool → QLetter),
      run s.ColumnConsense = some f →
      ∃ qs, QSeq.Consensus run Sanger h s = some qs ∧ qs.Seq.length = s.Len ∧
        (∀ i : Nat, i < s.Len →
          qs.Seq[i]? = some (f h s ( Annotation.Alphabet s.toAnnotation) (i : Int) false)) ∧
        qs.Offset = s.Offset ∧ qs.Strand = s.Strand ∧ qs.Conform = s.Conform) := by
  constructor
  · intro run s f hrun
    obtain ⟨cs, hloop, hlen, hget⟩ :=
      consensusLoop_spec (fun i => f h s ( Annotation.Alphabet s.toAnnotation) i false) s.Seq.length
    refine ⟨{ linear.NewQSeq ("Consensus:" ++ s.ID) cs s.Alpha Sanger with
      Strand := s.Strand, Offset := s.Offset, Conform := s.Conform }, ?_, hlen, hget, rfl, rfl, rfl⟩
    simp only [Seq.Consensus, hrun, Option.map_some', hloop]
  · intro run s f hrun
    obtain ⟨cs, hloop, hlen, hget⟩ :=
      consensusLoop_spec (fun i => f h s ( Annotation.Alphabet s.toAnnotation) i false) s.Seq.length
    refine ⟨{ linear.NewQSeq ("Consensus:" ++ s.ID) cs s.Alpha Sanger with
      Strand := s.Strand, Offset := s.Offset, Conform := s.Conform }, ?_, hlen, hget, rfl, rfl, rfl⟩
    simp only [QSeq.Consensus, hrun, Option.map_some', hloop]

/-- C21, at a concrete input: the alignment of three columns and two rows, plain
and quality, with a consensus function that answers the position and the number
of rows. -/
theorem consensus_collects_witness :
    (∃ qs, Seq.Consensus (fun _ => some positionConsensus) 7 squareState squareSeq = some qs ∧
      qs.Seq.length = squareSeq.Len ∧
      (∀ i : Nat, i < squareSeq.Len →
        qs.Seq[i]? = some (positionConsensus squareState squareSeq
          ( Annotation.Alphabet squareSeq.toAnnotation) (i : Int) false)) ∧
      qs.Offset = squareSeq.Offset ∧ qs.Strand = squareSeq.Strand ∧
      qs.Conform = squareSeq.Conform) ∧
    (∃ qs, QSeq.Consensus (fun _ => some positionQConsensus) 7 squareState squareQSeq = some qs ∧
      qs.Seq.length = squareQSeq.Len ∧
      (∀ i : Nat, i < squareQSeq.Len →
        qs.Seq[i]? = some (positionQConsensus squareState squareQSeq
          ( Annotation.Alphabet squareQSeq.toAnnotation) (i : Int) false)) ∧
      qs.Offset = squareQSeq.Offset ∧ qs.Strand = squareQSeq.Strand ∧
      qs.Conform = squareQSeq.Conform) ∧
    (Seq.Consensus (fun _ => some positionConsensus) 7 squareState squareSeq).map
        (fun q => q.Seq) =
      some [{ L := 0, Q := 2 }, { L := 1, Q := 2 }, { L := 2, Q := 2 }] :=
  ⟨(consensus_collects 7 squareState).1 (fun _ => some positionConsensus) squareSeq
      positionConsensus rfl,
   (consensus_collects 7 squareState).2 (fun _ => some positionQConsensus) squareQSeq
      positionQConsensus rfl,
   by decide⟩

/-! ## Writes through a row view -/

theorem subAnn_of_start (annots : Mem Annotation) (sub : Option Slice) (r : Nat) (o : Int)
    (h : (subAnn annots sub r).map (fun x => x.Offset) = some o) :
    ∃ x, subAnn annots sub r = some x := by
  cases hx : subAnn annots sub r with
  | none => simp [hx] at h
  | some x => exact ⟨x, rfl⟩

theorem setCell_row {α : Type} (m : Mem α) (rs : List Slice) (r k : Nat) (ck : Slice) (v : α)
    (hsep : m.separate rs) (hrows : ∀ c ∈ rs, r < c.len) (hk : rs[k]? = some ck) :
    ∃ m2, m.setCell ck r v = some m2 ∧ m2.cell ck r = some v ∧
      (∀ (i : Nat) (c : Slice) (q : Nat), rs[i]? = some c → i ≠ k ∨ q ≠ r →
        m2.cell c q = m.cell c q) ∧
      ∃ xs, rowCells m2 r rs = some xs ∧ xs[k]? = some v := by
  have hmk := List.getElem?_mem hk
  obtain ⟨m2, hm2⟩ := setCell_isSome m ck r v (hrows ck hmk) (hsep.2 ck hmk).2
  have hshape := shape_setCell m m2 ck r v hm2
  have hsame := cell_setCell_same m m2 ck r v hm2
  refine ⟨m2, hm2, hsame, ?_, ?_⟩
  · intro i c q hi hne
    rw [cell_setCell m m2 ck c r q v hm2, if_neg]
    intro hand
    rcases hne with hik | hq
    · exact hik (separate_inj m rs hsep i k c ck hi hk hand.1)
    · exact hq hand.2
  · obtain ⟨xs, hxs, _, hget⟩ := rowCells_spec m2 r rs
      (fun c hc => ⟨hrows c hc, valid_of_shape m2 m hshape c (hsep.2 c hc).2⟩)
    refine ⟨xs, hxs, ?_⟩
    rw [hget k ck hk, ← cell_eq_contents]
    exact hsame

/-- C22 (as amended): for every alignment, plain or quality, whose columns lie
in separate storage and hold row `r`, whose row `r` has the offset of the
alignment, and every position `pos = Start() + k` with `k < Len()`:
`Row(r).Set(pos, l)` returns and leaves the alignment value as it was;
`Row(r).At(pos)` then returns the letter of `l` (the quality view returns `l`);
the change is visible in the column store, in the column with index
`pos - Start()` at row `r`, and through `Row(r).Copy()`; and every other cell of
the alignment, in other rows of that column and in all rows of other columns, is
unchanged. -/
theorem row_set_visible (D : Qphred) (h : Heap) (r : Nat) (pos : Int) (k : Nat) :
    (∀ (s : Seq) (l : QLetter), h.letters.separate s.Seq → (∀ c ∈ s.Seq, r < c.len) →
      Row.Start h (s.Row r) = some s.Start → pos = s.Start + k → k < s.Len →
      ∃ st, Row.Set h (s.Row r) pos l = some st ∧ st.2 = s ∧
        Row.At D st.1 (st.2.Row r) pos = some { L := l.L, Q := D } ∧
        (∃ c, Seq.Column st.2 (pos - s.Start) = some c ∧ st.1.letters.cell c r = some l.L) ∧
        (∃ cp, Row.Copy st.1 (st.2.Row r) = some cp ∧ cp.Seq[k]? = some l.L) ∧
        ∀ (i : Nat) (c : Slice) (q : Nat), s.Seq[i]? = some c → i ≠ k ∨ q ≠ r →
          st.1.letters.cell c q = h.letters.cell c q) ∧
    (∀ (s : QSeq) (l : QLetter), h.qletters.separate s.Seq → (∀ c ∈ s.Seq, r < c.len) →
      QRow.Start h (s.Row r) = some s.Start → pos = s.Start + k → k < s.Len →
      ∃ st, QRow.Set h (s.Row r) pos l = some st ∧ st.2 = s ∧
        QRow.At st.1 (st.2.Row r) pos = some l ∧
        (∃ c, QSeq.ColumnQL st.2 (pos - s.Start) = some c ∧ st.1.qletters.cell c r = some l) ∧
        (∃ cp, QRow.Copy st.1 (st.2.Row r) = some cp ∧ cp.Seq[k]? = some l) ∧
        ∀ (i : Nat) (c : Slice) (q : Nat), s.Seq[i]? = some c → i ≠ k ∨ q ≠ r →
          st.1.qletters.cell c q = h.qletters.cell c q) := by
  constructor
  · intro s l hsep hrows hstart hpos hk
    have hck : s.Seq[k]? = some s.Seq[k] := List.getElem?_eq_getElem hk
    have hcol : colAt s.Seq (pos - s.Offset) = some s.Seq[k] := by
      rw [colAt_sub _ pos s.Offset k hpos, hck]
    obtain ⟨m2, hm2, hsame, hframe, xs, hxs, hxk⟩ :=
      setCell_row h.letters s.Seq r k _ l.L hsep hrows hck
    obtain ⟨x, hx⟩ := subAnn_of_start h.annots s.SubAnnotations r s.Start hstart
    refine ⟨({ h with letters := m2 }, s), ?_, rfl, ?_, ⟨_, hcol, hsame⟩, ?_, hframe⟩
    · simp only [Row.Set, Seq.Row, hcol, hm2]
    · simp only [Row.At, Seq.Row, hcol, hsame, Option.map_some']
    · refine ⟨linear.NewSeq x.ID xs s.Alpha, ?_, hxk⟩
      simp only [Row.Copy, Seq.Row, hxs, Row.Name, hx, Option.map_some', Row.Alphabet]
  · intro s l hsep hrows hstart hpos hk
    have hck : s.Seq[k]? = some s.Seq[k] := List.getElem?_eq_getElem hk
    have hcol : colAt s.Seq (pos - s.Offset) = some s.Seq[k] := by
      rw [colAt_sub _ pos s.Offset k hpos, hck]
    obtain ⟨m2, hm2, hsame, hframe, xs, hxs, hxk⟩ :=
      setCell_row h.qletters s.Seq r k _ l hsep hrows hck
    obtain ⟨x, hx⟩ := subAnn_of_start h.annots s.SubAnnotations r s.Start hstart
    refine ⟨({ h with qletters := m2 }, s), ?_, rfl, ?_, ⟨_, hcol, hsame⟩, ?_, hframe⟩
    · simp only [QRow.Set, QSeq.Row, hcol, hm2]
    · simp only [QRow.At, QSeq.Row, hcol, hsame]
    · refine ⟨linear.NewQSeq x.ID xs s.Alpha s.Encode, ?_, hxk⟩
      simp only [QRow.Copy, QSeq.Row, hxs, QRow.Name, hx, Option.map_some', QRow.Alphabet]

theorem shiftedSeq_separate : shiftedState.letters.separate shiftedSeq.Seq :=
  squareSeq_separate

theorem shiftedQSeq_separate : shiftedState.qletters.separate shiftedQSeq.Seq :=
  squareQSeq_separate

/-- C22 (as amended), at a concrete input: row 0 of the alignment of three
columns and two rows at offset 1, with row offsets 1, written at position 2,
which is the column of index 1. -/
theorem row_set_visible_witness :
    (∀ l : QLetter,
      ∃ st, Row.Set shiftedState (shiftedSeq.Row 0) 2 l = some st ∧ st.2 = shiftedSeq ∧
        Row.At 0 st.1 (st.2.Row 0) 2 = some { L := l.L, Q := 0 } ∧
        (∃ c, Seq.Column st.2 (2 - shiftedSeq.Start) = some c ∧
          st.1.letters.cell c 0 = some l.L) ∧
        (∃ cp, Row.Copy st.1 (st.2.Row 0) = some cp ∧ cp.Seq[1]? = some l.L) ∧
        ∀ (i : Nat) (c : Slice) (q : Nat), shiftedSeq.Seq[i]? = some c → i ≠ 1 ∨ q ≠ 0 →
          st.1.letters.cell c q = shiftedState.letters.cell c q) ∧
    (∀ l : QLetter,
      ∃ st, QRow.Set shiftedState (shiftedQSeq.Row 0) 2 l = some st ∧ st.2 = shiftedQSeq ∧
        QRow.At st.1 (st.2.Row 0) 2 = some l ∧
        (∃ c, QSeq.ColumnQL st.2 (2 - shiftedQSeq.Start) = some c ∧
          st.1.qletters.cell c 0 = some l) ∧
        (∃ cp, QRow.Copy st.1 (st.2.Row 0) = some cp ∧ cp.Seq[1]? = some l) ∧
        ∀ (i : Nat) (c : Slice) (q : Nat), shiftedQSeq.Seq[i]? = some c → i ≠ 1 ∨ q ≠ 0 →
          st.1.qletters.cell c q = shiftedState.qletters.cell c q) :=
  ⟨fun l => (row_set_visible 0 shiftedState 0 2 1).1 shiftedSeq l shiftedSeq_separate
      (fun c hc => Nat.lt_trans (by decide) (squareSeq_cols c hc).1) rfl rfl (by decide),
   fun l => (row_set_visible 0 shiftedState 0 2 1).2 shiftedQSeq l shiftedQSeq_separate
      (fun c hc => Nat.lt_trans (by decide) (squareQSeq_cols c hc).1) rfl rfl (by decide)⟩

/-! ## `AppendEach` with no row sequence -/

theorem maxLen_nil (MinInt : Int) : maxLen MinInt [] = MinInt := rfl

/-- C23: `AppendEach` fails on a zero-row alignment called with an empty `a`.
For every alignment, plain or quality, with `Rows() = 0`, the call with the
empty list passes the check `len(a) != s.Rows()`, leaves `max` at its start
value `util.MinInt`, which is negative, and fails in `make(..., max)`. -/
theorem appendEach_empty_panics (e : Option Nat) (MinInt : Int) (h : Heap) (hM : MinInt < 0) :
    (∀ s : Seq, s.Rows e = some 0 → Seq.AppendEach e MinInt h s [] = .panic) ∧
    (∀ s : QSeq, s.Rows e = some 0 → QSeq.AppendEach e MinInt h s [] = .panic) := by
  constructor
  · intro s hrows
    simp [Seq.AppendEach, hrows, maxLen_nil, hM]
  · intro s hrows
    simp [QSeq.AppendEach, hrows, maxLen_nil, hM]

/-- C23, at a concrete input: the alignment that `NewSeq` (or `NewQSeq`) returns
for one column of zero rows and no identifiers has `Rows() = 0`; `AppendEach`
with the empty list fails on it, with `util.MinInt` the least 64-bit integer. -/
theorem appendEach_empty_panics_witness :
    (∃ h s, NewSeq hollowHeap "x" [] hollowBlock (some dna) 0 = .ok (h, s) ∧
      s.Rows none = some 0 ∧
      Seq.AppendEach none (-9223372036854775808) h s [] = .panic) ∧
    (∃ h q, NewQSeq (fun _ _ _ => 110) hollowHeap "x" [] hollowBlock (some dna) 0 0 =
        .ok (h, q) ∧ q.Rows none = some 0 ∧
      QSeq.AppendEach none (-9223372036854775808) h q [] = .panic) :=
  ⟨⟨_, _, rfl, rfl,
    (appendEach_empty_panics none (-9223372036854775808) _ (by decide)).1 _ rfl⟩,
   ⟨_, _, rfl, rfl,
    (appendEach_empty_panics none (-9223372036854775808) _ (by decide)).2 _ rfl⟩⟩

/-! ## Conformation of a row -/

theorem setSubAnn_field (g : Annotation → Annotation) (annots : Mem Annotation) (sl : Slice)
    (row : Nat) (hrow : row < sl.len) (hv : annots.valid sl) :
    ∃ an, setSubAnn g (some sl) row annots = some an ∧
      subAnn an (some sl) row = (subAnn annots (some sl) row).map g ∧
      (∃ a, subAnn annots (some sl) row = some a) ∧
      ∀ q : Nat, q ≠ row → subAnn an (some sl) q = subAnn annots (some sl) q := by
  obtain ⟨an, han, _, hc⟩ := mapCell_spec g sl row annots hrow hv
  refine ⟨an, han, ?_, cell_isSome annots sl row hrow hv, ?_⟩
  · simp only [subAnn]
    rw [hc sl row]
    simp [hrow]
  · intro q hq
    simp only [subAnn]
    rw [hc sl q]
    simp [hq]

/-- C24: the plain row view does not read back the conformation it sets.  For
every row `r` that has a sub-annotation and every conformation `c`,
`SetConformation(c)` writes `SubAnnotations[r].Conform` in both views and leaves
the alignment value and the other sub-annotations as they were; afterwards
`QRow.Conformation()` returns `c`, but `Row.Conformation()` returns the
conformation of the owning alignment, whatever `c` is. -/
theorem row_conformation_after_set (h : Heap) (r : Nat) (sl : Slice) (hr : r < sl.len)
    (hv : h.annots.valid sl) (c : Conformation) :
    (∀ s : Seq, s.SubAnnotations = some sl →
      ∃ st, Row.SetConformation h (s.Row r) c = some st ∧ st.2 = s ∧
        Row.Conformation (st.2.Row r) = s.Conform ∧
        (subAnn st.1.annots s.SubAnnotations r).map (fun x => x.Conform) = some c ∧
        ∀ q : Nat, q ≠ r →
          subAnn st.1.annots s.SubAnnotations q = subAnn h.annots s.SubAnnotations q) ∧
    (∀ s : QSeq, s.SubAnnotations = some sl →
      ∃ st, QRow.SetConformation h (s.Row r) c = some st ∧ st.2 = s ∧
        QRow.Conformation st.1 (st.2.Row r) = some c ∧
        ∀ q : Nat, q ≠ r →
          subAnn st.1.annots s.SubAnnotations q = subAnn h.annots s.SubAnnotations q) := by
  obtain ⟨an, han, hat, ⟨a, ha⟩, hother⟩ :=
    setSubAnn_field (fun x => { x with Conform := c }) h.annots sl r hr hv
  constructor
  · intro s hsub
    refine ⟨({ h with annots := an }, s), ?_, rfl, rfl, ?_, ?_⟩
    · simp only [Row.SetConformation, Seq.Row, hsub, han]
    · simp only [hsub, hat, ha, Option.map_some']
    · intro q hq
      rw [hsub]
      exact hother q hq
  · intro s hsub
    refine ⟨({ h with annots := an }, s), ?_, rfl, ?_, ?_⟩
    · simp only [QRow.SetConformation, QSeq.Row, hsub, han]
    · simp only [QRow.Conformation, QSeq.Row, hsub, hat, ha, Option.map_some']
    · intro q hq
      rw [hsub]
      exact hother q hq

/-- C24, at a concrete input: row 0 of the alignment of three columns and two
rows, whose conformation is 0, set to conformation 1.  The plain view answers
0, the quality view answers 1. -/
theorem row_conformation_after_set_witness :
    (∃ st, Row.SetConformation squareState (squareSeq.Row 0) 1 = some st ∧ st.2 = squareSeq ∧
      Row.Conformation (st.2.Row 0) = 0 ∧
      (subAnn st.1.annots squareSeq.SubAnnotations 0).map (fun x => x.Conform) = some 1) ∧
    (∃ st, QRow.SetConformation squareState (squareQSeq.Row 0) 1 = some st ∧
      st.2 = squareQSeq ∧ QRow.Conformation st.1 (st.2.Row 0) = some 1) := by
  obtain ⟨st, h1, h2, h3, h4, _⟩ :=
    (row_conformation_after_set squareState 0 { addr := 0, len := 2 } (by decide)
      squareState_sub 1).1 squareSeq rfl
  obtain ⟨qst, q1, q2, q3, _⟩ :=
    (row_conformation_after_set squareState 0 { addr := 0, len := 2 } (by decide)
      squareState_sub 1).2 squareQSeq rfl
  exact ⟨⟨st, h1, h2, h3, h4⟩, ⟨qst, q1, q2, q3⟩⟩

/-! ## Filtered cells -/

theorem forall₂_getElem? {α β : Type} (R : α → β → Prop) (l1 : List α) (l2 : List β)
    (hR : List.Forall₂ R l1 l2) (k : Nat) :
    (l1[k]? = none ∧ l2[k]? = none) ∨ ∃ a b, l1[k]? = some a ∧ l2[k]? = some b ∧ R a b := by
  induction hR generalizing k with
  | nil => exact Or.inl ⟨rfl, rfl⟩
  | @cons a b l₁ l₂ hab _ ih =>
    cases k with
    | zero => exact Or.inr ⟨a, b, by simp, by simp, hab⟩
    | succ k => simpa using ih k

theorem fillColumn_congr {α β γ : Type} (f : α → γ) (g : β → γ) (xs : List α) (ys : List β)
    (hR : List.Forall₂ (fun a b => f a = g b) xs ys) :
    ∀ (i : Nat) (out : List γ), fillColumn f xs i out = fillColumn g ys i out := by
  induction hR with
  | nil =>
    intro i out
    rfl
  | cons hab _ ih =>
    intro i out
    simp only [fillColumn, hab, ih]

/-- C25: for every two quality alignments with the same alphabet, `Threshold`,
filter function and `Rows()`, whose stores have the same number of columns of the
same widths and differ at most in cells whose quality is below `Threshold` in
both, `QSeq.Column(pos)` gives the same answer for both at every position: the
letter reported for a cell below the threshold does not depend on the letter or
the quality stored in it. -/
theorem column_hides_filtered_cells (e : Option Nat) (h1 h2 : Heap) (s1 s2 : QSeq)
    (hal : s1.Alpha = s2.Alpha) (hth : s1.Threshold = s2.Threshold)
    (hf : s1.QFilter = s2.QFilter) (hrows : s1.Rows e = s2.Rows e)
    (hcells : List.Forall₂ (fun c1 c2 =>
      List.Forall₂ (fun a b => a = b ∨ (a.Q < s1.Threshold ∧ b.Q < s1.Threshold))
        (h1.qletters.contents c1) (h2.qletters.contents c2)) s1.Seq s2.Seq) :
    ∀ pos : Int, QSeq.Column e h1 s1 pos = QSeq.Column e h2 s2 pos := by
  intro pos
  unfold QSeq.Column
  rw [← hrows]
  cases s1.Rows e with
  | none => rfl
  | some n =>
    simp only []
    unfold colAt
    by_cases hneg : pos < 0
    · simp only [hneg, if_true]
    · simp only [hneg, if_false]
      rcases forall₂_getElem? _ _ _ hcells pos.toNat with ⟨hn1, hn2⟩ | ⟨c1, c2, hc1, hc2, hR⟩
      · rw [hn1, hn2]
      · rw [hc1, hc2]
        simp only []
        apply fillColumn_congr
        refine List.Forall₂.imp ?_ hR
        intro a b hab
        rcases hab with rfl | ⟨ha, hb⟩
        · simp only [QSeq.filtered, hal, hth, hf]
        · have ha1 : ¬ a.Q ≥ s1.Threshold := Nat.not_le.mpr ha
          have hb1 : ¬ b.Q ≥ s2.Threshold := hth ▸ Nat.not_le.mpr hb
          simp only [QSeq.filtered, ha1, hb1, if_false, hal, hf]

/-- C25, at a concrete input: the quality alignment of three columns and two
rows over two heaps that differ in the cells of row 1, whose quality is below
the threshold 2 in both; every column projects to the same letters, the stored
letter of row 0 and the answer `n` of the filter for row 1. -/
theorem column_hides_filtered_cells_witness :
    (∀ pos : Int, QSeq.Column none squareState squareQSeq pos =
      QSeq.Column none maskedState squareQSeq pos) ∧
    QSeq.Column none squareState squareQSeq 1 = some [71, 110] ∧
    QSeq.Column none maskedState squareQSeq 1 = some [71, 110] ∧
    squareState.qletters.cell { addr := 1, len := 2 } 1 = some { L := 84, Q := 1 } ∧
    maskedState.qletters.cell { addr := 1, len := 2 } 1 = some { L := 65, Q := 1 } :=
  ⟨column_hides_filtered_cells none squareState maskedState squareQSeq squareQSeq rfl rfl rfl rfl
      (by
        refine List.Forall₂.cons ?_ (List.Forall₂.cons ?_ (List.Forall₂.cons ?_ List.Forall₂.nil))
        all_goals
          refine List.Forall₂.cons (Or.inl rfl) (List.Forall₂.cons (Or.inr ?_) List.Forall₂.nil)
          decide),
   rfl, rfl, rfl, rfl⟩

/-! ## Columns that share a backing array -/

theorem rectangular_sharedQSeq : rectangular sharedQSeq.Seq := by
  intro c hc d hd
  simp [sharedQSeq] at hc hd
  rcases hc with rfl | rfl <;> rcases hd with rfl | rfl <;> rfl

/-- C12, the claim as stated fails: `NewSeq` accepts the rectangular block of two
columns `AC` whose headers are the same two cells of one array with a spare
cell, and the alignment it returns has `Start() = 0`.  `Add` of the sequence
`g t` appends `g` to column 0 in the spare cell and then `t` to column 1 in the
same cell: both columns end as `A C t`, so the new row holds `t` at position 0,
where the sequence holds `g`. -/
theorem add_overwrites_shared_buffer :
    ∃ h1 s1, NewSeq sharedHeap "x" ["a", "b"] sharedBlock (some dna) 0 = .ok (h1, s1) ∧
      rectangular s1.Seq ∧ s1.Start = 0 ∧ s1.Len = 2 ∧
      addedRow dna.Gap pairSequence 0 = some 103 ∧
      addedRow dna.Gap pairSequence 1 = some 116 ∧
      ∃ st, Seq.Add none h1 s1 [.single pairSequence] = .ok st ∧
        st.1.letters.matrix st.2.Seq = [[65, 67, 116], [65, 67, 116]] :=
  ⟨_, _, rfl,
    (by
      intro c hc d hd
      simp [sharedBlock] at hc hd
      rw [hc, hd]),
    rfl, rfl, rfl, rfl, _, rfl, rfl⟩

/-- C16, the claim as stated fails: `NewQSeq` on the one column `A` (quality 40)
and then `AppendEach` of the row `T T T` (quality 9) give a rectangular quality
alignment of four columns whose last three columns are one slice.  Its symbol
matrix is `A40, T9, T9, T9`; the claim asks `RevComp` for `A9, A9, A9, T40`, and
the code leaves `A9, A40, A40, A40`. -/
theorem revComp_on_shared_buffer :
    (∃ h1 q1, NewQSeq (fun _ _ _ => 110) oneHeap "x" ["a"] oneBlock (some dna) 0 0 =
        .ok (h1, q1) ∧
      QSeq.AppendEach none (-9223372036854775808) h1 q1 threeLetters =
        .ok (sharedQState, sharedQSeq)) ∧
    rectangular sharedQSeq.Seq ∧
    sharedQSeq.Alpha = some dna ∧ dna.ComplementTable = some dnaComplement ∧
    dnaComplement 65 = 84 ∧ dnaComplement 84 = 65 ∧
    sharedQState.qletters.matrix sharedQSeq.Seq =
      [[{ L := 65, Q := 40 }], [{ L := 84, Q := 9 }], [{ L := 84, Q := 9 }],
       [{ L := 84, Q := 9 }]] ∧
    (QSeq.RevComp sharedQState sharedQSeq).map (fun st => st.1.qletters.matrix st.2.Seq) =
      some [[{ L := 65, Q := 9 }], [{ L := 65, Q := 40 }], [{ L := 65, Q := 40 }],
            [{ L := 65, Q := 40 }]] :=
  ⟨⟨_, _, rfl, rfl⟩, rectangular_sharedQSeq, rfl, rfl, rfl, rfl, rfl, by decide!⟩

/-- C17, the claim as stated fails: on the rectangular quality alignment of the
columns `A40, T9, T9, T9` that `NewQSeq` and `AppendEach` build, whose last
three columns are one slice, with the DNA complement table, which is its own
inverse, `RevComp` called twice leaves `T40, A9, A9, A9`. -/
theorem revComp_twice_on_shared_buffer :
    (∃ h1 q1, NewQSeq (fun _ _ _ => 110) oneHeap "x" ["a"] oneBlock (some dna) 0 0 =
        .ok (h1, q1) ∧
      QSeq.AppendEach none (-9223372036854775808) h1 q1 threeLetters =
        .ok (sharedQState, sharedQSeq)) ∧
    rectangular sharedQSeq.Seq ∧
    sharedQSeq.Alpha = some dna ∧ dna.ComplementTable = some dnaComplement ∧
    (∀ x, dnaComplement (dnaComplement x) = x) ∧
    sharedQState.qletters.matrix sharedQSeq.Seq =
      [[{ L := 65, Q := 40 }], [{ L := 84, Q := 9 }], [{ L := 84, Q := 9 }],
       [{ L := 84, Q := 9 }]] ∧
    ((QSeq.RevComp sharedQState sharedQSeq).bind (fun st => QSeq.RevComp st.1 st.2)).map
        (fun st => st.1.qletters.matrix st.2.Seq) =
      some [[{ L := 84, Q := 40 }], [{ L := 65, Q := 9 }], [{ L := 65, Q := 9 }],
            [{ L := 65, Q := 9 }]] :=
  ⟨⟨_, _, rfl, rfl⟩, rectangular_sharedQSeq, rfl, rfl, dnaComplement_involutive, rfl,
    by decide!⟩

/-- C19, the claim as stated fails, in two ways.  On the rectangular quality
alignment of the columns `A40, T9, T9, T9` that `NewQSeq` and `AppendEach`
build, whose last three columns are one slice, the row-level `Reverse` on row 0
leaves `T9, A40, A40, A40`, where the mirror is `T9, T9, T9, A40`.  And on the
rectangular alignment of three columns and two rows that holds no
sub-annotations, which satisfies the shape invariant, the row-level `RevComp`
and `Reverse` on row 0 fail when they write the strand of the row. -/
theorem row_reversal_fails_on_shared_or_bare_rows :
    ((∃ h1 q1, NewQSeq (fun _ _ _ => 110) oneHeap "x" ["a"] oneBlock (some dna) 0 0 =
        .ok (h1, q1) ∧
      QSeq.AppendEach none (-9223372036854775808) h1 q1 threeLetters =
        .ok (sharedQState, sharedQSeq)) ∧
      rectangular sharedQSeq.Seq ∧
      sharedQState.qletters.matrix sharedQSeq.Seq =
        [[{ L := 65, Q := 40 }], [{ L := 84, Q := 9 }], [{ L := 84, Q := 9 }],
         [{ L := 84, Q := 9 }]] ∧
      (QRow.Reverse sharedQState (sharedQSeq.Row 0)).map
          (fun st => st.1.qletters.matrix st.2.Seq) =
        some [[{ L := 84, Q := 9 }], [{ L := 65, Q := 40 }], [{ L := 65, Q := 40 }],
              [{ L := 65, Q := 40 }]]) ∧
    (rectangular (Seq.Seq { squareSeq with SubAnnotations := none }) ∧
      Seq.shapeInv none { squareSeq with SubAnnotations := none } ∧
      Seq.Rows none { squareSeq with SubAnnotations := none } = some 2 ∧
      Row.RevComp squareHeap (Seq.Row { squareSeq with SubAnnotations := none } 0) = none ∧
      Row.Reverse squareHeap (Seq.Row { squareSeq with SubAnnotations := none } 0) = none) :=
  ⟨⟨⟨_, _, rfl, rfl⟩, rectangular_sharedQSeq, rfl, by decide!⟩,
   ⟨rectangular_squareBlock,
    by simp [Seq.shapeInv, shapeInv, squareSeq, squareBlock, Columns.Rows, subLen],
    rfl, rfl, rfl⟩⟩

/-- C22, the claim as stated fails, in three ways.  (1) In the alignment of
three columns `AC`, `GT`, `AA` at offset 1, whose two rows have offset 1 as
well, position 1 is valid; `Row(0).Set(1, t)` writes column `1 - 1 = 0`, while
`Column(1)` is the stored column of index 1, which holds `G` at row 0 as before,
and after `Row(0).Set(3, t)` the call `Column(3)` fails; the quality alignment
does the same with `ColumnQL`.  (2) In the quality alignment of the columns
`A40, T9, T9, T9` that `NewQSeq` and `AppendEach` build, whose last three
columns are one slice and whose row and alignment offsets are 0,
`Row(0).Set(1, l)` changes the columns 2 and 3 as well.  (3) In the alignment
that `NewSeq` returns for the ragged block of a two-row column followed by a
one-row column, `Rows()` is 2 and the offsets are 0, position 1 is valid, and
`Row(1).Set(1, t)` fails. -/
theorem row_set_not_at_column_pos :
    ((Row.Start shiftedState (shiftedSeq.Row 0) = some shiftedSeq.Start ∧
      Row.Start shiftedState (shiftedSeq.Row 1) = some shiftedSeq.Start ∧
      shiftedSeq.Start = 1 ∧ shiftedSeq.End = 4 ∧
      (∃ st, Row.Set shiftedState (shiftedSeq.Row 0) 1 { L := 116, Q := 0 } = some st ∧
        Row.At 0 st.1 (st.2.Row 0) 1 = some { L := 116, Q := 0 } ∧
        (Seq.Column st.2 1).bind (fun c => st.1.letters.cell c 0) = some 71) ∧
      (∃ st, Row.Set shiftedState (shiftedSeq.Row 0) 3 { L := 116, Q := 0 } = some st ∧
        Seq.Column st.2 3 = none)) ∧
     (QRow.Start shiftedState (shiftedQSeq.Row 0) = some shiftedQSeq.Start ∧
      QRow.Start shiftedState (shiftedQSeq.Row 1) = some shiftedQSeq.Start ∧
      (∃ st, QRow.Set shiftedState (shiftedQSeq.Row 0) 1 { L := 116, Q := 7 } = some st ∧
        QRow.At st.1 (st.2.Row 0) 1 = some { L := 116, Q := 7 } ∧
        (QSeq.ColumnQL st.2 1).bind (fun c => st.1.qletters.cell c 0) =
          some { L := 71, Q := 40 }) ∧
      (∃ st, QRow.Set shiftedState (shiftedQSeq.Row 0) 3 { L := 116, Q := 7 } = some st ∧
        QSeq.ColumnQL st.2 3 = none))) ∧
    ((∃ h1 q1, NewQSeq (fun _ _ _ => 110) oneHeap "x" ["a"] oneBlock (some dna) 0 0 =
        .ok (h1, q1) ∧
      QSeq.AppendEach none (-9223372036854775808) h1 q1 threeLetters =
        .ok (sharedQState, sharedQSeq)) ∧
      QRow.Start sharedQState (sharedQSeq.Row 0) = some sharedQSeq.Start ∧
      sharedQSeq.Start = 0 ∧ sharedQSeq.End = 4 ∧
      sharedQState.qletters.matrix sharedQSeq.Seq =
        [[{ L := 65, Q := 40 }], [{ L := 84, Q := 9 }], [{ L := 84, Q := 9 }],
         [{ L := 84, Q := 9 }]] ∧
      (QRow.Set sharedQState (sharedQSeq.Row 0) 1 { L := 67, Q := 7 }).map
          (fun st => st.1.qletters.matrix st.2.Seq) =
        some [[{ L := 65, Q := 40 }], [{ L := 67, Q := 7 }], [{ L := 67, Q := 7 }],
              [{ L := 67, Q := 7 }]]) ∧
    (∃ h1 s1, NewSeq raggedHeap "x" ["a", "b"] raggedBlock (some dna) 0 = .ok (h1, s1) ∧
      s1.Rows none = some 2 ∧ Row.Start h1 (s1.Row 1) = some s1.Start ∧
      s1.Start = 0 ∧ s1.End = 2 ∧
      Row.Set h1 (s1.Row 1) 1 { L := 116, Q := 0 } = none) :=
  ⟨⟨⟨rfl, rfl, rfl, rfl, ⟨_, rfl, rfl, rfl⟩, ⟨_, rfl, rfl⟩⟩,
    ⟨rfl, rfl, ⟨_, rfl, rfl, rfl⟩, ⟨_, rfl, rfl⟩⟩⟩,
   ⟨⟨_, _, rfl, rfl⟩, rfl, rfl, rfl, rfl, by decide⟩,
   ⟨_, _, rfl, rfl, rfl, rfl, rfl, rfl⟩⟩

end Alignment
